import Mathlib

/-!
Shallow embedding of `skimage/graph/graph_merge.py`: hierarchical merging of a
Region Adjacency Graph (RAG) driven by a lazy-invalidation priority queue.

Modelling decisions:
* Node ids are `Nat`; edge weights are `Int` (the code only compares and
  copies weights, so an ordered integral carrier is adequate).
* Python's mutable heap items `[wt, n1, n2, valid]` are modelled by an explicit
  entry store (`List Entry`); the heap is a list of store indices, and an
  edge's `'heap item'` back-reference is an `Option Nat` index into the store.
  Mutating `heap_item[3]` through the edge's reference is modelled by updating
  the store at that index, which is exactly the aliasing the code relies on.
* `heapq` is the Python standard library (an external collaborator): it is
  modelled by its contract, extraction of a minimal element under the
  lexicographic order on `(weight, n1, n2)`, with ties resolved to the oldest
  entry (matching the reachable tie behaviour of the list comparison, where a
  stale `False` flag orders before a live `True`).
* The RAG class itself is outside the given source; its primitives
  (`merge_nodes`, `next_id`, `copy`, node/edge accessors) are modelled from
  the spec where so marked.
* The caller-supplied `merge_func` may only combine domain attributes
  (spec section 6: side effects limited to attribute bags, no topology
  change); it is embedded as an attribute-update function, which enforces
  that contract by type.  `weight_func` is an arbitrary pure function.
-/

namespace GraphMerge

/-- Node attribute bag: the label set the algorithm maintains plus one opaque
domain attribute that the caller's `merge_func` may rewrite. -/
structure NodeData where
  labels : List Nat
  attr : Int
deriving DecidableEq, Repr, Inhabited

/-- Edge attribute bag: `'weight'` plus the optional `'heap item'`
back-reference (an index into the entry store). -/
structure EdgeData where
  weight : Int
  heapRef : Option Nat
deriving DecidableEq, Repr, Inhabited

/-- One stored edge record: unordered endpoint pair plus the data dict. -/
structure EdgeRec where
  u : Nat
  v : Nat
  data : EdgeData
deriving DecidableEq, Repr, Inhabited

/-- The fourth slot of a Python heap item `[wt, n1, n2, _]`: at
initialisation it holds the edge's (non-empty, hence truthy) attribute dict,
`_revalidate_node_edges` pushes the literal `True`, and invalidation
overwrites the slot with `False`. -/
inductive Slot where
  | dataDict
  | strue
  | sfalse
deriving DecidableEq, Repr, Inhabited

/-- Python truthiness of the validity slot: a non-empty dict and `True` are
truthy, `False` is not. -/
def Slot.truthy : Slot → Bool
  | .dataDict => true
  | .strue => true
  | .sfalse => false

/-- A queue entry `[wt, n1, n2, valid]`. -/
structure Entry where
  weight : Int
  a : Nat
  b : Nat
  slot : Slot
deriving DecidableEq, Repr, Inhabited

/-- The Region Adjacency Graph: nodes (in iteration order) and undirected
edges, each stored once. -/
structure RAG where
  nodes : List (Nat × NodeData)
  edges : List EdgeRec
deriving DecidableEq, Repr, Inhabited

/-- `{a, b} = {u, v}` as unordered pairs. -/
def pairEq (a b u v : Nat) : Bool :=
  (a = u && b = v) || (a = v && b = u)

theorem pairEq_symm (a b u v : Nat) : pairEq a b u v = pairEq u v a b := by
  unfold pairEq
  by_cases h1 : a = u <;> by_cases h2 : b = v <;> by_cases h3 : a = v <;>
    by_cases h4 : b = u <;> simp_all <;> tauto

namespace RAG

def hasNode (g : RAG) (n : Nat) : Bool :=
  g.nodes.any (fun p => p.1 = n)

def getNodeData (g : RAG) (n : Nat) : Option NodeData :=
  (g.nodes.find? (fun p => p.1 = n)).map Prod.snd

/-- Edge lookup by unordered endpoint pair (`graph[u][v]`). -/
def getEdge (g : RAG) (u v : Nat) : Option EdgeData :=
  (g.edges.find? (fun e => pairEq e.u e.v u v)).map EdgeRec.data

/-- Neighbor enumeration: one entry per incident edge, in edge storage
order. -/
def neighbors (g : RAG) (n : Nat) : List Nat :=
  g.edges.filterMap (fun e =>
    if e.u = n then some e.v else if e.v = n then some e.u else none)

/-- Update the data dict of the edge `{u, v}` (all stored records matching
the pair; a well-formed graph stores at most one). -/
def setEdgeData (g : RAG) (u v : Nat) (d : EdgeData) : RAG :=
  { g with edges := g.edges.map (fun e =>
      if pairEq e.u e.v u v then { e with data := d } else e) }

/-- `data['weight'] = w`, keeping the `'heap item'` reference. -/
def setWeight (g : RAG) (u v : Nat) (w : Int) : RAG :=
  { g with edges := g.edges.map (fun e =>
      if pairEq e.u e.v u v then { e with data := { e.data with weight := w } } else e) }

/-- `data['heap item'] = r`. -/
def setHeapRef (g : RAG) (u v : Nat) (r : Option Nat) : RAG :=
  { g with edges := g.edges.map (fun e =>
      if pairEq e.u e.v u v then { e with data := { e.data with heapRef := r } } else e) }

/-- `add_edge(u, v, data)` for a pair not yet present: appends a record. -/
def addEdge (g : RAG) (u v : Nat) (d : EdgeData) : RAG :=
  { g with edges := g.edges ++ [⟨u, v, d⟩] }

/-- `_add_node` followed by the attribute assignment. -/
def addNode (g : RAG) (n : Nat) (d : NodeData) : RAG :=
  { g with nodes := g.nodes ++ [(n, d)] }

/-- `remove_node(n)`: drops the node and every incident edge. -/
def removeNode (g : RAG) (n : Nat) : RAG :=
  { nodes := g.nodes.filter (fun p => p.1 ≠ n),
    edges := g.edges.filter (fun e => e.u ≠ n && e.v ≠ n) }

/-- Rewrite the attribute bag of node `n` in place. -/
def modifyNodeData (g : RAG) (n : Nat) (f : NodeData → NodeData) : RAG :=
  { g with nodes := g.nodes.map (fun p => if p.1 = n then (p.1, f p.2) else p) }

/-- Modelled from the spec: `allocate_id() -> node-id` of the Graph
collaborator (the RAG class is not part of the given source); it returns a
fresh id, realised as one past the maximum live node id. -/
def nextId (g : RAG) : Nat :=
  (g.nodes.map Prod.fst).foldr max 0 + 1

/-- Modelled from the spec: `copy() -> Graph`, a deep value copy. -/
def copy (g : RAG) : RAG :=
  { nodes := g.nodes, edges := g.edges }

end RAG

/-- Entry-store read; total, with an inert default for out-of-range indices
(which never occur in reachable states). -/
def entryAt : List Entry → Nat → Entry
  | [], _ => ⟨0, 0, 0, .sfalse⟩
  | e :: _, 0 => e
  | _ :: es, r + 1 => entryAt es r

/-- `heap_item[3] = False` through the shared reference: overwrite the
validity slot of store entry `r`. -/
def setSlotFalse : List Entry → Nat → List Entry
  | [], _ => []
  | e :: es, 0 => { e with slot := .sfalse } :: es
  | e :: es, r + 1 => e :: setSlotFalse es r

/-- Remove the first occurrence of `r` (heap indices are distinct in
reachable states, so this removes exactly the popped entry). -/
def removeFirst : List Nat → Nat → List Nat
  | [], _ => []
  | x :: xs, r => if x = r then xs else x :: removeFirst xs r

/-- Strict lexicographic order on `(weight, n1, n2)`: the comparison `heapq`
performs on the list items (the validity slot is never reached on comparisons
that arise in reachable states). -/
def keyLt (es : List Entry) (i j : Nat) : Bool :=
  let ei := entryAt es i
  let ej := entryAt es j
  ei.weight < ej.weight ||
    (ei.weight = ej.weight && (ei.a < ej.a ||
      (ei.a = ej.a && ei.b < ej.b)))

/-- Index (into the store) of the minimal entry of the heap, oldest first on
ties: the element `heapq` keeps at the root. -/
def minKeyId (es : List Entry) : List Nat → Option Nat
  | [] => none
  | r :: rest =>
    match minKeyId es rest with
    | none => some r
    | some b => if keyLt es b r then some b else some r

/-- The mutable state the contraction loop threads: the graph, the entry
store, and the heap (`edge_heap`) as a list of store indices. -/
structure MState where
  g : RAG
  entries : List Entry
  heap : List Nat
deriving DecidableEq, Repr, Inhabited

/-- `heapq.heappush(edge_heap, heap_item)`: the new entry's store index. -/
def pushEntry (s : MState) (e : Entry) : MState × Nat :=
  ({ s with entries := s.entries ++ [e], heap := s.heap ++ [s.entries.length] },
   s.entries.length)

def invalidateEntry (s : MState) (r : Nat) : MState :=
  { s with entries := setSlotFalse s.entries r }

/-- Failure channel: exceptions the Python run would raise. -/
inductive Err where
  | missingNode     -- node lookup / neighbor enumeration on an absent node
  | missingEdge     -- `rag[n1][n]` on an absent edge
  | missingHeapRef  -- uncaught KeyError on `data['heap item']`
  | labelOutOfRange -- numpy IndexError writing past the lookup table
  | emptyLabels     -- `labels.max()` on an empty array
  | fuelExhausted   -- artifact of the fuelled loop; unreachable (see C4)
deriving DecidableEq, Repr

instance {e a : Type} [DecidableEq e] [DecidableEq a] : DecidableEq (Except e a)
  | .error x, .error y =>
    if h : x = y then .isTrue (by rw [h])
    else .isFalse (by intro hc; cases hc; exact h rfl)
  | .error _, .ok _ => .isFalse (by intro hc; cases hc)
  | .ok _, .error _ => .isFalse (by intro hc; cases hc)
  | .ok x, .ok y =>
    if h : x = y then .isTrue (by rw [h])
    else .isFalse (by intro hc; cases hc; exact h rfl)

/-- The queue-initialisation pass of `merge_hierarchical` (lines 92-100):
for every edge push `[wt, n1, n2, data]` — the validity slot holds the
edge's attribute dict — and store the back-reference in the edge. -/
def initStep (st : MState) (e : EdgeRec) : MState :=
  let (st1, r) := pushEntry st ⟨e.data.weight, e.u, e.v, .dataDict⟩
  { st1 with g := st1.g.setHeapRef e.u e.v (some r) }

def initHeap (g : RAG) : MState :=
  g.edges.foldl initStep ⟨g, [], []⟩

/-- `_revalidate_node_edges`: for each neighbor of `node`, invalidate the
edge's existing heap item if it has one (the `try`/`except KeyError` block),
then push `[wt, node, n, True]` and store it as the edge's heap item. -/
def revalStep (node : Nat) (st : MState) (n : Nat) : MState :=
  let d := (st.g.getEdge node n).getD default
  let st1 := match d.heapRef with
    | some r => invalidateEntry st r
    | none => st
  let (st2, r2) := pushEntry st1 ⟨d.weight, node, n, .strue⟩
  { st2 with g := st2.g.setHeapRef node n (some r2) }

def revalidateNodeEdges (s : MState) (node : Nat) : MState :=
  (s.g.neighbors node).foldl (revalStep node) s

/-- `_copy_node`: add `copy_id`, alias `node_id`'s attribute bag onto it,
re-create every incident edge with a fresh data dict holding only the weight,
then remove `node_id`. -/
def copyEdgeStep (nodeId copyId : Nat) (h : RAG) (nbr : Nat) : RAG :=
  let wt := ((h.getEdge nodeId nbr).getD default).weight
  h.addEdge nbr copyId ⟨wt, none⟩

def copyNode (g : RAG) (nodeId copyId : Nat) : Except Err RAG :=
  match g.getNodeData nodeId with
  | none => .error .missingNode
  | some nd =>
    let g1 := g.addNode copyId nd
    let g2 := (g.neighbors nodeId).foldl (copyEdgeStep nodeId copyId) g1
    .ok (g2.removeNode nodeId)

/-- Modelled from the spec: `merge_nodes(src, dst, reweight) -> surviving-id`
of the Graph collaborator (the RAG class is not part of the given source).
`dst` absorbs `src`'s label set and adjacency; for every neighbor `n` of
either endpoint the reweight callback computes the new `dst`-`n` weight — an
existing `dst`-`n` edge has its weight updated in its data dict in place
(keeping its `'heap item'`), a new edge gets a fresh dict; `src` is removed;
the surviving id `dst` is returned. -/
def mergeEdgeStep (wf : RAG → Nat → Nat → Nat → Int) (g0 : RAG)
    (src dst : Nat) (h : RAG) (n : Nat) : RAG :=
  if (h.getEdge dst n).isSome then h.setWeight dst n (wf g0 src dst n)
  else h.addEdge dst n ⟨wf g0 src dst n, none⟩

def mergeNodes (wf : RAG → Nat → Nat → Nat → Int)
    (g : RAG) (src dst : Nat) : Except Err (Nat × RAG) :=
  if g.hasNode src && g.hasNode dst then
    let nbrs := ((g.neighbors src ++ g.neighbors dst).filter
      (fun n => n ≠ src && n ≠ dst))
    let g1 := nbrs.foldl (mergeEdgeStep wf g src dst) g
    let srcLabels := ((g.getNodeData src).getD default).labels
    let g2 := g1.modifyNodeData dst
      (fun nd => { nd with labels := nd.labels ++ srcLabels })
    .ok (dst, g2.removeNode src)
  else .error .missingNode

/-- The caller's `merge_func(graph, src, dst)`: per the spec its side effects
are limited to combining domain attributes, which the embedding enforces by
type — it may rewrite each node's opaque attribute as a function of the whole
graph and the merge endpoints. -/
def applyMergeFunc (mf : RAG → Nat → Nat → Nat → Int → Int)
    (g : RAG) (src dst : Nat) : RAG :=
  { g with nodes :=
      g.nodes.map (fun p => (p.1, { p.2 with attr := mf g src dst p.1 p.2.attr })) }

/-- The loop-body invalidation `for n in rag.neighbors(n1):
rag[n1][n]['heap item'][3] = False` — with no `try`/`except`, so a missing
node, edge, or `'heap item'` key raises.  `invalidateEdgeItem` models one
such statement given the edge-dict lookup's result. -/
def invalidateEdgeItem (s : MState) (dq : Option EdgeData) :
    Except Err MState :=
  match dq with
  | none => .error .missingEdge
  | some d =>
    match d.heapRef with
    | none => .error .missingHeapRef
    | some r => .ok (invalidateEntry s r)

def invalidateIncidentAux (s : MState) (node : Nat) :
    List Nat → Except Err MState
  | [] => .ok s
  | n :: rest => do
    let s1 ← invalidateEdgeItem s (s.g.getEdge node n)
    invalidateIncidentAux s1 node rest

def invalidateIncident (s : MState) (node : Nat) : Except Err MState :=
  if s.g.hasNode node then invalidateIncidentAux s node (s.g.neighbors node)
  else .error .missingNode

/-- `src, dst = n1, next_id` or `src, dst = n1, n2`, per merge mode. -/
def mergePair (inPlace : Bool) (g : RAG) (n1 n2 : Nat) : Nat × Nat :=
  if inPlace then (n1, n2) else (n1, g.nextId)

/-- The body of the `if valid:` branch (lines 106-124): invalidate `n1`'s
incident entries (and `n2`'s in copy mode), duplicate `n2` in copy mode,
call `merge_func`, merge, and re-seed the queue around the merged node. -/
def stepBody (mf : RAG → Nat → Nat → Nat → Int → Int)
    (wf : RAG → Nat → Nat → Nat → Int)
    (inPlace : Bool) (s : MState) (n1 n2 : Nat) : Except Err MState := do
  let s1 ← invalidateIncident s n1
  let s2 ← if inPlace then pure s1 else invalidateIncident s1 n2
  let (src, dst) := mergePair inPlace s2.g n1 n2
  let gC ← if inPlace then pure s2.g else copyNode s2.g n2 dst
  let gM := applyMergeFunc mf gC src dst
  let (newId, gF) ← mergeNodes wf gM src dst
  .ok (revalidateNodeEdges { s2 with g := gF } newId)

/-- What one loop iteration did: the popped item's weight, endpoints and
truthiness, and whether a merge was performed. -/
structure IterRec where
  w : Int
  n1 : Nat
  n2 : Nat
  valid : Bool
  merged : Bool
deriving DecidableEq, Repr

/-- One evaluation of the `while` condition plus (when it holds) one
iteration of the loop body. -/
inductive IterResult where
  | next (s : MState) (rec : IterRec)
  | stop (s : MState)
  | fail (e : Err) (s : MState) (rec : IterRec)
deriving DecidableEq, Repr

/-- One iteration of `while len(edge_heap) > 0 and edge_heap[0][0] < thresh`:
peek the root, test the threshold, pop, test truthiness of the validity slot,
and run the merge body on a truthy pop. -/
def iter (mf : RAG → Nat → Nat → Nat → Int → Int)
    (wf : RAG → Nat → Nat → Nat → Int)
    (thresh : Int) (inPlace : Bool) (s : MState) : IterResult :=
  match minKeyId s.entries s.heap with
  | none => .stop s
  | some r =>
    let e := entryAt s.entries r
    if e.weight < thresh then
      let s' : MState := { s with heap := removeFirst s.heap r }
      if e.slot.truthy then
        match stepBody mf wf inPlace s' e.a e.b with
        | .ok s'' => .next s'' ⟨e.weight, e.a, e.b, true, true⟩
        | .error err => .fail err s' ⟨e.weight, e.a, e.b, true, false⟩
      else .next s' ⟨e.weight, e.a, e.b, false, false⟩
    else .stop s

/-- Outcome of running the loop: normal exit, a raised exception, or fuel
exhaustion (an artifact of the fuelled encoding; see the termination
theorem). -/
inductive RunResult where
  | done (s : MState) (tr : List IterRec)
  | fail (e : Err) (s : MState) (tr : List IterRec)
  | outOfFuel (s : MState) (tr : List IterRec)
deriving DecidableEq, Repr

def RunResult.trace : RunResult → List IterRec
  | .done _ tr => tr
  | .fail _ _ tr => tr
  | .outOfFuel _ tr => tr

/-- The contraction loop (lines 102-124), fuelled, accumulating a trace of
iteration records. -/
def loop (mf : RAG → Nat → Nat → Nat → Int → Int)
    (wf : RAG → Nat → Nat → Nat → Int)
    (thresh : Int) (inPlace : Bool) :
    Nat → MState → List IterRec → RunResult
  | 0, s, tr => .outOfFuel s tr
  | fuel + 1, s, tr =>
    match iter mf wf thresh inPlace s with
    | .stop s' => .done s' tr
    | .fail e s' rec => .fail e s' (tr ++ [rec])
    | .next s' rec => loop mf wf thresh inPlace fuel s' (tr ++ [rec])

/-- The state after `k` completed loop iterations (an iteration boundary);
`none` once the loop has stopped, failed, or would stop within `k`
iterations. -/
def iterateK (mf : RAG → Nat → Nat → Nat → Int → Int)
    (wf : RAG → Nat → Nat → Nat → Int)
    (thresh : Int) (inPlace : Bool) : Nat → MState → Option MState
  | 0, s => some s
  | k + 1, s =>
    match iter mf wf thresh inPlace s with
    | .next s' _ => iterateK mf wf thresh inPlace k s'
    | _ => none

/-- Fuel that the termination theorem proves sufficient for every
well-formed input. -/
def fuelFor (s : MState) : Nat :=
  s.heap.length + 7 ^ s.g.nodes.length * (s.g.edges.length + 2) + 1

/-- Write `ix` into the lookup table at every label of the list, failing on
an out-of-range label exactly where numpy fancy assignment would. -/
def writeLabels (ix : Nat) : List Nat → List Nat → Except Err (List Nat)
  | arr, [] => .ok arr
  | arr, l :: rest =>
    if l < arr.length then writeLabels ix (arr.set l ix) rest
    else .error .labelOutOfRange

/-- The table-filling pass over the enumerated surviving nodes. -/
def remapFold (ps : List (Nat × (Nat × NodeData))) (arr : List Nat) :
    Except Err (List Nat) :=
  ps.foldlM (fun a p => writeLabels p.1 a p.2.2.labels) arr

/-- The remapping epilogue (lines 126-131): `arr = np.arange(labels.max()+1)`,
write each surviving node's 0-based position at all of its labels, in node
iteration order, and apply the table to the input elementwise. -/
def remap (labels : List Nat) (g : RAG) : Except Err (List Nat) :=
  if labels.isEmpty then .error .emptyLabels
  else
    match remapFold g.nodes.enum (List.range (labels.foldl max 0 + 1)) with
    | .error e => .error e
    | .ok arr => .ok (labels.map (fun l => arr.getD l 0))

/-- Result of the entry point, in state-passing style: the output (or the
exception raised), together with the final value of the caller's graph
object and of the caller's label array. -/
structure MHResult where
  output : Except Err (List Nat)
  callerRag : RAG
  callerLabels : List Nat
deriving Repr

/-- `merge_hierarchical(labels, rag, thresh, rag_copy, in_place_merge,
merge_func, weight_func)`:  optionally replace the working graph by a
private copy, seed the queue from all edges, run the contraction loop, and
remap.  The caller's objects come back explicitly: the graph is the private
original when `rag_copy` is set, otherwise the mutated working graph. -/
def merge_hierarchical (labels : List Nat) (rag : RAG) (thresh : Int)
    (rag_copy in_place_merge : Bool)
    (mf : RAG → Nat → Nat → Nat → Int → Int)
    (wf : RAG → Nat → Nat → Nat → Int) : MHResult :=
  let work := if rag_copy then rag.copy else rag
  let s0 := initHeap work
  let res := loop mf wf thresh in_place_merge (fuelFor s0) s0 []
  let finalG := match res with
    | .done s _ => s.g
    | .fail _ s _ => s.g
    | .outOfFuel s _ => s.g
  let out : Except Err (List Nat) := match res with
    | .done s _ => remap labels s.g
    | .fail e _ _ => .error e
    | .outOfFuel _ _ => .error .fuelExhausted
  { output := out,
    callerRag := if rag_copy then rag else finalG,
    callerLabels := labels }

/-! ### Entry-store and heap lemmas -/

theorem entryAt_append_lt (es es' : List Entry) (r : Nat) (h : r < es.length) :
    entryAt (es ++ es') r = entryAt es r := by
  induction es generalizing r with
  | nil => simp at h
  | cons e es ih =>
    cases r with
    | zero => rfl
    | succ r => exact ih r (by simpa using h)

theorem entryAt_append_len (es : List Entry) (e : Entry) :
    entryAt (es ++ [e]) es.length = e := by
  induction es with
  | nil => rfl
  | cons e' es ih => simpa using ih

theorem setSlotFalse_length (es : List Entry) (r : Nat) :
    (setSlotFalse es r).length = es.length := by
  induction es generalizing r with
  | nil => rfl
  | cons e es ih =>
    cases r with
    | zero => rfl
    | succ r => simpa [setSlotFalse] using ih r

theorem entryAt_setSlotFalse_self (es : List Entry) (r : Nat) (h : r < es.length) :
    entryAt (setSlotFalse es r) r = { entryAt es r with slot := .sfalse } := by
  induction es generalizing r with
  | nil => simp at h
  | cons e es ih =>
    cases r with
    | zero => rfl
    | succ r => exact ih r (by simpa using h)

theorem entryAt_setSlotFalse_ne (es : List Entry) (r r' : Nat) (h : r' ≠ r) :
    entryAt (setSlotFalse es r) r' = entryAt es r' := by
  induction es generalizing r r' with
  | nil => rfl
  | cons e es ih =>
    cases r with
    | zero =>
      cases r' with
      | zero => exact absurd rfl h
      | succ r' => rfl
    | succ r =>
      cases r' with
      | zero => rfl
      | succ r' => exact ih r r' (by omega)

theorem entryAt_setSlotFalse_slot (es : List Entry) (r r' : Nat) :
    (entryAt (setSlotFalse es r) r').slot = .sfalse ∨
    (entryAt (setSlotFalse es r) r') = entryAt es r' := by
  by_cases h : r' = r
  · subst h
    by_cases hlt : r' < es.length
    · exact .inl (by rw [entryAt_setSlotFalse_self es r' hlt])
    · right
      have : entryAt (setSlotFalse es r') r' = entryAt es r' := by
        induction es generalizing r' with
        | nil => rfl
        | cons e es ih =>
          cases r' with
          | zero => simp at hlt
          | succ r' =>
            simp only [setSlotFalse, entryAt]
            exact ih r' (by simp at hlt ⊢; omega)
      exact this
  · exact .inr (entryAt_setSlotFalse_ne es r r' h)

theorem mem_removeFirst {l : List Nat} {r x : Nat} (h : x ∈ removeFirst l r) :
    x ∈ l := by
  induction l with
  | nil => simpa [removeFirst] using h
  | cons y ys ih =>
    simp only [removeFirst] at h
    by_cases hy : y = r
    · simp [hy] at h; exact List.mem_cons_of_mem _ h
    · simp [hy] at h
      rcases h with h | h
      · exact h ▸ List.mem_cons_self _ _
      · exact List.mem_cons_of_mem _ (ih h)

theorem mem_removeFirst_of_ne {l : List Nat} {r x : Nat} (hx : x ∈ l)
    (hne : x ≠ r) : x ∈ removeFirst l r := by
  induction l with
  | nil => simpa using hx
  | cons y ys ih =>
    simp only [removeFirst]
    by_cases hy : y = r
    · simp [hy]
      rcases List.mem_cons.mp hx with h | h
      · exact absurd (h ▸ hy) hne
      · exact h
    · simp [hy]
      rcases List.mem_cons.mp hx with h | h
      · exact .inl h
      · exact .inr (ih h)

theorem removeFirst_length {l : List Nat} {r : Nat} (h : r ∈ l) :
    (removeFirst l r).length + 1 = l.length := by
  induction l with
  | nil => simp at h
  | cons y ys ih =>
    simp only [removeFirst]
    by_cases hy : y = r
    · simp [hy]
    · have : r ∈ ys := by
        rcases List.mem_cons.mp h with h' | h'
        · exact absurd h'.symm hy
        · exact h'
      simp [hy, ih this]

theorem removeFirst_nodup {l : List Nat} {r : Nat} (h : l.Nodup) :
    (removeFirst l r).Nodup := by
  induction l with
  | nil => simpa [removeFirst]
  | cons y ys ih =>
    simp only [removeFirst]
    rcases List.nodup_cons.mp h with ⟨hy, hys⟩
    by_cases he : y = r
    · simpa [he] using hys
    · simp only [he, if_false]
      exact List.nodup_cons.mpr ⟨fun hmem => hy (mem_removeFirst hmem), ih hys⟩

theorem not_mem_removeFirst {l : List Nat} {r : Nat} (h : l.Nodup) :
    r ∉ removeFirst l r := by
  induction l with
  | nil => simp [removeFirst]
  | cons y ys ih =>
    simp only [removeFirst]
    rcases List.nodup_cons.mp h with ⟨hy, hys⟩
    by_cases he : y = r
    · subst he
      simp only [if_pos rfl]
      exact hy
    · simp only [he, if_false, List.mem_cons]
      rintro (h' | h')
      · exact he h'.symm
      · exact ih hys h'

theorem minKeyId_mem {es : List Entry} {l : List Nat} {r : Nat}
    (h : minKeyId es l = some r) : r ∈ l := by
  induction l with
  | nil => simp [minKeyId] at h
  | cons y ys ih =>
    simp only [minKeyId] at h
    cases hm : minKeyId es ys with
    | none => rw [hm] at h; simp at h; simp [h]
    | some b =>
      rw [hm] at h
      by_cases hk : keyLt es b y
      · simp [hk] at h; exact List.mem_cons_of_mem _ (ih (h ▸ hm))
      · simp [hk] at h; simp [h]

theorem minKeyId_none_iff {es : List Entry} {l : List Nat} :
    minKeyId es l = none ↔ l = [] := by
  cases l with
  | nil => simp [minKeyId]
  | cons y ys =>
    simp only [minKeyId]
    cases minKeyId es ys with
    | none => simp
    | some b => by_cases hk : keyLt es b y <;> simp [hk]

/-- Propositional reading of the lexicographic entry comparison. -/
def keyLtP (es : List Entry) (i j : Nat) : Prop :=
  (entryAt es i).weight < (entryAt es j).weight ∨
    ((entryAt es i).weight = (entryAt es j).weight ∧
      ((entryAt es i).a < (entryAt es j).a ∨
        ((entryAt es i).a = (entryAt es j).a ∧
          (entryAt es i).b < (entryAt es j).b)))

theorem keyLt_eq_true_iff (es : List Entry) (i j : Nat) :
    keyLt es i j = true ↔ keyLtP es i j := by
  simp [keyLt, keyLtP]

theorem keyLt_eq_false_iff (es : List Entry) (i j : Nat) :
    keyLt es i j = false ↔ ¬ keyLtP es i j := by
  rw [← keyLt_eq_true_iff]
  cases keyLt es i j <;> simp

theorem keyLt_self (es : List Entry) (i : Nat) : keyLt es i i = false := by
  rw [keyLt_eq_false_iff]
  unfold keyLtP
  omega

theorem keyLt_false_trans {es : List Entry} {i j k : Nat}
    (h1 : keyLt es i j = false) (h2 : keyLt es j k = false) :
    keyLt es i k = false := by
  rw [keyLt_eq_false_iff] at h1 h2 ⊢
  unfold keyLtP at h1 h2 ⊢
  omega

theorem keyLt_false_of_true {es : List Entry} {i j : Nat}
    (h : keyLt es i j = true) : keyLt es j i = false := by
  rw [keyLt_eq_true_iff] at h
  rw [keyLt_eq_false_iff]
  unfold keyLtP at h ⊢
  omega

theorem minKeyId_min {es : List Entry} {l : List Nat} {r : Nat}
    (h : minKeyId es l = some r) : ∀ j ∈ l, keyLt es j r = false := by
  induction l generalizing r with
  | nil => simp [minKeyId] at h
  | cons y ys ih =>
    intro j hj
    simp only [minKeyId] at h
    cases hm : minKeyId es ys with
    | none =>
      rw [hm] at h
      obtain rfl : y = r := by simpa using h
      have hys : ys = [] := minKeyId_none_iff.mp hm
      subst hys
      obtain rfl : j = y := by simpa using hj
      exact keyLt_self es j
    | some b =>
      rw [hm] at h
      by_cases hk : keyLt es b y
      · obtain rfl : b = r := by simpa [hk] using h
        rcases List.mem_cons.mp hj with hj' | hj'
        · exact hj' ▸ keyLt_false_of_true hk
        · exact ih hm j hj'
      · obtain rfl : y = r := by simpa [hk] using h
        have hk' : keyLt es b y = false := by simpa using hk
        rcases List.mem_cons.mp hj with hj' | hj'
        · exact hj' ▸ keyLt_self es y
        · exact keyLt_false_trans (ih hm j hj') hk'

/-- A pop (the heap root) carries a weight no larger than the weight of any
entry still queued. -/
theorem minKeyId_weight_min {es : List Entry} {l : List Nat} {r : Nat}
    (h : minKeyId es l = some r) :
    ∀ j ∈ l, (entryAt es r).weight ≤ (entryAt es j).weight := by
  intro j hj
  have := minKeyId_min h j hj
  simp [keyLt] at this
  omega

/-! ### Concrete instances used by witnesses and counterexamples -/

/-- A callback pair conforming to the collaborator contracts: identity
attribute merge, constant-zero reweight. -/
def mfId : RAG → Nat → Nat → Nat → Int → Int := fun _ _ _ _ a => a

def wfZero : RAG → Nat → Nat → Nat → Int := fun _ _ _ _ => 0

/-- Three nodes in a path, weights 5 and 6. -/
def pathGraph : RAG :=
  ⟨[(1, ⟨[1], 0⟩), (2, ⟨[2], 0⟩), (3, ⟨[3], 0⟩)],
   [⟨1, 2, ⟨5, none⟩⟩, ⟨2, 3, ⟨6, none⟩⟩]⟩

def IterResult.isFail : IterResult → Bool
  | .fail _ _ _ => true
  | _ => false

def IterResult.didMerge : IterResult → Bool
  | .next _ rec => rec.merged
  | _ => false

/-- The weights of the valid pops of a trace, in order. -/
def validWeights (tr : List IterRec) : List Int :=
  tr.filterMap (fun r => if r.valid then some r.w else none)

def nonDecreasing : List Int → Bool
  | [] => true
  | [_] => true
  | x :: y :: rest => x ≤ y && nonDecreasing (y :: rest)

/-! ### C10: initial entries carry the data dict in the validity slot -/

theorem initFold_slots (l : List EdgeRec) (st : MState)
    (h : ∀ e ∈ st.entries, e.slot = Slot.dataDict) :
    ∀ e ∈ (l.foldl initStep st).entries, e.slot = Slot.dataDict := by
  induction l generalizing st with
  | nil => exact h
  | cons x xs ih =>
    refine ih (initStep st x) ?_
    intro e he
    simp only [initStep, pushEntry, RAG.setHeapRef, List.mem_append,
      List.mem_singleton] at he
    rcases he with he | he
    · exact h e he
    · rw [he]

/-- C10: every entry pushed during queue initialisation holds the edge's
attribute dict (not the boolean `True`) in its validity slot; the pop-time
check is a truthiness test, under which the dict counts as valid and an
invalidated slot (overwritten with `False`) does not. -/
theorem C10_init_slot_is_data_dict :
    (∀ g : RAG, ∀ e ∈ (initHeap g).entries, e.slot = Slot.dataDict) ∧
    Slot.truthy .dataDict = true ∧
    Slot.truthy .strue = true ∧
    Slot.truthy .sfalse = false ∧
    (∀ es : List Entry, ∀ r : Nat, r < es.length →
      (entryAt (setSlotFalse es r) r).slot = Slot.sfalse) := by
  refine ⟨?_, rfl, rfl, rfl, ?_⟩
  · intro g
    exact initFold_slots g.edges ⟨g, [], []⟩ (by intro e he; simp at he)
  · intro es r h
    rw [entryAt_setSlotFalse_self es r h]

theorem C10_init_slot_is_data_dict_witness :
    (entryAt (initHeap pathGraph).entries 0).slot = Slot.dataDict ∧
    Slot.truthy (entryAt (initHeap pathGraph).entries 0).slot = true ∧
    (entryAt (setSlotFalse (initHeap pathGraph).entries 0) 0).slot = Slot.sfalse := by
  have h1 := C10_init_slot_is_data_dict.1 pathGraph
    (entryAt (initHeap pathGraph).entries 0) (by decide)
  have h2 := C10_init_slot_is_data_dict.2.2.2.2 (initHeap pathGraph).entries 0 (by decide)
  exact ⟨h1, by rw [h1]; exact C10_init_slot_is_data_dict.2.1, h2⟩

/-! ### C9: caller-owned objects survive a `rag_copy` run untouched -/

/-- C9: with `rag_copy` set the caller's graph object is left with its
original value (the run mutates a private copy), and the caller's label
array is never written regardless of flags. -/
theorem C9_caller_objects_preserved (labels : List Nat) (rag : RAG)
    (thresh : Int) (ip : Bool)
    (mf : RAG → Nat → Nat → Nat → Int → Int)
    (wf : RAG → Nat → Nat → Nat → Int) :
    ((merge_hierarchical labels rag thresh true ip mf wf).callerRag = rag) ∧
    (∀ rc : Bool,
      (merge_hierarchical labels rag thresh rc ip mf wf).callerLabels = labels) := by
  exact ⟨rfl, fun _ => rfl⟩

/-! ### C7: processing order -/

/-- C7 (amended): each pop returns an entry of minimal weight among all
entries currently in the queue; across pops the valid popped weights need
not be non-decreasing, because a merge may push entries lighter than the
weight just popped. -/
theorem C7_pop_is_minimum {s : MState} {r : Nat}
    (h : minKeyId s.entries s.heap = some r) :
    ∀ j ∈ s.heap, (entryAt s.entries r).weight ≤ (entryAt s.entries j).weight :=
  minKeyId_weight_min h

theorem C7_pop_is_minimum_witness :
    minKeyId (initHeap pathGraph).entries (initHeap pathGraph).heap = some 0 ∧
    (entryAt (initHeap pathGraph).entries 0).weight ≤
      (entryAt (initHeap pathGraph).entries 1).weight := by
  refine ⟨by decide, C7_pop_is_minimum (by decide) 1 (by decide)⟩

/-- C7 (counterexample): on the three-node path graph with the constant-zero
reweight callback and threshold 10, the run pops valid weights 5 and then 0:
the valid popped weights are not non-decreasing. -/
theorem C7_counterexample :
    validWeights
        (loop mfId wfZero 10 true (fuelFor (initHeap pathGraph))
          (initHeap pathGraph) []).trace = [5, 0] ∧
    nonDecreasing [5, 0] = false := by
  constructor
  · decide
  · decide

/-! ### C6: behaviour on a valid entry whose edge is gone -/

/-- A state whose queued entry is valid but names the absent edge `{1, 2}`;
both endpoints are live nodes. -/
def ghostEdgeState : MState :=
  ⟨⟨[(1, ⟨[1], 0⟩), (2, ⟨[2], 0⟩)], []⟩, [⟨3, 1, 2, .strue⟩], [0]⟩

/-- C6 (counterexample): popping a valid entry for an edge absent from the
graph, with both endpoints still present, raises no error at all: the loop
body runs to completion and even performs the merge of the two endpoints. -/
theorem C6_counterexample :
    ghostEdgeState.g.getEdge 1 2 = none ∧
    ghostEdgeState.g.hasNode 1 = true ∧
    ghostEdgeState.g.hasNode 2 = true ∧
    (entryAt ghostEdgeState.entries 0).slot.truthy = true ∧
    minKeyId ghostEdgeState.entries ghostEdgeState.heap = some 0 ∧
    (iter mfId wfZero 10 true ghostEdgeState).isFail = false ∧
    (iter mfId wfZero 10 true ghostEdgeState).didMerge = true := by
  decide

/-- C6 (amended): the loop performs no edge-presence check on a valid pop;
an abort happens only through an incidental failure, namely when the popped
entry's first endpoint is no longer a node, in which case its neighbor
enumeration fails and the run stops with an error at once. -/
theorem C6_missing_endpoint_aborts
    {mf : RAG → Nat → Nat → Nat → Int → Int}
    {wf : RAG → Nat → Nat → Nat → Int} {thresh : Int} {ip : Bool}
    {s : MState} {r : Nat}
    (hmin : minKeyId s.entries s.heap = some r)
    (hw : (entryAt s.entries r).weight < thresh)
    (hv : (entryAt s.entries r).slot.truthy = true)
    (hn : s.g.hasNode (entryAt s.entries r).a = false) :
    iter mf wf thresh ip s =
      .fail .missingNode { s with heap := removeFirst s.heap r }
        ⟨(entryAt s.entries r).weight, (entryAt s.entries r).a,
         (entryAt s.entries r).b, true, false⟩ := by
  unfold iter
  rw [hmin]
  simp only
  rw [if_pos hw, if_pos hv]
  have hsb : stepBody mf wf ip { s with heap := removeFirst s.heap r }
      (entryAt s.entries r).a (entryAt s.entries r).b =
      .error .missingNode := by
    unfold stepBody invalidateIncident
    simp [hn, Bind.bind, Except.bind]
  rw [hsb]

/-- A state whose queued valid entry names endpoint 1, which is not a node. -/
def ghostNodeState : MState :=
  ⟨⟨[(2, ⟨[2], 0⟩)], []⟩, [⟨3, 1, 2, .strue⟩], [0]⟩

theorem C6_missing_endpoint_aborts_witness :
    iter mfId wfZero 10 true ghostNodeState =
      .fail .missingNode ⟨ghostNodeState.g, ghostNodeState.entries, []⟩
        ⟨3, 1, 2, true, false⟩ := by
  have h := @C6_missing_endpoint_aborts mfId wfZero 10 true ghostNodeState 0
    (by decide) (by decide) (by decide) (by decide)
  exact h

/-! ### C5: uncovered labels at remap time -/

theorem foldl_max_le_init (l : List Nat) (a : Nat) : a ≤ l.foldl max a := by
  induction l generalizing a with
  | nil => simp
  | cons x xs ih => exact le_trans (le_max_left a x) (ih (max a x))

theorem le_foldl_max {l : List Nat} {x : Nat} (h : x ∈ l) (a : Nat) :
    x ≤ l.foldl max a := by
  induction l generalizing a with
  | nil => simp at h
  | cons y ys ih =>
    rw [List.foldl_cons]
    rcases List.mem_cons.mp h with h' | h'
    · subst h'
      exact le_trans (le_max_right a x) (foldl_max_le_init ys (max a x))
    · exact ih h' (max a y)

theorem writeLabels_length {ix : Nat} {ls : List Nat} {arr arr2 : List Nat}
    (h : writeLabels ix arr ls = .ok arr2) : arr2.length = arr.length := by
  induction ls generalizing arr with
  | nil =>
    simp only [writeLabels] at h
    cases h
    rfl
  | cons l rest ih =>
    simp only [writeLabels] at h
    by_cases hl : l < arr.length
    · rw [if_pos hl] at h
      rw [ih h]
      simp
    · rw [if_neg hl] at h
      cases h

theorem writeLabels_getD_notmem {ix l : Nat} {ls : List Nat}
    {arr arr2 : List Nat} (h : writeLabels ix arr ls = .ok arr2)
    (hl : l ∉ ls) : arr2.getD l 0 = arr.getD l 0 := by
  induction ls generalizing arr with
  | nil =>
    simp only [writeLabels] at h
    cases h
    rfl
  | cons x rest ih =>
    simp only [writeLabels] at h
    by_cases hx : x < arr.length
    · rw [if_pos hx] at h
      have hne : x ≠ l := fun he => hl (he ▸ List.mem_cons_self x rest)
      rw [ih h (fun hm => hl (List.mem_cons_of_mem x hm))]
      simp [List.getD_eq_getElem?_getD, List.getElem?_set_ne hne]
    · rw [if_neg hx] at h
      cases h

theorem writeLabels_getD_mem {ix l : Nat} {ls : List Nat}
    {arr arr2 : List Nat} (h : writeLabels ix arr ls = .ok arr2)
    (hl : l ∈ ls) : arr2.getD l 0 = ix := by
  induction ls generalizing arr with
  | nil => simp at hl
  | cons x rest ih =>
    simp only [writeLabels] at h
    by_cases hx : x < arr.length
    · rw [if_pos hx] at h
      by_cases hxl : l = x
      · subst hxl
        by_cases hrest : l ∈ rest
        · exact ih h hrest
        · rw [writeLabels_getD_notmem h hrest]
          simp [List.getD_eq_getElem?_getD, List.getElem?_set_self, hx]
      · rcases List.mem_cons.mp hl with h' | h'
        · exact absurd h' hxl
        · exact ih h h'
    · rw [if_neg hx] at h
      cases h

theorem remapFold_length {ps : List (Nat × (Nat × NodeData))}
    {arr arr2 : List Nat} (h : remapFold ps arr = .ok arr2) :
    arr2.length = arr.length := by
  induction ps generalizing arr with
  | nil =>
    simp only [remapFold, List.foldlM_nil] at h
    cases h
    rfl
  | cons p rest ih =>
    simp only [remapFold, List.foldlM_cons] at h
    cases hw : writeLabels p.1 arr p.2.2.labels with
    | error e => rw [hw] at h; simp [Bind.bind, Except.bind] at h
    | ok arr1 =>
      rw [hw] at h
      simp only [Bind.bind, Except.bind] at h
      rw [ih h, writeLabels_length hw]

theorem remapFold_getD_notmem {ps : List (Nat × (Nat × NodeData))} {l : Nat}
    {arr arr2 : List Nat} (h : remapFold ps arr = .ok arr2)
    (hgap : ∀ p ∈ ps, l ∉ p.2.2.labels) : arr2.getD l 0 = arr.getD l 0 := by
  induction ps generalizing arr with
  | nil =>
    simp only [remapFold, List.foldlM_nil] at h
    cases h
    rfl
  | cons p rest ih =>
    simp only [remapFold, List.foldlM_cons] at h
    cases hw : writeLabels p.1 arr p.2.2.labels with
    | error e => rw [hw] at h; simp [Bind.bind, Except.bind] at h
    | ok arr1 =>
      rw [hw] at h
      simp only [Bind.bind, Except.bind] at h
      rw [ih h (fun q hq => hgap q (List.mem_cons_of_mem p hq)),
        writeLabels_getD_notmem hw (hgap p (List.mem_cons_self p rest))]

/-- Unfolded form of a successful remap. -/
theorem remap_ok_elim {labels : List Nat} {g : RAG} {out : List Nat}
    (h : remap labels g = .ok out) :
    labels.isEmpty = false ∧
    ∃ arr, remapFold g.nodes.enum (List.range (labels.foldl max 0 + 1)) = .ok arr ∧
      out = labels.map (fun l => arr.getD l 0) := by
  unfold remap at h
  by_cases he : labels.isEmpty
  · rw [if_pos he] at h; cases h
  · rw [if_neg he] at h
    refine ⟨by simpa using he, ?_⟩
    cases hf : remapFold g.nodes.enum (List.range (labels.foldl max 0 + 1)) with
    | error e =>
      rw [hf] at h
      cases h
    | ok arr =>
      rw [hf] at h
      simp only [Except.ok.injEq] at h
      exact ⟨arr, rfl, h.symm⟩

/-- C5 (amended): the remapper performs no coverage check and cannot fail on
a coverage gap: when no surviving node's label set contains the value at
input position `i`, the output element at `i` is the well-defined identity
value `labels[i]`, inherited from the `arange` initialisation of the lookup
table — no error is raised and no element is left undefined. -/
theorem C5_uncovered_label_identity {labels : List Nat} {g : RAG}
    {out : List Nat} (h : remap labels g = .ok out) (i : Nat)
    (hi : i < labels.length)
    (hgap : ∀ p ∈ g.nodes, labels.getD i 0 ∉ p.2.labels) :
    out.getD i 0 = labels.getD i 0 := by
  obtain ⟨-, arr, hf, rfl⟩ := remap_ok_elim h
  have hmap : (labels.map (fun l => arr.getD l 0)).getD i 0 =
      arr.getD (labels.getD i 0) 0 := by
    simp [List.getD_eq_getElem?_getD, List.getElem?_map,
      List.getElem?_eq_getElem hi]
  rw [hmap]
  have henum : ∀ p ∈ g.nodes.enum, labels.getD i 0 ∉ p.2.2.labels := by
    intro p hp
    have : p.2 ∈ g.nodes := by
      rw [List.mem_enum_iff_getElem?] at hp
      exact List.getElem?_mem hp
    exact hgap p.2 this
  rw [remapFold_getD_notmem hf henum]
  have hle : labels.getD i 0 ≤ labels.foldl max 0 := by
    have : labels.getD i 0 ∈ labels := by
      rw [List.getD_eq_getElem?_getD, List.getElem?_eq_getElem hi]
      exact List.getElem_mem hi
    exact le_foldl_max this 0
  set l0 := labels.getD i 0 with hl0
  have hlt : l0 < List.foldl max 0 labels + 1 := by omega
  simp [List.getD_eq_getElem?_getD, List.getElem?_range hlt]

/-- A final graph whose single surviving node covers label 0 only. -/
def gapGraph : RAG := ⟨[(0, ⟨[0], 0⟩)], []⟩

/-- C5 (counterexample): with input `[0, 1]` and a final graph covering only
label 0, the remapper raises no error and returns `[0, 1]`: the uncovered
label 1 is mapped to the arbitrary-but-defined identity value 1, not
detected as a coverage gap. -/
theorem C5_counterexample :
    gapGraph.nodes.all (fun p => !(p.2.labels.contains 1)) = true ∧
    remap [0, 1] gapGraph = .ok [0, 1] := by
  constructor
  · decide
  · decide

theorem C5_uncovered_label_identity_witness :
    remap [0, 1] ⟨[(0, ⟨[0], 0⟩), (9, ⟨[], 5⟩)], []⟩ = .ok [0, 1] ∧
    (1 : Nat) < 2 ∧
    ([0, 1] : List Nat).getD 1 0 = 1 := by
  refine ⟨?_, by omega, by rfl⟩
  have h0 : remap [0, 1] ⟨[(0, ⟨[0], 0⟩), (9, ⟨[], 5⟩)], []⟩ =
      .ok [0, 1] := by decide
  have := C5_uncovered_label_identity h0 1 (by decide) (by decide)
  exact h0

/-! ### C2: merges are gated by validity and the threshold -/

theorem iter_next_rec {mf : RAG → Nat → Nat → Nat → Int → Int}
    {wf : RAG → Nat → Nat → Nat → Int} {th : Int} {ip : Bool}
    {s s2 : MState} {rec : IterRec}
    (h : iter mf wf th ip s = .next s2 rec) :
    rec.merged = true → rec.valid = true ∧ rec.w < th := by
  unfold iter at h
  cases hmin : minKeyId s.entries s.heap with
  | none => rw [hmin] at h; cases h
  | some r =>
    rw [hmin] at h
    simp only at h
    by_cases hw : (entryAt s.entries r).weight < th
    · rw [if_pos hw] at h
      by_cases hv : (entryAt s.entries r).slot.truthy
      · rw [if_pos hv] at h
        cases hsb : stepBody mf wf ip { s with heap := removeFirst s.heap r }
            (entryAt s.entries r).a (entryAt s.entries r).b with
        | ok s3 =>
          rw [hsb] at h
          cases h
          intro hm
          exact ⟨rfl, hw⟩
        | error e => rw [hsb] at h; cases h
      · rw [if_neg hv] at h
        cases h
        intro hm
        cases hm
    · rw [if_neg hw] at h; cases h

theorem iter_fail_rec {mf : RAG → Nat → Nat → Nat → Int → Int}
    {wf : RAG → Nat → Nat → Nat → Int} {th : Int} {ip : Bool}
    {s s2 : MState} {e : Err} {rec : IterRec}
    (h : iter mf wf th ip s = .fail e s2 rec) : rec.merged = false := by
  unfold iter at h
  cases hmin : minKeyId s.entries s.heap with
  | none => rw [hmin] at h; cases h
  | some r =>
    rw [hmin] at h
    simp only at h
    by_cases hw : (entryAt s.entries r).weight < th
    · rw [if_pos hw] at h
      by_cases hv : (entryAt s.entries r).slot.truthy
      · rw [if_pos hv] at h
        cases hsb : stepBody mf wf ip { s with heap := removeFirst s.heap r }
            (entryAt s.entries r).a (entryAt s.entries r).b with
        | ok s3 => rw [hsb] at h; cases h
        | error e2 =>
          rw [hsb] at h
          cases h
          rfl
      · rw [if_neg hv] at h; cases h
    · rw [if_neg hw] at h; cases h

theorem iter_stop_elim {mf : RAG → Nat → Nat → Nat → Int → Int}
    {wf : RAG → Nat → Nat → Nat → Int} {th : Int} {ip : Bool}
    {s s2 : MState} (h : iter mf wf th ip s = .stop s2) :
    s2 = s ∧ (s.heap = [] ∨ ∃ r, minKeyId s.entries s.heap = some r ∧
      ¬ (entryAt s.entries r).weight < th) := by
  unfold iter at h
  cases hmin : minKeyId s.entries s.heap with
  | none =>
    rw [hmin] at h
    cases h
    exact ⟨rfl, .inl (minKeyId_none_iff.mp hmin)⟩
  | some r =>
    rw [hmin] at h
    simp only at h
    by_cases hw : (entryAt s.entries r).weight < th
    · rw [if_pos hw] at h
      by_cases hv : (entryAt s.entries r).slot.truthy
      · rw [if_pos hv] at h
        cases hsb : stepBody mf wf ip { s with heap := removeFirst s.heap r }
            (entryAt s.entries r).a (entryAt s.entries r).b with
        | ok s3 => rw [hsb] at h; cases h
        | error e2 => rw [hsb] at h; cases h
      · rw [if_neg hv] at h; cases h
    · rw [if_neg hw] at h
      cases h
      exact ⟨rfl, .inr ⟨r, hmin ▸ rfl, hw⟩⟩

theorem iter_stop_of_cond {mf : RAG → Nat → Nat → Nat → Int → Int}
    {wf : RAG → Nat → Nat → Nat → Int} {th : Int} {ip : Bool} {s : MState}
    (hc : s.heap = [] ∨ ∃ r, minKeyId s.entries s.heap = some r ∧
      ¬ (entryAt s.entries r).weight < th) :
    iter mf wf th ip s = .stop s := by
  unfold iter
  rcases hc with hc | ⟨r, hr, hw⟩
  · rw [minKeyId_none_iff.mpr hc]
  · rw [hr]
    simp only
    rw [if_neg hw]

theorem loop_trace_prop (mf : RAG → Nat → Nat → Nat → Int → Int)
    (wf : RAG → Nat → Nat → Nat → Int) (th : Int) (ip : Bool)
    (fuel : Nat) (s : MState) (tr : List IterRec)
    (htr : ∀ rec ∈ tr, rec.merged = true → rec.valid = true ∧ rec.w < th) :
    ∀ rec ∈ (loop mf wf th ip fuel s tr).trace,
      rec.merged = true → rec.valid = true ∧ rec.w < th := by
  induction fuel generalizing s tr with
  | zero => exact htr
  | succ n ih =>
    simp only [loop]
    cases hit : iter mf wf th ip s with
    | stop s2 => exact htr
    | fail e s2 rec =>
      intro rec2 hrec2
      simp only [RunResult.trace] at hrec2
      rcases List.mem_append.mp hrec2 with hm | hm
      · exact htr rec2 hm
      · rw [List.mem_singleton] at hm
        subst hm
        intro hmg
        rw [iter_fail_rec hit] at hmg
        cases hmg
    | next s2 rec =>
      refine ih s2 (tr ++ [rec]) ?_
      intro rec2 hrec2
      rcases List.mem_append.mp hrec2 with hm | hm
      · exact htr rec2 hm
      · rw [List.mem_singleton] at hm
        exact hm ▸ iter_next_rec hit

theorem loop_done_cond {mf : RAG → Nat → Nat → Nat → Int → Int}
    {wf : RAG → Nat → Nat → Nat → Int} {th : Int} {ip : Bool} {fuel : Nat}
    {s s2 : MState} {tr tr2 : List IterRec}
    (h : loop mf wf th ip fuel s tr = .done s2 tr2) :
    s2.heap = [] ∨ ∃ r, minKeyId s2.entries s2.heap = some r ∧
      ¬ (entryAt s2.entries r).weight < th := by
  induction fuel generalizing s tr with
  | zero => cases h
  | succ n ih =>
    simp only [loop] at h
    cases hit : iter mf wf th ip s with
    | stop s0 =>
      rw [hit] at h
      cases h
      obtain ⟨rfl, hcond⟩ := iter_stop_elim hit
      exact hcond
    | fail e s0 rec => rw [hit] at h; cases h
    | next s0 rec =>
      rw [hit] at h
      exact ih h

/-- C2: a merge happens only on a valid pop whose entry weight at pop time
is strictly below the threshold (never at or above it), and the loop stops
exactly when the queue is empty or the minimal queued weight is at or above
the threshold. -/
theorem C2_merge_gating (mf : RAG → Nat → Nat → Nat → Int → Int)
    (wf : RAG → Nat → Nat → Nat → Int) (th : Int) (ip : Bool)
    (fuel : Nat) (s : MState) :
    (∀ rec ∈ (loop mf wf th ip fuel s []).trace,
       rec.merged = true → rec.valid = true ∧ rec.w < th) ∧
    (∀ s2 tr2, loop mf wf th ip fuel s [] = .done s2 tr2 →
       s2.heap = [] ∨ ∃ r, minKeyId s2.entries s2.heap = some r ∧
         ¬ (entryAt s2.entries r).weight < th) ∧
    ((s.heap = [] ∨ ∃ r, minKeyId s.entries s.heap = some r ∧
         ¬ (entryAt s.entries r).weight < th) →
       iter mf wf th ip s = .stop s) := by
  refine ⟨loop_trace_prop mf wf th ip fuel s [] (by simp), ?_, iter_stop_of_cond⟩
  intro s2 tr2 h
  exact loop_done_cond h

theorem C2_merge_gating_witness :
    ((⟨5, 1, 2, true, true⟩ : IterRec).valid = true ∧ (5 : Int) < 10) ∧
    iter mfId wfZero 10 true
        ⟨pathGraph, [⟨20, 1, 2, .dataDict⟩], [0]⟩ =
      .stop ⟨pathGraph, [⟨20, 1, 2, .dataDict⟩], [0]⟩ := by
  constructor
  · exact (C2_merge_gating mfId wfZero 10 true (fuelFor (initHeap pathGraph))
      (initHeap pathGraph)).1 ⟨5, 1, 2, true, true⟩ (by decide) (by decide)
  · exact (C2_merge_gating mfId wfZero 10 true 1
      ⟨pathGraph, [⟨20, 1, 2, .dataDict⟩], [0]⟩).2.2 (by decide)

/-! ### Graph well-formedness and lookup lemmas -/

/-- Well-formedness of a RAG value: distinct node ids, at most one stored
record per unordered edge pair, edge endpoints are live nodes, and no
self-loops — the shape of any caller-built region adjacency graph. -/
structure WFG (g : RAG) : Prop where
  nodesNodup : (g.nodes.map Prod.fst).Nodup
  pairsNodup : g.edges.Pairwise (fun e1 e2 => pairEq e1.u e1.v e2.u e2.v = false)
  endpoints : ∀ e ∈ g.edges, g.hasNode e.u = true ∧ g.hasNode e.v = true
  noSelf : ∀ e ∈ g.edges, e.u ≠ e.v

theorem hasNode_iff {g : RAG} {n : Nat} :
    g.hasNode n = true ↔ ∃ p ∈ g.nodes, p.1 = n := by
  simp [RAG.hasNode, List.any_eq_true]

theorem le_foldr_max {l : List Nat} {x : Nat} (h : x ∈ l) : x ≤ l.foldr max 0 := by
  induction l with
  | nil => simp at h
  | cons y ys ih =>
    rcases List.mem_cons.mp h with h' | h'
    · rw [h', List.foldr_cons]
      exact le_max_left y (ys.foldr max 0)
    · exact le_trans (ih h') (le_max_right y (ys.foldr max 0))

/-- The allocated id is fresh. -/
theorem nextId_not_node (g : RAG) : g.hasNode g.nextId = false := by
  by_contra h
  have h2 : g.hasNode g.nextId = true := by
    cases hb : g.hasNode g.nextId with
    | true => rfl
    | false => exact absurd hb h
  obtain ⟨p, hp, hpn⟩ := hasNode_iff.mp h2
  have : p.1 ≤ (g.nodes.map Prod.fst).foldr max 0 :=
    le_foldr_max (List.mem_map_of_mem Prod.fst hp)
  rw [hpn] at this
  unfold RAG.nextId at this
  omega

theorem node_id_lt_nextId {g : RAG} {n : Nat} (h : g.hasNode n = true) :
    n < g.nextId := by
  obtain ⟨p, hp, hpn⟩ := hasNode_iff.mp h
  have : p.1 ≤ (g.nodes.map Prod.fst).foldr max 0 :=
    le_foldr_max (List.mem_map_of_mem Prod.fst hp)
  unfold RAG.nextId
  omega

theorem mem_neighbors_iff {g : RAG} {m n : Nat} :
    n ∈ g.neighbors m ↔
      ∃ e ∈ g.edges, (e.u = m ∧ e.v = n) ∨ (e.v = m ∧ e.u = n ∧ e.u ≠ m) := by
  simp only [RAG.neighbors, List.mem_filterMap]
  constructor
  · rintro ⟨e, he, hcond⟩
    by_cases h1 : e.u = m
    · rw [if_pos h1] at hcond
      exact ⟨e, he, .inl ⟨h1, by simpa using hcond⟩⟩
    · rw [if_neg h1] at hcond
      by_cases h2 : e.v = m
      · rw [if_pos h2] at hcond
        exact ⟨e, he, .inr ⟨h2, by simpa using hcond, h1⟩⟩
      · rw [if_neg h2] at hcond
        cases hcond
  · rintro ⟨e, he, hcase⟩
    refine ⟨e, he, ?_⟩
    rcases hcase with ⟨h1, h2⟩ | ⟨h1, h2, h3⟩
    · rw [if_pos h1, h2]
    · rw [if_neg h3, if_pos h1, h2]

/-- An endpoint occurring in a neighbor list is an edge endpoint. -/
theorem neighbors_mem_edge {g : RAG} {m n : Nat} (h : n ∈ g.neighbors m) :
    ∃ e ∈ g.edges, pairEq e.u e.v m n = true := by
  rcases mem_neighbors_iff.mp h with ⟨e, he, hc | hc⟩
  · exact ⟨e, he, by simp [pairEq, hc.1, hc.2]⟩
  · exact ⟨e, he, by simp [pairEq, hc.1, hc.2.1]⟩

theorem neighbors_length_le (g : RAG) (m : Nat) :
    (g.neighbors m).length ≤ g.edges.length :=
  List.length_filterMap_le _ _

/-! ### C8: copy-based merge -/

/-- Edge lookup on a raw record list. -/
def findEdge (es : List EdgeRec) (x y : Nat) : Option EdgeData :=
  (es.find? (fun e => pairEq e.u e.v x y)).map EdgeRec.data

theorem getEdge_eq_findEdge (g : RAG) (x y : Nat) :
    g.getEdge x y = findEdge g.edges x y := rfl

theorem pairEq_true_iff {a b u v : Nat} :
    pairEq a b u v = true ↔ (a = u ∧ b = v) ∨ (a = v ∧ b = u) := by
  simp [pairEq]

theorem findEdge_append_all_c {es extra : List EdgeRec} {x y c : Nat}
    (hex : ∀ e ∈ extra, e.v = c) (hx : x ≠ c) (hy : y ≠ c) :
    findEdge (es ++ extra) x y = findEdge es x y := by
  unfold findEdge
  rw [List.find?_append]
  have hnone : extra.find? (fun e => pairEq e.u e.v x y) = none := by
    rw [List.find?_eq_none]
    intro e he
    have hv := hex e he
    simp only [Bool.not_eq_true]
    cases hpe : pairEq e.u e.v x y with
    | false => rfl
    | true =>
      rcases pairEq_true_iff.mp hpe with ⟨h1, h2⟩ | ⟨h1, h2⟩
      · exact absurd (hv ▸ h2).symm hy
      · exact absurd (hv ▸ h2).symm hx
  rw [hnone]
  cases es.find? (fun e => pairEq e.u e.v x y) <;> rfl

theorem neighbors_ne_self {g : RAG} (hns : ∀ e ∈ g.edges, e.u ≠ e.v)
    {m n : Nat} (h : n ∈ g.neighbors m) : n ≠ m := by
  rcases mem_neighbors_iff.mp h with ⟨e, he, ⟨h1, h2⟩ | ⟨h1, h2, h3⟩⟩
  · exact fun hc => hns e he (by rw [h1, h2, hc])
  · exact fun hc => h3 (h2 ▸ hc)

theorem neighbors_hasNode {g : RAG}
    (hep : ∀ e ∈ g.edges, g.hasNode e.u = true ∧ g.hasNode e.v = true)
    {m n : Nat} (h : n ∈ g.neighbors m) : g.hasNode n = true := by
  rcases mem_neighbors_iff.mp h with ⟨e, he, ⟨h1, h2⟩ | ⟨h1, h2, h3⟩⟩
  · exact h2 ▸ (hep e he).2
  · exact h2 ▸ (hep e he).1

theorem copyEdgeStep_nodes (n2 c : Nat) (h : RAG) (nbr : Nat) :
    (copyEdgeStep n2 c h nbr).nodes = h.nodes := rfl

theorem foldCopy_nodes (ns : List Nat) (h0 : RAG) (n2 c : Nat) :
    (ns.foldl (copyEdgeStep n2 c) h0).nodes = h0.nodes := by
  induction ns generalizing h0 with
  | nil => rfl
  | cons nbr rest ih => rw [List.foldl_cons, ih, copyEdgeStep_nodes]

theorem foldCopy_edges (n2 c : Nat) (g : RAG) (hc : n2 ≠ c) :
    ∀ (ns : List Nat) (h0 : RAG) (extra : List EdgeRec),
    h0.edges = g.edges ++ extra →
    (∀ e ∈ extra, e.v = c) →
    (∀ nbr ∈ ns, nbr ≠ c) →
    (ns.foldl (copyEdgeStep n2 c) h0).edges =
      g.edges ++ extra ++ ns.map (fun nbr =>
        ⟨nbr, c, ⟨((findEdge g.edges n2 nbr).getD default).weight, none⟩⟩) := by
  intro ns
  induction ns with
  | nil =>
    intro h0 extra he _ _
    simpa using he
  | cons nbr rest ih =>
    intro h0 extra he hex hns
    rw [List.foldl_cons]
    have hstep : (copyEdgeStep n2 c h0 nbr).edges = g.edges ++
        (extra ++ [⟨nbr, c,
          ⟨((findEdge g.edges n2 nbr).getD default).weight, none⟩⟩]) := by
      unfold copyEdgeStep RAG.addEdge
      simp only
      have hlook : h0.getEdge n2 nbr = findEdge g.edges n2 nbr := by
        rw [getEdge_eq_findEdge, he]
        exact findEdge_append_all_c hex hc (hns nbr (List.mem_cons_self nbr rest))
      rw [hlook, he, List.append_assoc]
    rw [ih (copyEdgeStep n2 c h0 nbr)
      (extra ++ [⟨nbr, c, ⟨((findEdge g.edges n2 nbr).getD default).weight, none⟩⟩])
      hstep ?_ (fun x hx => hns x (List.mem_cons_of_mem nbr hx))]
    · simp [List.append_assoc]
    · intro e hev
      rcases List.mem_append.mp hev with hm | hm
      · exact hex e hm
      · rw [List.mem_singleton] at hm
        rw [hm]

/-- What `_copy_node(g, n2, next_id)` produces, for a well-formed graph. -/
theorem copyNode_spec {g : RAG} {n2 : Nat} {nd : NodeData}
    (hwf : WFG g) (hnd : g.getNodeData n2 = some nd) :
    copyNode g n2 g.nextId = .ok
      ⟨(g.nodes ++ [(g.nextId, nd)]).filter (fun p => p.1 ≠ n2),
       (g.edges.filter (fun e => e.u ≠ n2 && e.v ≠ n2)) ++
         (g.neighbors n2).map (fun nbr => ⟨nbr, g.nextId,
           ⟨((findEdge g.edges n2 nbr).getD default).weight, none⟩⟩)⟩ := by
  have hn2 : g.hasNode n2 = true := by
    unfold RAG.getNodeData at hnd
    cases hf : g.nodes.find? (fun p => p.1 = n2) with
    | none => rw [hf] at hnd; cases hnd
    | some p =>
      have := List.find?_some hf
      exact hasNode_iff.mpr ⟨p, List.mem_of_find?_eq_some hf, by simpa using this⟩
  have hcne : n2 ≠ g.nextId := by
    have := node_id_lt_nextId hn2
    omega
  unfold copyNode
  rw [hnd]
  simp only
  have hedges := foldCopy_edges n2 g.nextId g hcne (g.neighbors n2)
    (g.addNode g.nextId nd) [] (by simp [RAG.addNode]) (by simp)
    (fun nbr hnbr => by
      have := neighbors_hasNode hwf.endpoints hnbr
      have := node_id_lt_nextId this
      omega)
  have hnodes := foldCopy_nodes (g.neighbors n2) (g.addNode g.nextId nd) n2 g.nextId
  congr 1
  unfold RAG.removeNode
  rw [hnodes, hedges]
  simp only [RAG.addNode, List.append_nil]
  congr 1
  rw [List.filter_append]
  congr 1
  rw [List.filter_eq_self]
  intro e he
  rcases List.mem_map.mp he with ⟨nbr, hnbr, rfl⟩
  have h1 : nbr ≠ n2 := neighbors_ne_self hwf.noSelf hnbr
  simp [h1, hcne.symm]

theorem findEdge_map_copy {ns : List Nat} {nbr c : Nat}
    (hmem : nbr ∈ ns) (hall : ∀ x ∈ ns, x ≠ c) (f : Nat → EdgeData) :
    findEdge (ns.map (fun x => ⟨x, c, f x⟩)) nbr c = some (f nbr) := by
  induction ns with
  | nil => simp at hmem
  | cons x rest ih =>
    simp only [List.map_cons]
    unfold findEdge
    rw [List.find?_cons]
    by_cases hx : x = nbr
    · subst hx
      have : pairEq x c x c = true := by simp [pairEq]
      rw [this]
      rfl
    · have hxc : x ≠ c := hall x (List.mem_cons_self x rest)
      have : pairEq x c nbr c = false := by
        cases hp : pairEq x c nbr c with
        | false => rfl
        | true =>
          rcases pairEq_true_iff.mp hp with ⟨h1, _⟩ | ⟨h1, _⟩
          · exact absurd h1 hx
          · exact absurd h1 hxc
      rw [this]
      have hm2 : nbr ∈ rest := by
        rcases List.mem_cons.mp hmem with hm | hm
        · exact absurd hm.symm hx
        · exact hm
      exact ih hm2 (fun y hy => hall y (List.mem_cons_of_mem x hy))

theorem getEdge_some_neighbor {g : RAG} {n2 nbr : Nat} {d : EdgeData}
    (hns : ∀ e ∈ g.edges, e.u ≠ e.v)
    (h : g.getEdge n2 nbr = some d) : nbr ∈ g.neighbors n2 := by
  unfold RAG.getEdge at h
  cases hf : g.edges.find? (fun e => pairEq e.u e.v n2 nbr) with
  | none => rw [hf] at h; cases h
  | some e =>
    have hpe : pairEq e.u e.v n2 nbr = true := by simpa using List.find?_some hf
    have hmem : e ∈ g.edges := List.mem_of_find?_eq_some hf
    rcases pairEq_true_iff.mp hpe with ⟨h1, h2⟩ | ⟨h1, h2⟩
    · exact mem_neighbors_iff.mpr ⟨e, hmem, .inl ⟨h1, h2⟩⟩
    · refine mem_neighbors_iff.mpr ⟨e, hmem, .inr ⟨h2, h1, ?_⟩⟩
      rw [h1]
      intro hc
      exact hns e hmem (by rw [h1, h2, hc])

/-- C8: in copy mode each merge allocates a fresh id (`next_id`), duplicates
`n2`'s attribute bag onto it, re-creates every `n2`-incident edge at the new
id with the same weight (and a fresh data dict, hence no heap reference),
removes `n2` entirely, and hands `src = n1`, `dst = new id` to the merge. -/
theorem C8_copy_merge {g : RAG} {n2 : Nat} {nd : NodeData}
    (hwf : WFG g) (hnd : g.getNodeData n2 = some nd) :
    (∀ n1, mergePair false g n1 n2 = (n1, g.nextId)) ∧
    g.hasNode g.nextId = false ∧
    ∃ g2, copyNode g n2 g.nextId = .ok g2 ∧
      g2.getNodeData g.nextId = some nd ∧
      g2.hasNode n2 = false ∧
      (∀ e ∈ g2.edges, e.u ≠ n2 ∧ e.v ≠ n2) ∧
      (∀ nbr d, g.getEdge n2 nbr = some d →
        g2.getEdge nbr g.nextId = some ⟨d.weight, none⟩) := by
  have hn2 : g.hasNode n2 = true := by
    unfold RAG.getNodeData at hnd
    cases hf : g.nodes.find? (fun p => p.1 = n2) with
    | none => rw [hf] at hnd; cases hnd
    | some p =>
      exact hasNode_iff.mpr ⟨p, List.mem_of_find?_eq_some hf,
        by simpa using List.find?_some hf⟩
  have hcne : n2 ≠ g.nextId := fun hc => by
    have := node_id_lt_nextId hn2
    omega
  refine ⟨fun n1 => rfl, nextId_not_node g, ?_⟩
  refine ⟨_, copyNode_spec hwf hnd, ?_, ?_, ?_, ?_⟩
  · unfold RAG.getNodeData
    simp only
    rw [List.filter_append, List.find?_append]
    have h1 : (g.nodes.filter (fun p => p.1 ≠ n2)).find?
        (fun p => p.1 = g.nextId) = none := by
      rw [List.find?_eq_none]
      intro p hp
      have hpg : p ∈ g.nodes := List.mem_of_mem_filter hp
      have : p.1 < g.nextId := node_id_lt_nextId (hasNode_iff.mpr ⟨p, hpg, rfl⟩)
      simp only [Bool.not_eq_true, decide_eq_false_iff_not]
      omega
    rw [h1]
    have h2 : ([(g.nextId, nd)].filter (fun p => p.1 ≠ n2)) = [(g.nextId, nd)] := by
      simp [hcne.symm]
    rw [h2]
    simp
  · simp only [RAG.hasNode]
    rw [List.any_eq_false]
    intro p hp
    rw [List.mem_filter] at hp
    rcases hp with ⟨-, hne⟩
    simp only [decide_eq_true_eq] at hne
    simpa using hne
  · intro e he
    rcases List.mem_append.mp he with hm | hm
    · rw [List.mem_filter] at hm
      rcases hm with ⟨_, hcond⟩
      simp only [Bool.and_eq_true, decide_eq_true_eq] at hcond
      simpa using hcond
    · rcases List.mem_map.mp hm with ⟨nbr, hnbr, rfl⟩
      exact ⟨neighbors_ne_self hwf.noSelf hnbr, hcne.symm⟩
  · intro nbr d hd
    have hnbr : nbr ∈ g.neighbors n2 := getEdge_some_neighbor hwf.noSelf hd
    have hnbrnode : g.hasNode nbr = true := neighbors_hasNode hwf.endpoints hnbr
    have hnbrc : nbr ≠ g.nextId := fun hc => by
      have := node_id_lt_nextId hnbrnode
      omega
    rw [getEdge_eq_findEdge]
    simp only
    unfold findEdge
    rw [List.find?_append]
    have h1 : (g.edges.filter (fun e => e.u ≠ n2 && e.v ≠ n2)).find?
        (fun e => pairEq e.u e.v nbr g.nextId) = none := by
      rw [List.find?_eq_none]
      intro e he
      have heg : e ∈ g.edges := List.mem_of_mem_filter he
      have hu : g.hasNode e.u = true := (hwf.endpoints e heg).1
      have hv : g.hasNode e.v = true := (hwf.endpoints e heg).2
      have hcu : e.u ≠ g.nextId := fun hc => by
        have := node_id_lt_nextId hu
        omega
      have hcv : e.v ≠ g.nextId := fun hc => by
        have := node_id_lt_nextId hv
        omega
      simp only [Bool.not_eq_true]
      cases hp : pairEq e.u e.v nbr g.nextId with
      | false => rfl
      | true =>
        rcases pairEq_true_iff.mp hp with ⟨_, h2⟩ | ⟨h2, _⟩
        · exact absurd h2 hcv
        · exact absurd h2 hcu
    rw [h1]
    have hmap := @findEdge_map_copy (g.neighbors n2) nbr g.nextId
      hnbr
      (fun x hx => fun hc => by
        have := node_id_lt_nextId (neighbors_hasNode hwf.endpoints hx)
        omega)
      (fun x => ⟨((findEdge g.edges n2 x).getD default).weight, none⟩)
    unfold findEdge at hmap
    rw [Option.none_or]
    have hw : ((findEdge g.edges n2 nbr).getD default).weight = d.weight := by
      rw [← getEdge_eq_findEdge, hd]
      rfl
    rw [← hw]
    exact hmap

theorem C8_copy_merge_witness :
    mergePair false pathGraph 1 2 = (1, pathGraph.nextId) ∧
    pathGraph.hasNode pathGraph.nextId = false := by
  have h := @C8_copy_merge pathGraph 2 ⟨[2], 0⟩
    ⟨by decide, by decide, by decide, by decide⟩ (by decide)
  exact ⟨h.1 1, h.2.1⟩

/-! ### C3: shape and index assignment of the remapped output -/

theorem remapFold_getD_mem {ps : List (Nat × (Nat × NodeData))} {l v : Nat}
    {arr arr2 : List Nat} (h : remapFold ps arr = .ok arr2)
    (hv : ∀ p ∈ ps, l ∈ p.2.2.labels → p.1 = v)
    (hsome : ∃ p ∈ ps, l ∈ p.2.2.labels) :
    arr2.getD l 0 = v := by
  induction ps generalizing arr with
  | nil =>
    obtain ⟨p, hp, _⟩ := hsome
    simp at hp
  | cons p rest ih =>
    simp only [remapFold, List.foldlM_cons] at h
    cases hw : writeLabels p.1 arr p.2.2.labels with
    | error e => rw [hw] at h; simp [Bind.bind, Except.bind] at h
    | ok arr1 =>
      rw [hw] at h
      simp only [Bind.bind, Except.bind] at h
      by_cases hpl : l ∈ p.2.2.labels
      · by_cases hrest : ∃ q ∈ rest, l ∈ q.2.2.labels
        · exact ih h (fun q hq hql => hv q (List.mem_cons_of_mem p hq) hql) hrest
        · push_neg at hrest
          rw [remapFold_getD_notmem h hrest,
            writeLabels_getD_mem hw hpl,
            hv p (List.mem_cons_self p rest) hpl]
      · rcases hsome with ⟨q, hq, hql⟩
        have hqrest : q ∈ rest := by
          rcases List.mem_cons.mp hq with hh | hh
          · exact absurd (hh ▸ hql) hpl
          · exact hh
        exact ih h (fun q2 hq2 hql2 => hv q2 (List.mem_cons_of_mem p hq2) hql2)
          ⟨q, hqrest, hql⟩

/-- C3: a successful remap returns an array of the input's shape in which
each element carrying original label `L` holds the 0-based sequential index
(in the graph's own node iteration order) of the surviving node whose label
set contains `L` — under the graph invariant that label sets do not overlap
across surviving nodes. -/
theorem C3_remap_shape_and_index {labels : List Nat} {g : RAG}
    {out : List Nat} (h : remap labels g = .ok out)
    (huniq : ∀ q1 ∈ g.nodes.enum, ∀ q2 ∈ g.nodes.enum, ∀ l : Nat,
      l ∈ q1.2.2.labels → l ∈ q2.2.2.labels → q1.1 = q2.1) :
    out.length = labels.length ∧
    ∀ i, i < labels.length → ∀ q ∈ g.nodes.enum,
      labels.getD i 0 ∈ q.2.2.labels → out.getD i 0 = q.1 := by
  obtain ⟨-, arr, hf, rfl⟩ := remap_ok_elim h
  refine ⟨by simp, ?_⟩
  intro i hi q hq hql
  have hmap : (labels.map (fun l => arr.getD l 0)).getD i 0 =
      arr.getD (labels.getD i 0) 0 := by
    simp [List.getD_eq_getElem?_getD, List.getElem?_map,
      List.getElem?_eq_getElem hi]
  rw [hmap]
  exact remapFold_getD_mem hf
    (fun q2 hq2 hql2 => huniq q2 hq2 q hq _ hql2 hql) ⟨q, hq, hql⟩

theorem C3_remap_shape_and_index_witness :
    remap [0, 1, 2] (⟨[(10, ⟨[0, 2], 0⟩), (20, ⟨[1], 0⟩)], []⟩ : RAG) =
      .ok [0, 1, 0] ∧
    ([0, 1, 0] : List Nat).length = ([0, 1, 2] : List Nat).length ∧
    ([0, 1, 0] : List Nat).getD 2 0 = 0 := by
  have h0 : remap [0, 1, 2] (⟨[(10, ⟨[0, 2], 0⟩), (20, ⟨[1], 0⟩)], []⟩ : RAG) =
      .ok [0, 1, 0] := by decide
  have h := C3_remap_shape_and_index h0 (by decide)
  exact ⟨h0, h.1, h.2 2 (by decide) (0, (10, ⟨[0, 2], 0⟩)) (by decide) (by decide)⟩

/-! ### C4: termination, via a decreasing measure -/

def mu (s : MState) : Nat :=
  s.heap.length + 7 ^ s.g.nodes.length * (s.g.edges.length + 2)

theorem fuelFor_eq (s : MState) : fuelFor s = mu s + 1 := rfl

def RunResult.ranOut : RunResult → Bool
  | .outOfFuel _ _ => true
  | _ => false

theorem length_filter_lt {α : Type} {l : List α} {x : α} (hx : x ∈ l)
    (p : α → Bool) (hpx : p x = false) : (l.filter p).length < l.length := by
  induction l with
  | nil => simp at hx
  | cons y ys ih =>
    rcases List.mem_cons.mp hx with h' | h'
    · subst h'
      simp only [List.filter_cons, hpx]
      have := List.length_filter_le p ys
      simpa using Nat.lt_succ_of_le this
    · simp only [List.filter_cons]
      cases hpy : p y with
      | true =>
        simp only [List.length_cons]
        exact Nat.succ_lt_succ (ih h')
      | false =>
        simp only [List.length_cons]
        exact Nat.lt_trans (ih h') (Nat.lt_succ_self _)

theorem getNodeData_some_hasNode {g : RAG} {n : Nat} {nd : NodeData}
    (h : g.getNodeData n = some nd) : g.hasNode n = true := by
  unfold RAG.getNodeData at h
  cases hf : g.nodes.find? (fun p => p.1 = n) with
  | none => rw [hf] at h; cases h
  | some p =>
    exact hasNode_iff.mpr ⟨p, List.mem_of_find?_eq_some hf,
      by simpa using List.find?_some hf⟩

theorem hasNode_length_pos {g : RAG} {n : Nat} (h : g.hasNode n = true) :
    1 ≤ g.nodes.length := by
  obtain ⟨p, hp, -⟩ := hasNode_iff.mp h
  cases hg : g.nodes with
  | nil => rw [hg] at hp; simp at hp
  | cons q qs => simp [hg]

/-- Invalidation leaves the graph, the heap, and the store length alone. -/
theorem invalidateIncidentAux_pres (node : Nat) :
    ∀ (ns : List Nat) (s s1 : MState),
      invalidateIncidentAux s node ns = .ok s1 →
      s1.g = s.g ∧ s1.heap = s.heap ∧ s1.entries.length = s.entries.length := by
  intro ns
  induction ns with
  | nil =>
    intro s s1 h
    cases h
    exact ⟨rfl, rfl, rfl⟩
  | cons n rest ih =>
    intro s s1 h
    simp only [invalidateIncidentAux, Bind.bind, Except.bind] at h
    cases hge : s.g.getEdge node n with
    | none =>
      rw [hge] at h
      simp [invalidateEdgeItem] at h
    | some d =>
      rw [hge] at h
      cases dh : d.heapRef with
      | none =>
        rw [invalidateEdgeItem] at h
        rw [dh] at h
        simp at h
      | some r =>
        rw [invalidateEdgeItem] at h
        rw [dh] at h
        simp only at h
        obtain ⟨h1, h2, h3⟩ := ih (invalidateEntry s r) s1 h
        refine ⟨h1, h2, ?_⟩
        rw [h3]
        exact setSlotFalse_length s.entries r

theorem invalidateIncident_pres {s s1 : MState} {node : Nat}
    (h : invalidateIncident s node = .ok s1) :
    s1.g = s.g ∧ s1.heap = s.heap ∧ s1.entries.length = s.entries.length := by
  unfold invalidateIncident at h
  by_cases hn : s.g.hasNode node
  · rw [if_pos hn] at h
    exact invalidateIncidentAux_pres node _ s s1 h
  · rw [if_neg hn] at h
    cases h

theorem foldCopy_edges_length (n2 c : Nat) (ns : List Nat) (h0 : RAG) :
    ((ns.foldl (copyEdgeStep n2 c) h0).edges).length =
      h0.edges.length + ns.length := by
  induction ns generalizing h0 with
  | nil => rfl
  | cons nbr rest ih =>
    rw [List.foldl_cons, ih]
    have : (copyEdgeStep n2 c h0 nbr).edges.length = h0.edges.length + 1 := by
      unfold copyEdgeStep RAG.addEdge
      simp
    rw [this]
    simp [List.length_cons]
    omega

theorem copyNode_counts {g g2 : RAG} {n2 c : Nat} (h : copyNode g n2 c = .ok g2) :
    g2.nodes.length ≤ g.nodes.length ∧ g2.edges.length ≤ 2 * g.edges.length := by
  unfold copyNode at h
  cases hnd : g.getNodeData n2 with
  | none => rw [hnd] at h; cases h
  | some nd =>
    rw [hnd] at h
    simp only at h
    cases h
    have haddn : (g.addNode c nd).nodes = g.nodes ++ [(c, nd)] := rfl
    have hadde : (g.addNode c nd).edges = g.edges := rfl
    constructor
    · unfold RAG.removeNode
      simp only
      rw [foldCopy_nodes]
      obtain ⟨p, hp, hpn⟩ := hasNode_iff.mp (getNodeData_some_hasNode hnd)
      have hmem : p ∈ (g.addNode c nd).nodes := by
        rw [haddn]
        exact List.mem_append.mpr (.inl hp)
      have hlt := length_filter_lt hmem (fun q => decide (q.1 ≠ n2))
        (by simp [hpn])
      rw [haddn] at hlt
      simp only [List.length_append, List.length_cons, List.length_nil] at hlt
      rw [haddn]
      omega
    · unfold RAG.removeNode
      simp only
      have hle := List.length_filter_le
        (fun e => e.u ≠ n2 && e.v ≠ n2)
        ((g.neighbors n2).foldl (copyEdgeStep n2 c) (g.addNode c nd)).edges
      rw [foldCopy_edges_length, hadde] at hle
      have hnb := neighbors_length_le g n2
      omega

theorem modifyNodeData_ids (g : RAG) (n : Nat) (f : NodeData → NodeData) :
    (g.modifyNodeData n f).nodes.map Prod.fst = g.nodes.map Prod.fst := by
  unfold RAG.modifyNodeData
  simp only [List.map_map]
  apply List.map_congr_left
  intro p hp
  by_cases hpn : p.1 = n <;> simp [hpn]

theorem hasNode_eq_of_ids {g1 g2 : RAG}
    (h : g1.nodes.map Prod.fst = g2.nodes.map Prod.fst) (m : Nat) :
    g1.hasNode m = g2.hasNode m := by
  unfold RAG.hasNode
  have aux : ∀ (l : List (Nat × NodeData)),
      (l.any fun p => decide (p.1 = m)) =
        (l.map Prod.fst).any fun x => decide (x = m) := by
    intro l
    induction l with
    | nil => rfl
    | cons p ps ih => simp [List.any_cons, ih]
  rw [aux g1.nodes, aux g2.nodes, h]

theorem modifyNodeData_hasNode (g : RAG) (n m : Nat) (f : NodeData → NodeData) :
    (g.modifyNodeData n f).hasNode m = g.hasNode m :=
  hasNode_eq_of_ids (modifyNodeData_ids g n f) m

theorem modifyNodeData_length (g : RAG) (n : Nat) (f : NodeData → NodeData) :
    (g.modifyNodeData n f).nodes.length = g.nodes.length := by
  unfold RAG.modifyNodeData
  simp

theorem modifyNodeData_edges (g : RAG) (n : Nat) (f : NodeData → NodeData) :
    (g.modifyNodeData n f).edges = g.edges := rfl

theorem applyMergeFunc_edges (mf : RAG → Nat → Nat → Nat → Int → Int)
    (g : RAG) (s d : Nat) : (applyMergeFunc mf g s d).edges = g.edges := rfl

theorem applyMergeFunc_ids (mf : RAG → Nat → Nat → Nat → Int → Int)
    (g : RAG) (s d : Nat) :
    (applyMergeFunc mf g s d).nodes.map Prod.fst = g.nodes.map Prod.fst := by
  unfold applyMergeFunc
  simp [List.map_map]

theorem removeNode_neighbors_self (g : RAG) (n : Nat) :
    (g.removeNode n).neighbors n = [] := by
  unfold RAG.removeNode RAG.neighbors
  simp only
  rw [List.filterMap_eq_nil]
  intro e he
  rw [List.mem_filter] at he
  rcases he with ⟨-, hcond⟩
  simp only [Bool.and_eq_true, decide_eq_true_eq] at hcond
  simp [hcond.1, hcond.2]

theorem removeNode_hasNode_ne {g : RAG} {src dst : Nat} (hne : dst ≠ src)
    (h : g.hasNode dst = true) : (g.removeNode src).hasNode dst = true := by
  obtain ⟨p, hp, hpe⟩ := hasNode_iff.mp h
  apply hasNode_iff.mpr
  refine ⟨p, ?_, hpe⟩
  unfold RAG.removeNode
  simp only [List.mem_filter]
  exact ⟨hp, by simp [hpe, hne]⟩

theorem mergeEdgeStep_nodes (wf : RAG → Nat → Nat → Nat → Int)
    (g0 : RAG) (src dst : Nat) (h : RAG) (n : Nat) :
    (mergeEdgeStep wf g0 src dst h n).nodes = h.nodes := by
  unfold mergeEdgeStep
  by_cases hc : (h.getEdge dst n).isSome <;> simp [hc, RAG.setWeight, RAG.addEdge]

theorem mergeEdgeStep_edges_le (wf : RAG → Nat → Nat → Nat → Int)
    (g0 : RAG) (src dst : Nat) (h : RAG) (n : Nat) :
    (mergeEdgeStep wf g0 src dst h n).edges.length ≤ h.edges.length + 1 := by
  unfold mergeEdgeStep
  by_cases hc : (h.getEdge dst n).isSome <;>
    simp [hc, RAG.setWeight, RAG.addEdge]

theorem mergeFold_nodes (wf : RAG → Nat → Nat → Nat → Int)
    (g0 : RAG) (src dst : Nat) (ns : List Nat) (h0 : RAG) :
    ((ns.foldl (mergeEdgeStep wf g0 src dst) h0)).nodes = h0.nodes := by
  induction ns generalizing h0 with
  | nil => rfl
  | cons n rest ih =>
    rw [List.foldl_cons, ih, mergeEdgeStep_nodes]

theorem mergeFold_edges_le (wf : RAG → Nat → Nat → Nat → Int)
    (g0 : RAG) (src dst : Nat) (ns : List Nat) (h0 : RAG) :
    ((ns.foldl (mergeEdgeStep wf g0 src dst) h0)).edges.length ≤
      h0.edges.length + ns.length := by
  induction ns generalizing h0 with
  | nil => simp
  | cons n rest ih =>
    rw [List.foldl_cons]
    have h1 := ih (mergeEdgeStep wf g0 src dst h0 n)
    have h2 := mergeEdgeStep_edges_le wf g0 src dst h0 n
    simp only [List.length_cons]
    omega

/-- Structural consequences of a successful (spec-modelled) merge. -/
theorem mergeNodes_elim {wf : RAG → Nat → Nat → Nat → Int} {g gF : RAG}
    {src dst nid : Nat} (h : mergeNodes wf g src dst = .ok (nid, gF)) :
    nid = dst ∧ g.hasNode src = true ∧ g.hasNode dst = true ∧
    gF.nodes.length < g.nodes.length ∧
    gF.edges.length ≤ 3 * g.edges.length ∧
    (dst = src → gF.neighbors dst = []) ∧
    (dst ≠ src → gF.hasNode dst = true) := by
  unfold mergeNodes at h
  by_cases hc : g.hasNode src && g.hasNode dst
  · rw [if_pos hc] at h
    simp only [Except.ok.injEq, Prod.mk.injEq] at h
    obtain ⟨hnid, hgF⟩ := h
    simp only [Bool.and_eq_true] at hc
    have hsrc := hc.1
    have hdst := hc.2
    set nbrs := (g.neighbors src ++ g.neighbors dst).filter
      (fun n => n ≠ src && n ≠ dst) with hnbrs
    set g1 := nbrs.foldl (mergeEdgeStep wf g src dst) g with hg1
    set g2 := g1.modifyNodeData dst
      (fun nd => { nd with labels := nd.labels ++
        ((g.getNodeData src).getD default).labels }) with hg2
    have hn1 : g1.nodes = g.nodes := mergeFold_nodes wf g src dst nbrs g
    have hids2 : g2.nodes.map Prod.fst = g.nodes.map Prod.fst := by
      rw [hg2, modifyNodeData_ids, hn1]
    have hsrc2 : g2.hasNode src = true := by
      rw [hasNode_eq_of_ids hids2]
      exact hsrc
    have hdst2 : g2.hasNode dst = true := by
      rw [hasNode_eq_of_ids hids2]
      exact hdst
    refine ⟨hnid.symm, hsrc, hdst, ?_, ?_, ?_, ?_⟩
    · rw [← hgF]
      unfold RAG.removeNode
      simp only
      obtain ⟨p, hp, hpe⟩ := hasNode_iff.mp hsrc2
      have hlt := length_filter_lt hp (fun q => decide (q.1 ≠ src))
        (by simp [hpe])
      have hlen2 : g2.nodes.length = g.nodes.length := by
        rw [hg2, modifyNodeData_length, hn1]
      omega
    · rw [← hgF]
      unfold RAG.removeNode
      simp only
      have hfle := List.length_filter_le
        (fun e => e.u ≠ src && e.v ≠ src) g2.edges
      have he2 : g2.edges = g1.edges := modifyNodeData_edges g1 dst _
      have he1 := mergeFold_edges_le wf g src dst nbrs g
      have hnb : nbrs.length ≤
          (g.neighbors src).length + (g.neighbors dst).length := by
        rw [hnbrs]
        have := List.length_filter_le (fun n => n ≠ src && n ≠ dst)
          (g.neighbors src ++ g.neighbors dst)
        simpa using this
      have hns := neighbors_length_le g src
      have hnd := neighbors_length_le g dst
      rw [← hg1] at he1
      have he2len : g2.edges.length = g1.edges.length := by rw [he2]
      omega
    · intro hds
      rw [← hgF, hds]
      exact removeNode_neighbors_self g2 src
    · intro hds
      rw [← hgF]
      exact removeNode_hasNode_ne hds hdst2
  · rw [if_neg hc] at h
    cases h

theorem revalStep_pres (node : Nat) (st : MState) (n : Nat) :
    (revalStep node st n).g.nodes = st.g.nodes ∧
    (revalStep node st n).g.edges.length = st.g.edges.length ∧
    (revalStep node st n).heap.length = st.heap.length + 1 := by
  unfold revalStep
  dsimp only
  cases ((st.g.getEdge node n).getD default).heapRef with
  | none =>
    refine ⟨?_, ?_, ?_⟩ <;>
      simp [pushEntry, invalidateEntry, RAG.setHeapRef]
  | some r =>
    refine ⟨?_, ?_, ?_⟩ <;>
      simp [pushEntry, invalidateEntry, RAG.setHeapRef]

theorem revalFold_pres (node : Nat) (ns : List Nat) (s : MState) :
    ((ns.foldl (revalStep node) s)).g.nodes = s.g.nodes ∧
    ((ns.foldl (revalStep node) s)).g.edges.length = s.g.edges.length ∧
    ((ns.foldl (revalStep node) s)).heap.length = s.heap.length + ns.length := by
  induction ns generalizing s with
  | nil => exact ⟨rfl, rfl, rfl⟩
  | cons n rest ih =>
    rw [List.foldl_cons]
    obtain ⟨h1, h2, h3⟩ := ih (revalStep node s n)
    obtain ⟨p1, p2, p3⟩ := revalStep_pres node s n
    refine ⟨by rw [h1, p1], by rw [h2, p2], ?_⟩
    rw [h3, p3]
    simp only [List.length_cons]
    omega

theorem revalidate_pres (s : MState) (node : Nat) :
    (revalidateNodeEdges s node).g.nodes = s.g.nodes ∧
    (revalidateNodeEdges s node).g.edges.length = s.g.edges.length ∧
    (revalidateNodeEdges s node).heap.length =
      s.heap.length + (s.g.neighbors node).length := by
  unfold revalidateNodeEdges
  exact revalFold_pres node (s.g.neighbors node) s

theorem mu_arith {p nF nT EF ET : Nat} (hn : nF < nT) (hE : EF ≤ 6 * ET)
    (hcase : p = 0 ∨ (p ≤ EF ∧ 1 ≤ nF)) :
    p + 7 ^ nF * (EF + 2) < 7 ^ nT * (ET + 2) := by
  have h1 : 7 ^ nF ≤ 7 ^ (nT - 1) :=
    Nat.pow_le_pow_right (by omega) (by omega)
  have h2 : 7 ^ nT = 7 * 7 ^ (nT - 1) := by
    conv_lhs => rw [show nT = (nT - 1) + 1 by omega]
    rw [pow_succ]
    ring
  have h3 : 1 ≤ 7 ^ (nT - 1) := Nat.one_le_pow _ _ (by omega)
  have hA : 7 ^ nF * (EF + 2) ≤ 7 ^ (nT - 1) * (6 * ET + 2) :=
    Nat.mul_le_mul h1 (by omega)
  have hr : 7 ^ nT * (ET + 2) = 7 ^ (nT - 1) * (6 * ET + 2) +
      7 ^ (nT - 1) * (ET + 12) := by
    rw [h2]
    ring
  rcases hcase with hp0 | ⟨hp, hnF⟩
  · have hpos : 1 ≤ 7 ^ (nT - 1) * (ET + 12) := by
      have := Nat.mul_le_mul h3 (show 1 ≤ ET + 12 by omega)
      omega
    omega
  · have h7 : 7 ≤ 7 ^ (nT - 1) := by
      calc 7 = 7 ^ 1 := (pow_one 7).symm
      _ ≤ 7 ^ (nT - 1) := Nat.pow_le_pow_right (by omega) (by omega)
    have hC : 6 * ET < 7 ^ (nT - 1) * (ET + 12) := by
      calc 6 * ET < 7 * (ET + 12) := by omega
      _ ≤ 7 ^ (nT - 1) * (ET + 12) := Nat.mul_le_mul_right _ h7
    omega

theorem applyMergeFunc_nodes_length (mf : RAG → Nat → Nat → Nat → Int → Int)
    (g : RAG) (s d : Nat) :
    (applyMergeFunc mf g s d).nodes.length = g.nodes.length := by
  unfold applyMergeFunc
  simp

/-- One successful merge body strictly decreases the measure. -/
theorem stepBody_mu {mf : RAG → Nat → Nat → Nat → Int → Int}
    {wf : RAG → Nat → Nat → Nat → Int} {ip : Bool} {t sF : MState}
    {n1 n2 : Nat} (h : stepBody mf wf ip t n1 n2 = .ok sF) :
    mu sF < mu t := by
  unfold stepBody at h
  cases h1 : invalidateIncident t n1 with
  | error e =>
    rw [h1] at h
    simp [Bind.bind, Except.bind] at h
  | ok s1 =>
    rw [h1] at h
    obtain ⟨hg1, hh1, -⟩ := invalidateIncident_pres h1
    cases ip with
    | true =>
      simp only [Bind.bind, Except.bind, if_true, pure, Except.pure,
        mergePair] at h
      cases h2 : mergeNodes wf (applyMergeFunc mf s1.g n1 n2) n1 n2 with
      | error e =>
        rw [h2] at h
        cases h
      | ok pr =>
        rw [h2] at h
        obtain ⟨nid, gF⟩ := pr
        simp only [Except.ok.injEq] at h
        obtain ⟨hnid, -, -, hnlt, hele, hself, hother⟩ :=
          mergeNodes_elim h2
        rw [hnid] at h
        obtain ⟨r1, r2, r3⟩ := revalidate_pres { s1 with g := gF } n2
        rw [← h]
        unfold mu
        rw [r1, r2, r3]
        simp only
        rw [hh1]
        have hnM : (applyMergeFunc mf s1.g n1 n2).nodes.length =
            t.g.nodes.length := by
          rw [applyMergeFunc_nodes_length, hg1]
        have heM : (applyMergeFunc mf s1.g n1 n2).edges.length =
            t.g.edges.length := by
          rw [applyMergeFunc_edges, hg1]
        rw [hnM] at hnlt
        rw [heM] at hele
        have harith : (gF.neighbors n2).length +
            7 ^ gF.nodes.length * (gF.edges.length + 2) <
            7 ^ t.g.nodes.length * (t.g.edges.length + 2) := by
          apply mu_arith hnlt (by omega)
          by_cases hds : n2 = n1
          · left
            rw [hself hds]
            rfl
          · right
            exact ⟨neighbors_length_le gF n2,
              hasNode_length_pos (hother hds)⟩
        omega
    | false =>
      simp only [Bind.bind, Except.bind, Bool.false_eq_true, if_false,
        mergePair, pure, Except.pure] at h
      cases h1b : invalidateIncident s1 n2 with
      | error e =>
        rw [h1b] at h
        cases h
      | ok s2 =>
        rw [h1b] at h
        simp only [Except.ok.injEq] at h
        obtain ⟨hg2, hh2, -⟩ := invalidateIncident_pres h1b
        cases h2 : copyNode s2.g n2 s2.g.nextId with
        | error e =>
          rw [h2] at h
          cases h
        | ok gC =>
          rw [h2] at h
          simp only [Except.ok.injEq] at h
          obtain ⟨hcn, hce⟩ := copyNode_counts h2
          cases h3 : mergeNodes wf (applyMergeFunc mf gC n1 s2.g.nextId)
              n1 s2.g.nextId with
          | error e =>
            rw [h3] at h
            cases h
          | ok pr =>
            rw [h3] at h
            obtain ⟨nid, gF⟩ := pr
            simp only [Except.ok.injEq] at h
            obtain ⟨hnid, -, -, hnlt, hele, hself, hother⟩ :=
              mergeNodes_elim h3
            rw [hnid] at h
            obtain ⟨r1, r2, r3⟩ :=
              revalidate_pres { s2 with g := gF } s2.g.nextId
            rw [← h]
            unfold mu
            rw [r1, r2, r3]
            simp only
            rw [hh2, hh1]
            have hgq : s2.g = t.g := by rw [hg2, hg1]
            have hnM : (applyMergeFunc mf gC n1 s2.g.nextId).nodes.length =
                gC.nodes.length := applyMergeFunc_nodes_length mf gC _ _
            have heM : (applyMergeFunc mf gC n1 s2.g.nextId).edges.length =
                gC.edges.length := by rw [applyMergeFunc_edges]
            rw [hgq] at hcn hce
            rw [hnM] at hnlt
            rw [heM] at hele
            have harith : (gF.neighbors s2.g.nextId).length +
                7 ^ gF.nodes.length * (gF.edges.length + 2) <
                7 ^ t.g.nodes.length * (t.g.edges.length + 2) := by
              apply mu_arith (by omega) (by omega)
              by_cases hds : s2.g.nextId = n1
              · left
                rw [hself hds]
                rfl
              · right
                exact ⟨neighbors_length_le gF _,
                  hasNode_length_pos (hother hds)⟩
            omega

/-- One `.next` iteration strictly decreases the measure. -/
theorem iter_next_mu {mf : RAG → Nat → Nat → Nat → Int → Int}
    {wf : RAG → Nat → Nat → Nat → Int} {th : Int} {ip : Bool}
    {s s2 : MState} {rec : IterRec}
    (h : iter mf wf th ip s = .next s2 rec) : mu s2 < mu s := by
  unfold iter at h
  cases hmin : minKeyId s.entries s.heap with
  | none => rw [hmin] at h; cases h
  | some r =>
    rw [hmin] at h
    simp only at h
    have hrmem : r ∈ s.heap := minKeyId_mem hmin
    have hheap : (removeFirst s.heap r).length + 1 = s.heap.length :=
      removeFirst_length hrmem
    by_cases hw : (entryAt s.entries r).weight < th
    · rw [if_pos hw] at h
      by_cases hv : (entryAt s.entries r).slot.truthy
      · rw [if_pos hv] at h
        cases hsb : stepBody mf wf ip { s with heap := removeFirst s.heap r }
            (entryAt s.entries r).a (entryAt s.entries r).b with
        | ok s3 =>
          rw [hsb] at h
          cases h
          have := stepBody_mu hsb
          unfold mu at this ⊢
          simp only at this
          omega
        | error e => rw [hsb] at h; cases h
      · rw [if_neg hv] at h
        cases h
        unfold mu
        simp only
        omega
    · rw [if_neg hw] at h
      cases h

theorem loop_no_ranOut (mf : RAG → Nat → Nat → Nat → Int → Int)
    (wf : RAG → Nat → Nat → Nat → Int) (th : Int) (ip : Bool) :
    ∀ (fuel : Nat) (s : MState) (tr : List IterRec), mu s < fuel →
      (loop mf wf th ip fuel s tr).ranOut = false := by
  intro fuel
  induction fuel with
  | zero =>
    intro s tr hmu
    omega
  | succ n ih =>
    intro s tr hmu
    simp only [loop]
    cases hit : iter mf wf th ip s with
    | stop s2 => rfl
    | fail e s2 rec => rfl
    | next s2 rec =>
      apply ih
      have := iter_next_mu hit
      omega

/-- C4: the contraction loop always terminates — with the fuel budget the
entry point supplies, a run never exhausts its fuel, for any graph,
threshold and callbacks: each iteration pops one entry, merges strictly
reduce the node count, and each merge pushes at most one entry per
surviving incident edge. -/
theorem C4_loop_terminates (mf : RAG → Nat → Nat → Nat → Int → Int)
    (wf : RAG → Nat → Nat → Nat → Int) (th : Int) (ip : Bool)
    (s : MState) (tr : List IterRec) :
    (loop mf wf th ip (fuelFor s) s tr).ranOut = false := by
  apply loop_no_ranOut
  rw [fuelFor_eq]
  omega

/-! ### C1: the queue/graph invariant -/

/-- The invariant tying the queue and the graph together at iteration
boundaries: a well-formed graph, well-formed heap indices, every live edge
holding a back-reference to a valid queued entry carrying the edge's current
weight, and every valid queued entry pointed back at by the live edge it
represents. -/
structure Inv (s : MState) : Prop where
  wfg : WFG s.g
  heapNodup : s.heap.Nodup
  heapLt : ∀ r ∈ s.heap, r < s.entries.length
  edgeOK : ∀ e ∈ s.g.edges, ∃ r, e.data.heapRef = some r ∧ r ∈ s.heap ∧
    (entryAt s.entries r).slot.truthy = true ∧
    (entryAt s.entries r).weight = e.data.weight ∧
    pairEq (entryAt s.entries r).a (entryAt s.entries r).b e.u e.v = true
  validBack : ∀ r ∈ s.heap, (entryAt s.entries r).slot.truthy = true →
    ∃ e ∈ s.g.edges, e.data.heapRef = some r ∧
      pairEq (entryAt s.entries r).a (entryAt s.entries r).b e.u e.v = true

theorem pairEq_refl (a b : Nat) : pairEq a b a b = true := by
  simp [pairEq]

theorem pairEq_trans {a b c d x y : Nat} (h1 : pairEq a b x y = true)
    (h2 : pairEq c d x y = true) : pairEq a b c d = true := by
  rcases pairEq_true_iff.mp h1 with ⟨rfl, rfl⟩ | ⟨rfl, rfl⟩ <;>
    rcases pairEq_true_iff.mp h2 with ⟨h3, h4⟩ | ⟨h3, h4⟩ <;>
      apply pairEq_true_iff.mpr
  · exact .inl ⟨h3.symm, h4.symm⟩
  · exact .inr ⟨h4.symm, h3.symm⟩
  · exact .inr ⟨h4.symm, h3.symm⟩
  · exact .inl ⟨h3.symm, h4.symm⟩

/-- Two live edges sharing a back-reference are the same stored record. -/
theorem Inv.refInj {s : MState} (hI : Inv s) {e1 e2 : EdgeRec} {r : Nat}
    (h1 : e1 ∈ s.g.edges) (h2 : e2 ∈ s.g.edges)
    (hr1 : e1.data.heapRef = some r) (hr2 : e2.data.heapRef = some r) :
    e1 = e2 := by
  by_contra hne
  obtain ⟨ra, hra, -, -, -, hpa⟩ := hI.edgeOK e1 h1
  obtain ⟨rb, hrb, -, -, -, hpb⟩ := hI.edgeOK e2 h2
  rw [hr1] at hra
  rw [hr2] at hrb
  have hrar : r = ra := by injection hra
  have hrbr : r = rb := by injection hrb
  rw [← hrar] at hpa
  rw [← hrbr] at hpb
  have hpa2 : pairEq e1.u e1.v (entryAt s.entries r).a
      (entryAt s.entries r).b = true := by
    rw [pairEq_symm]
    exact hpa
  have hpb2 : pairEq e2.u e2.v (entryAt s.entries r).a
      (entryAt s.entries r).b = true := by
    rw [pairEq_symm]
    exact hpb
  have h12 := pairEq_trans hpa2 hpb2
  have hsym : Symmetric (fun x y : EdgeRec =>
      pairEq x.u x.v y.u y.v = false) := by
    intro x y hxy
    rw [pairEq_symm]
    exact hxy
  have hfalse := List.Pairwise.forall hsym hI.wfg.pairsNodup h1 h2 hne
  rw [h12] at hfalse
  cases hfalse

theorem setSlotFalse_oob {es : List Entry} {r : Nat} (h : es.length ≤ r) :
    setSlotFalse es r = es := by
  induction es generalizing r with
  | nil => rfl
  | cons e rest ih =>
    cases r with
    | zero => simp at h
    | succ r =>
      simp only [setSlotFalse]
      rw [ih (by simpa using h)]

/-- Invalidation at `r` flips exactly slot `r` to `False`, in or out of
range (out of range both sides are the inert default). -/
theorem entryAt_setSlotFalse_self_all (es : List Entry) (r : Nat) :
    entryAt (setSlotFalse es r) r = { entryAt es r with slot := .sfalse } := by
  by_cases h : r < es.length
  · exact entryAt_setSlotFalse_self es r h
  · rw [setSlotFalse_oob (by omega)]
    have : entryAt es r = ⟨0, 0, 0, .sfalse⟩ := by
      induction es generalizing r with
      | nil => rfl
      | cons e rest ih =>
        cases r with
        | zero => simp at h
        | succ r =>
          simp only [entryAt]
          exact ih r (by simp at h ⊢; omega)
    rw [this]

/-- Entry-level effect of the loop-body invalidation pass: slots of
referenced incident entries are flipped to `False`, everything else is left
alone. -/
theorem invalidateIncidentAux_entries (node : Nat) :
    ∀ (ns : List Nat) (s s1 : MState),
    invalidateIncidentAux s node ns = .ok s1 →
    ∀ r : Nat,
      ((∃ n ∈ ns, ∃ d : EdgeData, s.g.getEdge node n = some d ∧
          d.heapRef = some r) →
        entryAt s1.entries r = { entryAt s.entries r with slot := .sfalse }) ∧
      ((∀ n ∈ ns, ∀ d : EdgeData, s.g.getEdge node n = some d →
          d.heapRef ≠ some r) →
        entryAt s1.entries r = entryAt s.entries r) := by
  intro ns
  induction ns with
  | nil =>
    intro s s1 h r
    cases h
    refine ⟨?_, fun _ => rfl⟩
    rintro ⟨n, hn, -⟩
    simp at hn
  | cons n rest ih =>
    intro s s1 h r
    simp only [invalidateIncidentAux, Bind.bind, Except.bind] at h
    cases hge : s.g.getEdge node n with
    | none =>
      rw [hge] at h
      simp [invalidateEdgeItem] at h
    | some d =>
      rw [hge] at h
      cases dh : d.heapRef with
      | none =>
        rw [invalidateEdgeItem] at h
        rw [dh] at h
        simp at h
      | some r0 =>
        rw [invalidateEdgeItem] at h
        rw [dh] at h
        simp only at h
        have hgpres : (invalidateEntry s r0).g = s.g := rfl
        have ihr := ih (invalidateEntry s r0) s1 h r
        constructor
        · rintro ⟨n2, hn2, d2, hd2, hr2⟩
          rcases List.mem_cons.mp hn2 with hh | hh
          · subst hh
            rw [hge] at hd2
            obtain rfl : d = d2 := by injection hd2
            obtain rfl : r0 = r := by
              rw [dh] at hr2
              injection hr2
            by_cases hrest : ∃ m ∈ rest, ∃ dm : EdgeData,
                s.g.getEdge node m = some dm ∧ dm.heapRef = some r0
            · obtain ⟨m, hm, dm, hdm, hrm⟩ := hrest
              have hstep := ihr.1 ⟨m, hm, dm, by rw [hgpres]; exact hdm, hrm⟩
              rw [hstep]
              unfold invalidateEntry
              simp only
              rw [entryAt_setSlotFalse_self_all]
            · have hnone : ∀ m ∈ rest, ∀ dm : EdgeData,
                  (invalidateEntry s r0).g.getEdge node m = some dm →
                  dm.heapRef ≠ some r0 := by
                intro m hm dm hdm hrm
                rw [hgpres] at hdm
                exact hrest ⟨m, hm, dm, hdm, hrm⟩
              rw [ihr.2 hnone]
              unfold invalidateEntry
              simp only
              rw [entryAt_setSlotFalse_self_all]
          · have hstep := ihr.1 ⟨n2, hh, d2, by rw [hgpres]; exact hd2, hr2⟩
            rw [hstep]
            by_cases hr0 : r0 = r
            · subst hr0
              unfold invalidateEntry
              simp only
              rw [entryAt_setSlotFalse_self_all]
            · unfold invalidateEntry
              simp only
              rw [entryAt_setSlotFalse_ne s.entries r0 r
                (fun hc => hr0 hc.symm)]
        · intro hnone
          have hr0r : r0 ≠ r := by
            intro hc
            subst hc
            exact hnone n (List.mem_cons_self n rest) d hge dh
          have hnone2 : ∀ m ∈ rest, ∀ dm : EdgeData,
              (invalidateEntry s r0).g.getEdge node m = some dm →
              dm.heapRef ≠ some r := by
            intro m hm dm hdm hrm
            rw [hgpres] at hdm
            exact hnone m (List.mem_cons_of_mem n hm) dm hdm hrm
          rw [ihr.2 hnone2]
          unfold invalidateEntry
          simp only
          exact entryAt_setSlotFalse_ne s.entries r0 r
            (fun hc => hr0r hc.symm)

theorem invalidateIncident_entries {s s1 : MState} {node : Nat}
    (h : invalidateIncident s node = .ok s1) :
    ∀ r : Nat,
      ((∃ n ∈ s.g.neighbors node, ∃ d : EdgeData,
          s.g.getEdge node n = some d ∧ d.heapRef = some r) →
        entryAt s1.entries r = { entryAt s.entries r with slot := .sfalse }) ∧
      ((∀ n ∈ s.g.neighbors node, ∀ d : EdgeData,
          s.g.getEdge node n = some d → d.heapRef ≠ some r) →
        entryAt s1.entries r = entryAt s.entries r) := by
  unfold invalidateIncident at h
  by_cases hn : s.g.hasNode node
  · rw [if_pos hn] at h
    exact invalidateIncidentAux_entries node _ s s1 h
  · rw [if_neg hn] at h
    cases h

/-- Under pair-uniqueness, a stored record determines the edge lookup. -/
theorem findEdge_eq_of_mem {es : List EdgeRec}
    (hpn : es.Pairwise (fun e1 e2 => pairEq e1.u e1.v e2.u e2.v = false))
    {e : EdgeRec} (he : e ∈ es) {x y : Nat}
    (hp : pairEq e.u e.v x y = true) : findEdge es x y = some e.data := by
  induction es with
  | nil => simp at he
  | cons f rest ih =>
    unfold findEdge
    rcases List.mem_cons.mp he with hh | hh
    · subst hh
      have hp2 : (fun f : EdgeRec => pairEq f.u f.v x y) e = true := hp
      rw [List.find?_cons_of_pos rest hp2]
      rfl
    · have hfr : pairEq f.u f.v e.u e.v = false :=
        (List.pairwise_cons.mp hpn).1 e hh
      have hfxy : pairEq f.u f.v x y = false := by
        cases hc : pairEq f.u f.v x y with
        | false => rfl
        | true =>
          have hcontra := pairEq_trans hc hp
          rw [hfr] at hcontra
          cases hcontra
      have hf2 : ¬ (fun q : EdgeRec => pairEq q.u q.v x y) f = true := by
        simp only
        rw [hfxy]
        simp
      rw [List.find?_cons_of_neg rest hf2]
      exact ih (List.pairwise_cons.mp hpn).2 hh

theorem getEdge_eq_of_mem {g : RAG}
    (hpn : g.edges.Pairwise (fun e1 e2 => pairEq e1.u e1.v e2.u e2.v = false))
    {e : EdgeRec} (he : e ∈ g.edges) {x y : Nat}
    (hp : pairEq e.u e.v x y = true) : g.getEdge x y = some e.data :=
  findEdge_eq_of_mem hpn he hp

def mkInitEntry (e : EdgeRec) : Entry := ⟨e.data.weight, e.u, e.v, .dataDict⟩

/-- Edges with back-references assigned sequentially from `k`. -/
def withRefs (k : Nat) : List EdgeRec → List EdgeRec
  | [] => []
  | e :: es =>
    { e with data := { e.data with heapRef := some k } } :: withRefs (k + 1) es

/-- Same endpoints and weight, arbitrary back-references. -/
def sameEdgeNoRef (b e : EdgeRec) : Prop :=
  e.u = b.u ∧ e.v = b.v ∧ e.data.weight = b.data.weight

theorem forall2_mem_right {l B : List EdgeRec}
    (h : List.Forall₂ sameEdgeNoRef l B) {e : EdgeRec} (he : e ∈ B) :
    ∃ x ∈ l, e.u = x.u ∧ e.v = x.v ∧ e.data.weight = x.data.weight := by
  induction h with
  | nil => simp at he
  | @cons a b l1 l2 hab htail ih =>
    rcases List.mem_cons.mp he with hh | hh
    · exact ⟨a, List.mem_cons_self a l1, hh ▸ hab⟩
    · obtain ⟨x, hx, hxe⟩ := ih hh
      exact ⟨x, List.mem_cons_of_mem a hx, hxe⟩

theorem map_setRef_id (u v : Nat) (r : Option Nat) :
    ∀ (l : List EdgeRec), (∀ e ∈ l, pairEq e.u e.v u v = false) →
    l.map (fun e => if pairEq e.u e.v u v then
      { e with data := { e.data with heapRef := r } } else e) = l := by
  intro l
  induction l with
  | nil => intro _; rfl
  | cons e es ih =>
    intro h
    rw [List.map_cons, h e (List.mem_cons_self e es)]
    simp only [Bool.false_eq_true, if_false]
    rw [ih (fun f hf => h f (List.mem_cons_of_mem e hf))]

theorem setHeapRef_split {g : RAG} {u v : Nat} {r : Option Nat}
    {A B : List EdgeRec} {b : EdgeRec}
    (hedges : g.edges = A ++ b :: B)
    (hA : ∀ a ∈ A, pairEq a.u a.v u v = false)
    (hb : pairEq b.u b.v u v = true)
    (hB : ∀ e ∈ B, pairEq e.u e.v u v = false) :
    g.setHeapRef u v r =
      ⟨g.nodes, A ++ { b with data := { b.data with heapRef := r } } :: B⟩ := by
  unfold RAG.setHeapRef
  congr 1
  rw [hedges, List.map_append, List.map_cons, hb]
  simp only [if_true]
  rw [map_setRef_id u v r A hA, map_setRef_id u v r B hB]

theorem initFold_closed :
    ∀ (l : List EdgeRec) (st : MState) (A B : List EdgeRec),
    st.g.edges = A ++ B →
    List.Forall₂ sameEdgeNoRef l B →
    (∀ a ∈ A, ∀ x ∈ l, pairEq a.u a.v x.u x.v = false) →
    List.Pairwise (fun e1 e2 => pairEq e1.u e1.v e2.u e2.v = false) l →
    l.foldl initStep st =
      ⟨⟨st.g.nodes, A ++ withRefs st.entries.length B⟩,
       st.entries ++ l.map mkInitEntry,
       st.heap ++ List.range' st.entries.length l.length⟩ := by
  intro l
  induction l with
  | nil =>
    intro st A B hedges hf2 _ _
    cases hf2
    simp only [List.foldl_nil, List.map_nil, List.append_nil,
      List.length_nil, List.range'_zero, withRefs]
    cases st with
    | mk g es hp =>
      cases g with
      | mk nodes edges =>
        simp only [List.append_nil] at hedges ⊢
        rw [← hedges]
  | cons x xs ih =>
    intro st A B hedges hf2 hA hpw
    cases hf2 with
    | cons hbe hf2' =>
      rename_i b bs
      rw [List.foldl_cons]
      obtain ⟨hu, hv, hw⟩ := hbe
      have hpb : pairEq b.u b.v x.u x.v = true := by
        rw [hu, hv]
        exact pairEq_refl x.u x.v
      have hpbs : ∀ e ∈ bs, pairEq e.u e.v x.u x.v = false := by
        intro e he
        obtain ⟨xj, hxj, hju, hjv, -⟩ := forall2_mem_right hf2' he
        rw [hju, hjv, pairEq_symm]
        exact (List.pairwise_cons.mp hpw).1 xj hxj
      have hAx : ∀ a ∈ A, pairEq a.u a.v x.u x.v = false :=
        fun a ha => hA a ha x (List.mem_cons_self x xs)
      have hstep : initStep st x =
          ⟨⟨st.g.nodes, A ++ { b with data := { b.data with
              heapRef := some st.entries.length } } :: bs⟩,
           st.entries ++ [mkInitEntry x],
           st.heap ++ [st.entries.length]⟩ := by
        unfold initStep pushEntry
        simp only
        rw [@setHeapRef_split ⟨st.g.nodes, st.g.edges⟩ x.u x.v
          (some st.entries.length) A bs b (by simpa using hedges)
          hAx hpb hpbs]
        rfl
      rw [hstep]
      have hres := ih ⟨⟨st.g.nodes, (A ++ [{ b with data := { b.data with
            heapRef := some st.entries.length } }]) ++ bs⟩,
          st.entries ++ [mkInitEntry x],
          st.heap ++ [st.entries.length]⟩
        (A ++ [{ b with data := { b.data with
            heapRef := some st.entries.length } }]) bs rfl hf2'
        (by
          intro a ha xj hxj
          rcases List.mem_append.mp ha with haa | hab
          · exact hA a haa xj (List.mem_cons_of_mem x hxj)
          · rw [List.mem_singleton] at hab
            subst hab
            simp only
            rw [hu, hv]
            exact (List.pairwise_cons.mp hpw).1 xj hxj)
        (List.pairwise_cons.mp hpw).2
      have heq : (⟨⟨st.g.nodes, A ++ { b with data := { b.data with
              heapRef := some st.entries.length } } :: bs⟩,
           st.entries ++ [mkInitEntry x],
           st.heap ++ [st.entries.length]⟩ : MState) =
          ⟨⟨st.g.nodes, (A ++ [{ b with data := { b.data with
              heapRef := some st.entries.length } }]) ++ bs⟩,
           st.entries ++ [mkInitEntry x],
           st.heap ++ [st.entries.length]⟩ := by
        simp [List.append_assoc]
      rw [heq, hres]
      simp only [List.length_append, List.length_cons, List.length_nil,
        List.length_map, List.append_assoc, List.singleton_append,
        List.map_cons, List.range'_succ, withRefs]

theorem initHeap_closed {g : RAG}
    (hpw : g.edges.Pairwise (fun e1 e2 => pairEq e1.u e1.v e2.u e2.v = false)) :
    initHeap g = ⟨⟨g.nodes, withRefs 0 g.edges⟩, g.edges.map mkInitEntry,
      List.range' 0 g.edges.length⟩ := by
  unfold initHeap
  have hf2 : List.Forall₂ sameEdgeNoRef g.edges g.edges := by
    rw [List.forall₂_same]
    intro x _
    exact ⟨rfl, rfl, rfl⟩
  have := initFold_closed g.edges ⟨g, [], []⟩ [] g.edges (by simp) hf2
    (by simp) hpw
  simpa using this

theorem withRefs_mem : ∀ {k : Nat} {B : List EdgeRec} {e : EdgeRec},
    e ∈ withRefs k B →
    ∃ b ∈ B, e.u = b.u ∧ e.v = b.v ∧ e.data.weight = b.data.weight := by
  intro k B
  induction B generalizing k with
  | nil => intro e he; simp [withRefs] at he
  | cons b bs ih =>
    intro e he
    simp only [withRefs] at he
    rcases List.mem_cons.mp he with hh | hh
    · exact ⟨b, List.mem_cons_self b bs, by rw [hh], by rw [hh], by rw [hh]⟩
    · obtain ⟨b2, hb2, he2⟩ := ih hh
      exact ⟨b2, List.mem_cons_of_mem b hb2, he2⟩

theorem withRefs_pairwise {B : List EdgeRec}
    (h : B.Pairwise (fun e1 e2 => pairEq e1.u e1.v e2.u e2.v = false)) :
    ∀ k, (withRefs k B).Pairwise
      (fun e1 e2 => pairEq e1.u e1.v e2.u e2.v = false) := by
  induction B with
  | nil => intro k; exact List.Pairwise.nil
  | cons b bs ih =>
    intro k
    simp only [withRefs]
    refine List.pairwise_cons.mpr ⟨?_, ih (List.pairwise_cons.mp h).2 (k + 1)⟩
    intro e he
    obtain ⟨b2, hb2, hu, hv, -⟩ := withRefs_mem he
    simp only
    rw [hu, hv]
    exact (List.pairwise_cons.mp h).1 b2 hb2

theorem entryAt_map_mkInitEntry :
    ∀ (l : List EdgeRec) (j : Nat), j < l.length →
    entryAt (l.map mkInitEntry) j = mkInitEntry (l.getD j default) := by
  intro l
  induction l with
  | nil => intro j h; simp at h
  | cons e es ih =>
    intro j h
    cases j with
    | zero => rfl
    | succ j => exact ih j (by simpa using h)

theorem init_edgeOK_aux (es : List Entry) :
    ∀ (B : List EdgeRec) (k : Nat),
    (∀ j, j < B.length → entryAt es (k + j) = mkInitEntry (B.getD j default)) →
    ∀ e ∈ withRefs k B, ∃ r, e.data.heapRef = some r ∧
      r ∈ List.range' k B.length ∧
      (entryAt es r).slot.truthy = true ∧
      (entryAt es r).weight = e.data.weight ∧
      pairEq (entryAt es r).a (entryAt es r).b e.u e.v = true := by
  intro B
  induction B with
  | nil => intro k _ e he; simp [withRefs] at he
  | cons b bs ih =>
    intro k h e he
    simp only [withRefs] at he
    rcases List.mem_cons.mp he with hh | hh
    · refine ⟨k, by rw [hh], ?_, ?_, ?_, ?_⟩
      · rw [List.mem_range'_1]
        simp only [List.length_cons]
        omega
      · have h0 := h 0 (by simp)
        simp only [Nat.add_zero] at h0
        rw [h0]
        rfl
      · have h0 := h 0 (by simp)
        simp only [Nat.add_zero] at h0
        rw [h0, hh]
        rfl
      · have h0 := h 0 (by simp)
        simp only [Nat.add_zero] at h0
        rw [h0, hh]
        exact pairEq_refl b.u b.v
    · obtain ⟨r, hr1, hr2, hr3, hr4, hr5⟩ := ih (k + 1)
        (fun j hj => by
          have := h (j + 1) (by simpa using Nat.succ_lt_succ hj)
          rw [show k + (j + 1) = k + 1 + j by omega] at this
          exact this) e hh
      refine ⟨r, hr1, ?_, hr3, hr4, hr5⟩
      rw [List.mem_range'_1] at hr2 ⊢
      simp only [List.length_cons]
      omega

theorem init_validBack_aux (es : List Entry) :
    ∀ (B : List EdgeRec) (k : Nat),
    (∀ j, j < B.length → entryAt es (k + j) = mkInitEntry (B.getD j default)) →
    ∀ r ∈ List.range' k B.length, ∃ e ∈ withRefs k B,
      e.data.heapRef = some r ∧
      pairEq (entryAt es r).a (entryAt es r).b e.u e.v = true := by
  intro B
  induction B with
  | nil => intro k _ r hr; simp at hr
  | cons b bs ih =>
    intro k h r hr
    rw [List.mem_range'_1] at hr
    by_cases hk : r = k
    · subst hk
      refine ⟨{ b with data := { b.data with heapRef := some r } },
        by simp [withRefs], rfl, ?_⟩
      have h0 := h 0 (by simp)
      simp only [Nat.add_zero] at h0
      rw [h0]
      exact pairEq_refl b.u b.v
    · obtain ⟨e, he, he1, he2⟩ := ih (k + 1)
        (fun j hj => by
          have := h (j + 1) (by simpa using Nat.succ_lt_succ hj)
          rw [show k + (j + 1) = k + 1 + j by omega] at this
          exact this) r
        (by
          rw [List.mem_range'_1]
          simp only [List.length_cons] at hr
          omega)
      exact ⟨e, by simp [withRefs, he], he1, he2⟩

/-- The invariant holds right after queue initialisation. -/
theorem Inv_init {g : RAG} (hwf : WFG g) : Inv (initHeap g) := by
  rw [initHeap_closed hwf.pairsNodup]
  have hent : ∀ j, j < g.edges.length →
      entryAt (g.edges.map mkInitEntry) j =
        mkInitEntry (g.edges.getD j default) :=
    entryAt_map_mkInitEntry g.edges
  constructor
  · constructor
    · exact hwf.nodesNodup
    · exact withRefs_pairwise hwf.pairsNodup 0
    · intro e he
      obtain ⟨b, hb, hu, hv, -⟩ := withRefs_mem he
      have := hwf.endpoints b hb
      exact ⟨by rw [hu]; exact this.1, by rw [hv]; exact this.2⟩
    · intro e he
      obtain ⟨b, hb, hu, hv, -⟩ := withRefs_mem he
      rw [hu, hv]
      exact hwf.noSelf b hb
  · exact List.nodup_range' _ _
  · intro r hr
    rw [List.mem_range'_1] at hr
    simp only [List.length_map]
    omega
  · intro e he
    have := init_edgeOK_aux (g.edges.map mkInitEntry) g.edges 0
      (fun j hj => by rw [Nat.zero_add]; exact hent j hj) e (by simpa using he)
    simpa using this
  · intro r hr htruthy
    have := init_validBack_aux (g.edges.map mkInitEntry) g.edges 0
      (fun j hj => by rw [Nat.zero_add]; exact hent j hj) r hr
    simpa using this

theorem setHeapRef_nodes (g : RAG) (u v : Nat) (r : Option Nat) :
    (g.setHeapRef u v r).nodes = g.nodes := rfl

/-- The per-record function `setHeapRef` maps over the edge list. -/
def setRefFun (u v : Nat) (r : Option Nat) : EdgeRec → EdgeRec :=
  fun e => if pairEq e.u e.v u v then { e with data := { e.data with heapRef := r } } else e

theorem setHeapRef_eq_map (g : RAG) (u v : Nat) (r : Option Nat) :
    (g.setHeapRef u v r).edges = g.edges.map (setRefFun u v r) := rfl

theorem find?_cons_expand {α : Type} (p : α → Bool) (a : α) (l : List α) :
    List.find? p (a :: l) = if p a = true then some a else List.find? p l := by
  cases hpa : p a
  · simp [List.find?_cons_of_neg, hpa]
  · simp [List.find?_cons_of_pos, hpa]

theorem setRefFun_uv (u v : Nat) (r : Option Nat) (e : EdgeRec) :
    (setRefFun u v r e).u = e.u ∧ (setRefFun u v r e).v = e.v := by
  unfold setRefFun
  by_cases h : pairEq e.u e.v u v = true <;> simp [h]

theorem setRefFun_id (u v : Nat) (r : Option Nat) {e : EdgeRec}
    (h : pairEq e.u e.v u v = false) : setRefFun u v r e = e := by
  unfold setRefFun
  rw [h]
  simp

theorem setRefFun_data (u v : Nat) (r : Option Nat) {e : EdgeRec}
    (h : pairEq e.u e.v u v = true) :
    setRefFun u v r e = { e with data := { e.data with heapRef := r } } := by
  unfold setRefFun
  rw [h]
  simp

/-- A pair not matched by `pairEq u v` is looked up unchanged after the
reference update. -/
theorem findEdge_map_setRef_other {u v x y : Nat} (r : Option Nat)
    (hxy : pairEq u v x y = false) (l : List EdgeRec) :
    findEdge (l.map (setRefFun u v r)) x y = findEdge l x y := by
  induction l with
  | nil => rfl
  | cons a l ih =>
    rw [List.map_cons]
    unfold findEdge at ih ⊢
    rw [find?_cons_expand (fun e => pairEq e.u e.v x y) (setRefFun u v r a),
      find?_cons_expand (fun e => pairEq e.u e.v x y) a]
    have huv := setRefFun_uv u v r a
    simp only [huv.1, huv.2]
    cases hpa : pairEq a.u a.v x y with
    | false =>
      simp only [Bool.false_eq_true, if_false]
      exact ih
    | true =>
      simp only [if_true]
      have hauv : pairEq a.u a.v u v = false := by
        cases hc : pairEq a.u a.v u v with
        | false => rfl
        | true =>
          have h1 : pairEq u v a.u a.v = true := by
            rw [pairEq_symm]; exact hc
          have h2 : pairEq x y a.u a.v = true := by
            rw [pairEq_symm]; exact hpa
          have := pairEq_trans h1 h2
          rw [hxy] at this
          cases this
      rw [setRefFun_id u v r hauv]

/-- The updated pair is looked up with its reference replaced. -/
theorem findEdge_map_setRef_self {u v : Nat} (r : Option Nat) (l : List EdgeRec)
    {d : EdgeData} (h : findEdge l u v = some d) :
    findEdge (l.map (setRefFun u v r)) u v = some { d with heapRef := r } := by
  induction l with
  | nil => simp [findEdge] at h
  | cons a l ih =>
    rw [List.map_cons]
    unfold findEdge at ih h ⊢
    rw [find?_cons_expand (fun e => pairEq e.u e.v u v) (setRefFun u v r a)]
    rw [find?_cons_expand (fun e => pairEq e.u e.v u v) a] at h
    have huv := setRefFun_uv u v r a
    simp only [huv.1, huv.2]
    cases hpa : pairEq a.u a.v u v with
    | false =>
      rw [hpa] at h
      simp only [Bool.false_eq_true, if_false] at h ⊢
      exact ih h
    | true =>
      rw [hpa] at h
      simp only [if_true] at h ⊢
      have had : a.data = d := by simpa using h
      rw [setRefFun_data u v r hpa]
      simp [had]

/-- Setting a heap reference leaves lookups of other pairs alone. -/
theorem getEdge_setHeapRef_other (g : RAG) (u v : Nat) (r : Option Nat)
    {x y : Nat} (h : pairEq u v x y = false) :
    (g.setHeapRef u v r).getEdge x y = g.getEdge x y := by
  rw [getEdge_eq_findEdge, getEdge_eq_findEdge, setHeapRef_eq_map]
  exact findEdge_map_setRef_other r h g.edges

/-- Setting a heap reference updates the looked-up record in place. -/
theorem getEdge_setHeapRef_self {g : RAG} {u v : Nat} {d : EdgeData}
    (h : g.getEdge u v = some d) (r : Option Nat) :
    (g.setHeapRef u v r).getEdge u v = some { d with heapRef := r } := by
  rw [getEdge_eq_findEdge, setHeapRef_eq_map]
  exact findEdge_map_setRef_self r g.edges h

/-- `setHeapRef` preserves endpoints and weights record by record. -/
theorem setHeapRef_edges_uv (g : RAG) (u v : Nat) (r : Option Nat) :
    ∀ e ∈ (g.setHeapRef u v r).edges, ∃ e0 ∈ g.edges,
      e.u = e0.u ∧ e.v = e0.v ∧ e.data.weight = e0.data.weight := by
  intro e he
  rw [setHeapRef_eq_map] at he
  simp only [List.mem_map] at he
  obtain ⟨e0, he0, heq⟩ := he
  refine ⟨e0, he0, ?_⟩
  rw [← heq]
  unfold setRefFun
  by_cases hc : pairEq e0.u e0.v u v = true <;> simp [hc]

theorem setHeapRef_pairwise {g : RAG}
    (h : g.edges.Pairwise (fun e1 e2 => pairEq e1.u e1.v e2.u e2.v = false))
    (u v : Nat) (r : Option Nat) :
    (g.setHeapRef u v r).edges.Pairwise
      (fun e1 e2 => pairEq e1.u e1.v e2.u e2.v = false) := by
  rw [setHeapRef_eq_map]
  rw [List.pairwise_map]
  refine h.imp_of_mem ?_
  intro e1 e2 _ _ h12
  have h1 := setRefFun_uv u v r e1
  have h2 := setRefFun_uv u v r e2
  rw [h1.1, h1.2, h2.1, h2.2]
  exact h12

theorem setHeapRef_mem_of_not_incident {g : RAG} {u v : Nat} {r : Option Nat}
    {e : EdgeRec} (hne : pairEq e.u e.v u v = false) :
    (e ∈ g.edges ↔ e ∈ (g.setHeapRef u v r).edges) := by
  rw [setHeapRef_eq_map]
  simp only [List.mem_map]
  constructor
  · intro hmem
    exact ⟨e, hmem, setRefFun_id u v r hne⟩
  · rintro ⟨e0, he0, heq⟩
    by_cases hc : pairEq e0.u e0.v u v = true
    · exfalso
      rw [setRefFun_data u v r hc] at heq
      have huv : e.u = e0.u ∧ e.v = e0.v := by
        rw [← heq]
        exact ⟨rfl, rfl⟩
      rw [huv.1, huv.2, hc] at hne
      cases hne
    · have hc' : pairEq e0.u e0.v u v = false := by
        cases hx : pairEq e0.u e0.v u v with
        | false => rfl
        | true => exact absurd hx hc
      rw [setRefFun_id u v r hc'] at heq
      rw [← heq]
      exact he0

theorem getD_zero_cons (a : Nat) (l : List Nat) (d : Nat) :
    (a :: l).getD 0 d = a := rfl

theorem getD_succ_cons (a : Nat) (l : List Nat) (j d : Nat) :
    (a :: l).getD (j + 1) d = l.getD j d := rfl

theorem getD_mem_of_lt {l : List Nat} {j : Nat} (h : j < l.length) (d : Nat) :
    l.getD j d ∈ l := by
  induction l generalizing j with
  | nil => simp at h
  | cons a l ih =>
    cases j with
    | zero => exact List.mem_cons_self a l
    | succ j =>
      rw [getD_succ_cons]
      have hj : j < l.length := by
        simp at h
        omega
      exact List.mem_cons_of_mem a (ih hj)

/-- Closed form of one revalidation step when the edge is present: the
reference (if any) is invalidated, a fresh truthy entry is appended at the
current store length, that index is pushed, and the edge record now points
at it. -/
theorem revalStep_closed (node : Nat) (st : MState) (n : Nat) {d : EdgeData}
    (hd : st.g.getEdge node n = some d) :
    revalStep node st n =
      { g := st.g.setHeapRef node n (some st.entries.length),
        entries := (match d.heapRef with
          | some r => setSlotFalse st.entries r
          | none => st.entries) ++ [⟨d.weight, node, n, .strue⟩],
        heap := st.heap ++ [st.entries.length] } := by
  simp only [revalStep, pushEntry, invalidateEntry, hd, Option.getD_some]
  cases hr : d.heapRef with
  | none => simp
  | some r => simp [setSlotFalse_length]

/-- The full effect of revalidating the edges from `node` to each member of
`ns` in order, starting from state `st`. -/
structure RevalSpec (node : Nat) (ns : List Nat) (st sF : MState) : Prop where
  len : sF.entries.length = st.entries.length + ns.length
  nodesEq : sF.g.nodes = st.g.nodes
  heapEq : sF.heap = st.heap ++ List.range' st.entries.length ns.length
  oldEnt : ∀ r, r < st.entries.length →
    entryAt sF.entries r = entryAt st.entries r ∨
    entryAt sF.entries r = { entryAt st.entries r with slot := .sfalse }
  untouched : ∀ r, r < st.entries.length →
    (∀ n ∈ ns, ∀ d : EdgeData, st.g.getEdge node n = some d →
      d.heapRef ≠ some r) →
    entryAt sF.entries r = entryAt st.entries r
  invalidated : ∀ n ∈ ns, ∀ d : EdgeData, st.g.getEdge node n = some d →
    ∀ rr, d.heapRef = some rr →
    entryAt sF.entries rr = { entryAt st.entries rr with slot := .sfalse }
  pushed : ∀ j, j < ns.length →
    entryAt sF.entries (st.entries.length + j) =
      ⟨((st.g.getEdge node (ns.getD j 0)).getD default).weight, node,
        ns.getD j 0, .strue⟩
  newEdge : ∀ j, j < ns.length →
    sF.g.getEdge node (ns.getD j 0) =
      some ⟨((st.g.getEdge node (ns.getD j 0)).getD default).weight,
        some (st.entries.length + j)⟩
  otherEdge : ∀ x y, (∀ n ∈ ns, pairEq node n x y = false) →
    sF.g.getEdge x y = st.g.getEdge x y
  memIff : ∀ e : EdgeRec, e.u ≠ node → e.v ≠ node →
    (e ∈ st.g.edges ↔ e ∈ sF.g.edges)
  uvw : ∀ e ∈ sF.g.edges, ∃ e0 ∈ st.g.edges,
    e.u = e0.u ∧ e.v = e0.v ∧ e.data.weight = e0.data.weight
  pw : sF.g.edges.Pairwise (fun e1 e2 => pairEq e1.u e1.v e2.u e2.v = false)

/-- `_revalidate_node_edges`, fold form: full characterisation by induction
over the neighbor list. -/
theorem revalFold_spec (node : Nat) :
    ∀ (ns : List Nat) (st : MState),
    ns.Nodup →
    (∀ n ∈ ns, n ≠ node) →
    st.g.edges.Pairwise (fun e1 e2 => pairEq e1.u e1.v e2.u e2.v = false) →
    (∀ n ∈ ns, (st.g.getEdge node n).isSome = true) →
    (∀ n ∈ ns, ∀ d : EdgeData, st.g.getEdge node n = some d →
      ∀ rr, d.heapRef = some rr → rr < st.entries.length) →
    RevalSpec node ns st (ns.foldl (revalStep node) st) := by
  intro ns
  induction ns with
  | nil =>
    intro st _ _ hpw _ _
    exact {
      len := by simp
      nodesEq := rfl
      heapEq := by simp
      oldEnt := fun r _ => Or.inl rfl
      untouched := fun r _ _ => rfl
      invalidated := fun n hn => absurd hn (List.not_mem_nil n)
      pushed := fun j hj => absurd hj (by simp)
      newEdge := fun j hj => absurd hj (by simp)
      otherEdge := fun x y _ => rfl
      memIff := fun e _ _ => Iff.rfl
      uvw := fun e he => ⟨e, he, rfl, rfl, rfl⟩
      pw := hpw }
  | cons n rest ih =>
    intro st hnd hne hpw hsome hsmall
    obtain ⟨d, hd⟩ := Option.isSome_iff_exists.mp
      (hsome n (List.mem_cons_self n rest))
    have hnn : n ≠ node := hne n (List.mem_cons_self n rest)
    have hnodup := List.nodup_cons.mp hnd
    have hstep := revalStep_closed node st n hd
    rw [List.foldl_cons]
    have hg1 : (revalStep node st n).g =
        st.g.setHeapRef node n (some st.entries.length) := by rw [hstep]
    have hheap1 : (revalStep node st n).heap =
        st.heap ++ [st.entries.length] := by rw [hstep]
    have hE1 : (revalStep node st n).entries =
        (match d.heapRef with
          | some r => setSlotFalse st.entries r
          | none => st.entries) ++ [⟨d.weight, node, n, .strue⟩] := by
      rw [hstep]
    have hE1len : (match d.heapRef with
        | some r => setSlotFalse st.entries r
        | none => st.entries).length = st.entries.length := by
      cases d.heapRef <;> simp [setSlotFalse_length]
    have hlen1 : (revalStep node st n).entries.length =
        st.entries.length + 1 := by
      rw [hE1, List.length_append, hE1len]
      rfl
    -- transport of old entries into the post-step state
    have hst1at : ∀ r, r < st.entries.length →
        entryAt (revalStep node st n).entries r = entryAt st.entries r ∨
        entryAt (revalStep node st n).entries r =
          { entryAt st.entries r with slot := .sfalse } := by
      intro r hr
      rw [hE1, entryAt_append_lt _ _ r (by rw [hE1len]; exact hr)]
      cases hdr : d.heapRef with
      | none => exact Or.inl rfl
      | some rr =>
        by_cases hrr : r = rr
        · subst hrr
          exact Or.inr (entryAt_setSlotFalse_self_all st.entries r)
        · exact Or.inl (entryAt_setSlotFalse_ne st.entries rr r hrr)
    have hst1at_ne : ∀ r, r < st.entries.length →
        (∀ rr, d.heapRef = some rr → r ≠ rr) →
        entryAt (revalStep node st n).entries r = entryAt st.entries r := by
      intro r hr hcond
      rw [hE1, entryAt_append_lt _ _ r (by rw [hE1len]; exact hr)]
      cases hdr : d.heapRef with
      | none => rfl
      | some rr => exact entryAt_setSlotFalse_ne st.entries rr r (hcond rr hdr)
    have hst1at_new : entryAt (revalStep node st n).entries st.entries.length =
        ⟨d.weight, node, n, .strue⟩ := by
      rw [hE1]
      have := entryAt_append_len (match d.heapRef with
        | some r => setSlotFalse st.entries r
        | none => st.entries) ⟨d.weight, node, n, .strue⟩
      rw [hE1len] at this
      exact this
    -- stability of the other edges across the step
    have hpne : ∀ m ∈ rest, pairEq node n node m = false := by
      intro m hm
      have h1 : n ≠ m := fun h => hnodup.1 (h ▸ hm)
      have h2 : n ≠ node := hnn

      simp only [pairEq, Bool.or_eq_false_iff, Bool.and_eq_false_iff]
      constructor
      · right
        simp [h1]
      · right
        simp [h2]
    have hge_rest : ∀ m ∈ rest,
        (revalStep node st n).g.getEdge node m = st.g.getEdge node m := by
      intro m hm
      rw [hg1]
      exact getEdge_setHeapRef_other st.g node n (some st.entries.length)
        (hpne m hm)
    have S := ih (revalStep node st n) hnodup.2
      (fun m hm => hne m (List.mem_cons_of_mem n hm))
      (by rw [hg1]; exact setHeapRef_pairwise hpw node n (some st.entries.length))
      (fun m hm => by rw [hge_rest m hm]; exact hsome m (List.mem_cons_of_mem n hm))
      (fun m hm dm hdm rr hrr => by
        rw [hge_rest m hm] at hdm
        have := hsmall m (List.mem_cons_of_mem n hm) dm hdm rr hrr
        rw [hlen1]
        omega)
    refine {
      len := ?_
      nodesEq := ?_
      heapEq := ?_
      oldEnt := ?_
      untouched := ?_
      invalidated := ?_
      pushed := ?_
      newEdge := ?_
      otherEdge := ?_
      memIff := ?_
      uvw := ?_
      pw := S.pw }
    · rw [S.len, hlen1, List.length_cons]
      omega
    · rw [S.nodesEq, hg1, setHeapRef_nodes]
    · rw [S.heapEq, hheap1, hlen1, List.length_cons, List.append_assoc,
        List.singleton_append]
      rfl
    · intro r hr
      rcases S.oldEnt r (by rw [hlen1]; omega) with h1 | h1 <;>
        rcases hst1at r hr with h2 | h2
      · exact Or.inl (by rw [h1, h2])
      · exact Or.inr (by rw [h1, h2])
      · exact Or.inr (by rw [h1, h2])
      · exact Or.inr (by rw [h1, h2])
    · intro r hr hcond
      have hs := S.untouched r (by rw [hlen1]; omega) (fun m hm dm hdm => by
        rw [hge_rest m hm] at hdm
        exact hcond m (List.mem_cons_of_mem n hm) dm hdm)
      rw [hs]
      exact hst1at_ne r hr (fun rr hdr hrrr => by
        exact hcond n (List.mem_cons_self n rest) d hd (by rw [hdr, hrrr]))
    · intro m hm dm hdm rr hrr
      rcases List.mem_cons.mp hm with rfl | hm'
      · rw [hd] at hdm
        have hdd : dm = d := by
          cases hdm
          rfl
        subst hdd
        have hrlt : rr < st.entries.length :=
          hsmall m (List.mem_cons_self m rest) dm hd rr hrr
        have h1 : entryAt (revalStep node st m).entries rr =
            { entryAt st.entries rr with slot := .sfalse } := by
          rw [hE1, entryAt_append_lt _ _ rr (by rw [hE1len]; exact hrlt), hrr]
          exact entryAt_setSlotFalse_self_all st.entries rr
        rcases S.oldEnt rr (by rw [hlen1]; omega) with h2 | h2 <;>
          rw [h2, h1]
      · have hs := S.invalidated m hm' dm (by rw [hge_rest m hm']; exact hdm) rr hrr
        have hrlt : rr < st.entries.length :=
          hsmall m (List.mem_cons_of_mem n hm') dm hdm rr hrr
        rw [hs]
        rcases hst1at rr hrlt with h2 | h2 <;> rw [h2]
    · intro j hj
      cases j with
      | zero =>
        have hcond : ∀ m ∈ rest, ∀ dm : EdgeData,
            (revalStep node st n).g.getEdge node m = some dm →
            dm.heapRef ≠ some st.entries.length := by
          intro m hm dm hdm hrr
          rw [hge_rest m hm] at hdm
          have := hsmall m (List.mem_cons_of_mem n hm) dm hdm
            st.entries.length hrr
          omega
        have hs := S.untouched st.entries.length (by rw [hlen1]; omega) hcond
        rw [Nat.add_zero, hs, hst1at_new, getD_zero_cons, hd]
        rfl
      | succ j =>
        have hj' : j < rest.length := by
          simp at hj
          omega
        have hs := S.pushed j hj'
        rw [hlen1] at hs
        have hidx : st.entries.length + 1 + j = st.entries.length + (j + 1) := by
          omega
        rw [hidx] at hs
        rw [getD_succ_cons]
        rw [hs, hge_rest (rest.getD j 0) (getD_mem_of_lt hj' 0)]
    · intro j hj
      cases j with
      | zero =>
        have hcond : ∀ m ∈ rest, pairEq node m node n = false := by
          intro m hm
          rw [pairEq_symm]
          exact hpne m hm
        have hs := S.otherEdge node n hcond
        rw [Nat.add_zero, getD_zero_cons, hs, hg1,
          getEdge_setHeapRef_self hd (some st.entries.length), hd]
        rfl
      | succ j =>
        have hj' : j < rest.length := by
          simp at hj
          omega
        have hs := S.newEdge j hj'
        rw [hlen1] at hs
        have hidx : st.entries.length + 1 + j = st.entries.length + (j + 1) := by
          omega
        rw [hidx, hge_rest (rest.getD j 0) (getD_mem_of_lt hj' 0)] at hs
        rw [getD_succ_cons]
        exact hs
    · intro x y hcond
      have hs := S.otherEdge x y (fun m hm => hcond m (List.mem_cons_of_mem n hm))
      rw [hs, hg1]
      exact getEdge_setHeapRef_other st.g node n (some st.entries.length)
        (hcond n (List.mem_cons_self n rest))
    · intro e hu hv
      have hpe : pairEq e.u e.v node n = false := by
        cases hc : pairEq e.u e.v node n with
        | false => rfl
        | true =>
          rcases pairEq_true_iff.mp hc with ⟨h1, _⟩ | ⟨_, h2⟩
          · exact absurd h1 hu
          · exact absurd h2 hv
      have h1 : e ∈ st.g.edges ↔ e ∈ (revalStep node st n).g.edges := by
        rw [hg1]
        exact setHeapRef_mem_of_not_incident hpe
      exact h1.trans (S.memIff e hu hv)
    · intro e he
      obtain ⟨e1, he1, h1u, h1v, h1w⟩ := S.uvw e he
      rw [hg1] at he1
      obtain ⟨e0, he0, h0u, h0v, h0w⟩ :=
        setHeapRef_edges_uv st.g node n (some st.entries.length) e1 he1
      exact ⟨e0, he0, by rw [h1u, h0u], by rw [h1v, h0v], by rw [h1w, h0w]⟩

theorem neighbors_f_pair {m : Nat} {e : EdgeRec} {x : Nat}
    (h : (if e.u = m then some e.v else if e.v = m then some e.u else none)
      = some x) : pairEq e.u e.v m x = true := by
  by_cases h1 : e.u = m
  · rw [if_pos h1] at h
    have hx : e.v = x := by injection h
    apply pairEq_true_iff.mpr
    exact .inl ⟨h1, hx⟩
  · rw [if_neg h1] at h
    by_cases h2 : e.v = m
    · rw [if_pos h2] at h
      have hx : e.u = x := by injection h
      apply pairEq_true_iff.mpr
      exact .inr ⟨hx, h2⟩
    · rw [if_neg h2] at h
      cases h

/-- Distinct stored edges never share an unordered pair, so each neighbor
appears once. -/
theorem neighbors_nodup_aux (m : Nat) : ∀ (es : List EdgeRec),
    es.Pairwise (fun e1 e2 => pairEq e1.u e1.v e2.u e2.v = false) →
    (es.filterMap (fun e =>
      if e.u = m then some e.v else if e.v = m then some e.u
      else none)).Nodup := by
  intro es hpw
  induction hpw with
  | nil => exact List.nodup_nil
  | @cons e es hhead htail ih =>
    rw [List.filterMap_cons]
    cases hf : (if e.u = m then some e.v else if e.v = m then some e.u
        else none) with
    | none => exact ih
    | some x =>
      apply List.nodup_cons.mpr
      refine ⟨?_, ih⟩
      intro hmem
      obtain ⟨e2, he2, hf2⟩ := List.mem_filterMap.mp hmem
      have hp1 : pairEq e.u e.v m x = true := neighbors_f_pair hf
      have hp2 : pairEq e2.u e2.v m x = true := neighbors_f_pair hf2
      have : pairEq e.u e.v e2.u e2.v = true := pairEq_trans hp1 hp2
      rw [hhead e2 he2] at this
      cases this

/-- Distinct stored edges never share an unordered pair, so each neighbor
appears once. -/
theorem neighbors_nodup {g : RAG}
    (hpw : g.edges.Pairwise (fun e1 e2 => pairEq e1.u e1.v e2.u e2.v = false))
    (m : Nat) : (g.neighbors m).Nodup :=
  neighbors_nodup_aux m g.edges hpw

/-- A successful `getEdge` comes from a stored record matching the pair. -/
theorem getEdge_some_elim {g : RAG} {x y : Nat} {d : EdgeData}
    (h : g.getEdge x y = some d) :
    ∃ e ∈ g.edges, e.data = d ∧ pairEq e.u e.v x y = true := by
  unfold RAG.getEdge at h
  cases hf : g.edges.find? (fun e => pairEq e.u e.v x y) with
  | none =>
    rw [hf] at h
    cases h
  | some e =>
    rw [hf] at h
    have hd : e.data = d := by injection h
    exact ⟨e, List.mem_of_find?_eq_some hf, hd,
      by simpa using List.find?_some hf⟩

theorem mem_iff_getD {l : List Nat} {x : Nat} (h : x ∈ l) :
    ∃ j, j < l.length ∧ l.getD j 0 = x := by
  induction l with
  | nil => simp at h
  | cons a l ih =>
    rcases List.mem_cons.mp h with rfl | h'
    · exact ⟨0, by simp, rfl⟩
    · obtain ⟨j, hj, hje⟩ := ih h'
      exact ⟨j + 1, by simpa using hj, hje⟩

/-- A pairwise-distinct edge list holds at most one record per unordered
pair. -/
theorem pairwise_mem_eq {es : List EdgeRec}
    (hpw : es.Pairwise (fun e1 e2 => pairEq e1.u e1.v e2.u e2.v = false))
    {e1 e2 : EdgeRec} (h1 : e1 ∈ es) (h2 : e2 ∈ es)
    (hp : pairEq e1.u e1.v e2.u e2.v = true) : e1 = e2 := by
  induction es with
  | nil => simp at h1
  | cons a es ih =>
    have hpw' := List.pairwise_cons.mp hpw
    rcases List.mem_cons.mp h1 with rfl | h1' <;>
      rcases List.mem_cons.mp h2 with rfl | h2'
    · rfl
    · rw [hpw'.1 e2 h2'] at hp
      cases hp
    · rw [pairEq_symm] at hp
      rw [hpw'.1 e1 h1'] at hp
      cases hp
    · exact ih hpw'.2 h1' h2'

theorem removeNode_edges_mem {g : RAG} {n : Nat} {e : EdgeRec} :
    e ∈ (g.removeNode n).edges ↔ e ∈ g.edges ∧ e.u ≠ n ∧ e.v ≠ n := by
  unfold RAG.removeNode
  simp [List.mem_filter]

theorem removeNode_hasNode_elim {g : RAG} {n m : Nat}
    (h : (g.removeNode n).hasNode m = true) :
    g.hasNode m = true ∧ m ≠ n := by
  obtain ⟨p, hp, hpe⟩ := hasNode_iff.mp h
  unfold RAG.removeNode at hp
  simp only [List.mem_filter] at hp
  refine ⟨hasNode_iff.mpr ⟨p, hp.1, hpe⟩, ?_⟩
  have := hp.2
  simp at this
  rw [← hpe]
  exact this

theorem removeNode_pairwise {g : RAG} (n : Nat)
    (h : g.edges.Pairwise (fun e1 e2 => pairEq e1.u e1.v e2.u e2.v = false)) :
    (g.removeNode n).edges.Pairwise
      (fun e1 e2 => pairEq e1.u e1.v e2.u e2.v = false) :=
  h.sublist (List.filter_sublist g.edges)

theorem removeNode_nodesNodup {g : RAG} (n : Nat)
    (h : (g.nodes.map Prod.fst).Nodup) :
    ((g.removeNode n).nodes.map Prod.fst).Nodup :=
  h.sublist (List.Sublist.map Prod.fst (List.filter_sublist g.nodes))

theorem truthy_sfalse : Slot.truthy .sfalse = false := rfl

theorem hasNode_congr_nodes {g1 g2 : RAG} (h : g1.nodes = g2.nodes)
    (m : Nat) : g1.hasNode m = g2.hasNode m := by
  unfold RAG.hasNode
  rw [h]

theorem pairwise_map_uv {l : List EdgeRec} {f : EdgeRec → EdgeRec}
    (huv : ∀ e, (f e).u = e.u ∧ (f e).v = e.v)
    (h : l.Pairwise (fun e1 e2 => pairEq e1.u e1.v e2.u e2.v = false)) :
    (l.map f).Pairwise (fun e1 e2 => pairEq e1.u e1.v e2.u e2.v = false) := by
  rw [List.pairwise_map]
  refine h.imp_of_mem ?_
  intro e1 e2 _ _ h12
  rw [(huv e1).1, (huv e1).2, (huv e2).1, (huv e2).2]
  exact h12

/-- The per-record function `setWeight` maps over the edge list. -/
def setWtFun (u v : Nat) (w : Int) : EdgeRec → EdgeRec :=
  fun e => if pairEq e.u e.v u v then { e with data := { e.data with weight := w } } else e

theorem setWeight_eq_map (g : RAG) (u v : Nat) (w : Int) :
    (g.setWeight u v w).edges = g.edges.map (setWtFun u v w) := rfl

theorem setWeight_nodes (g : RAG) (u v : Nat) (w : Int) :
    (g.setWeight u v w).nodes = g.nodes := rfl

theorem setWtFun_uv (u v : Nat) (w : Int) (e : EdgeRec) :
    (setWtFun u v w e).u = e.u ∧ (setWtFun u v w e).v = e.v := by
  unfold setWtFun
  by_cases h : pairEq e.u e.v u v = true <;> simp [h]

theorem setWtFun_ref (u v : Nat) (w : Int) (e : EdgeRec) :
    (setWtFun u v w e).data.heapRef = e.data.heapRef := by
  unfold setWtFun
  by_cases h : pairEq e.u e.v u v = true <;> simp [h]

theorem setWtFun_id (u v : Nat) (w : Int) {e : EdgeRec}
    (h : pairEq e.u e.v u v = false) : setWtFun u v w e = e := by
  unfold setWtFun
  rw [h]
  simp

/-- What one `mergeEdgeStep` does to the edge set, relative to `dst`. -/
structure MFSpec (h0 h1 : RAG) (dst : Nat) : Prop where
  nodesEq : h1.nodes = h0.nodes
  memOther : ∀ e : EdgeRec, e.u ≠ dst → e.v ≠ dst →
    (e ∈ h0.edges ↔ e ∈ h1.edges)
  fwd : ∀ e ∈ h0.edges, ∃ e2 ∈ h1.edges,
    e2.u = e.u ∧ e2.v = e.v ∧ e2.data.heapRef = e.data.heapRef
  backRef : ∀ e ∈ h1.edges, e.data.heapRef = none ∨
    ∃ e0 ∈ h0.edges, e0.u = e.u ∧ e0.v = e.v ∧
      e0.data.heapRef = e.data.heapRef
  pw : h1.edges.Pairwise (fun e1 e2 => pairEq e1.u e1.v e2.u e2.v = false)
  noSelf : ∀ e ∈ h1.edges, e.u ≠ e.v
  endpoints : ∀ e ∈ h1.edges, h1.hasNode e.u = true ∧ h1.hasNode e.v = true

theorem MFSpec.trans {h0 h1 h2 : RAG} {dst : Nat}
    (A : MFSpec h0 h1 dst) (B : MFSpec h1 h2 dst) : MFSpec h0 h2 dst := by
  refine ⟨B.nodesEq.trans A.nodesEq, ?_, ?_, ?_, B.pw, B.noSelf, B.endpoints⟩
  · intro e hu hv
    exact (A.memOther e hu hv).trans (B.memOther e hu hv)
  · intro e he
    obtain ⟨e1, he1, h1u, h1v, h1r⟩ := A.fwd e he
    obtain ⟨e2, he2, h2u, h2v, h2r⟩ := B.fwd e1 he1
    exact ⟨e2, he2, by rw [h2u, h1u], by rw [h2v, h1v], by rw [h2r, h1r]⟩
  · intro e he
    rcases B.backRef e he with hnone | ⟨e1, he1, h1u, h1v, h1r⟩
    · exact .inl hnone
    · rcases A.backRef e1 he1 with hnone | ⟨e0, he0, h0u, h0v, h0r⟩
      · exact .inl (by rw [← h1r, hnone])
      · exact .inr ⟨e0, he0, by rw [h0u, h1u], by rw [h0v, h1v],
          by rw [h0r, h1r]⟩

theorem pairEq_false_of_endpoints {a b u v : Nat} (hu : a ≠ u) (hv : b ≠ u) :
    pairEq a b u v = false := by
  cases hc : pairEq a b u v with
  | false => rfl
  | true =>
    rcases pairEq_true_iff.mp hc with ⟨h1, _⟩ | ⟨_, h2⟩
    · exact absurd h1 hu
    · exact absurd h2 hv

theorem mergeEdgeStep_spec (wf : RAG → Nat → Nat → Nat → Int) (g0 : RAG)
    (src dst : Nat) (h : RAG) (n : Nat) (hnd : n ≠ dst)
    (hdst : h.hasNode dst = true) (hn : h.hasNode n = true)
    (hpw : h.edges.Pairwise (fun e1 e2 => pairEq e1.u e1.v e2.u e2.v = false))
    (hns : ∀ e ∈ h.edges, e.u ≠ e.v)
    (hep : ∀ e ∈ h.edges, h.hasNode e.u = true ∧ h.hasNode e.v = true) :
    MFSpec h (mergeEdgeStep wf g0 src dst h n) dst := by
  unfold mergeEdgeStep
  by_cases hc : (h.getEdge dst n).isSome = true
  · rw [if_pos hc]
    have hnodes : (h.setWeight dst n (wf g0 src dst n)).nodes = h.nodes :=
      setWeight_nodes h dst n _
    refine ⟨hnodes, ?_, ?_, ?_, ?_, ?_, ?_⟩
    · intro e hu hv
      have hpe : pairEq e.u e.v dst n = false :=
        pairEq_false_of_endpoints hu hv
      rw [setWeight_eq_map]
      simp only [List.mem_map]
      constructor
      · intro hmem
        exact ⟨e, hmem, setWtFun_id dst n _ hpe⟩
      · rintro ⟨e0, he0, heq⟩
        by_cases hc0 : pairEq e0.u e0.v dst n = true
        · exfalso
          have huv := setWtFun_uv dst n (wf g0 src dst n) e0
          have : e.u = e0.u ∧ e.v = e0.v := by
            rw [← heq]
            exact ⟨huv.1, huv.2⟩
          rw [this.1, this.2, hc0] at hpe
          cases hpe
        · have hc0' : pairEq e0.u e0.v dst n = false := by
            cases hx : pairEq e0.u e0.v dst n with
            | false => rfl
            | true => exact absurd hx hc0
          rw [setWtFun_id dst n _ hc0'] at heq
          rw [← heq]
          exact he0
    · intro e he
      rw [setWeight_eq_map]
      have huv := setWtFun_uv dst n (wf g0 src dst n) e
      exact ⟨setWtFun dst n (wf g0 src dst n) e,
        List.mem_map_of_mem _ he, huv.1, huv.2, setWtFun_ref dst n _ e⟩
    · intro e he
      rw [setWeight_eq_map] at he
      obtain ⟨e0, he0, heq⟩ := List.mem_map.mp he
      have huv := setWtFun_uv dst n (wf g0 src dst n) e0
      have href := setWtFun_ref dst n (wf g0 src dst n) e0
      rw [heq] at huv href
      exact .inr ⟨e0, he0, huv.1.symm, huv.2.symm, href.symm⟩
    · rw [setWeight_eq_map]
      exact pairwise_map_uv (setWtFun_uv dst n _) hpw
    · intro e he
      rw [setWeight_eq_map] at he
      obtain ⟨e0, he0, heq⟩ := List.mem_map.mp he
      have huv := setWtFun_uv dst n (wf g0 src dst n) e0
      rw [heq] at huv
      rw [huv.1, huv.2]
      exact hns e0 he0
    · intro e he
      rw [setWeight_eq_map] at he
      obtain ⟨e0, he0, heq⟩ := List.mem_map.mp he
      have huv := setWtFun_uv dst n (wf g0 src dst n) e0
      rw [heq] at huv
      rw [hasNode_congr_nodes hnodes, hasNode_congr_nodes hnodes,
        huv.1, huv.2]
      exact hep e0 he0
  · rw [if_neg hc]
    have hfind : h.edges.find? (fun e => pairEq e.u e.v dst n) = none := by
      cases hf : h.edges.find? (fun e => pairEq e.u e.v dst n) with
      | none => rfl
      | some e =>
        exfalso
        apply hc
        unfold RAG.getEdge
        rw [hf]
        rfl
    have hall : ∀ e ∈ h.edges, pairEq e.u e.v dst n = false := by
      intro e he
      have := List.find?_eq_none.mp hfind e he
      cases hx : pairEq e.u e.v dst n with
      | false => rfl
      | true => exact absurd hx this
    have hmem : ∀ e : EdgeRec,
        e ∈ (h.addEdge dst n ⟨wf g0 src dst n, none⟩).edges ↔
        e ∈ h.edges ∨ e = ⟨dst, n, ⟨wf g0 src dst n, none⟩⟩ := by
      intro e
      unfold RAG.addEdge
      simp
    refine ⟨rfl, ?_, ?_, ?_, ?_, ?_, ?_⟩
    · intro e hu hv
      rw [hmem e]
      constructor
      · exact Or.inl
      · rintro (hh | rfl)
        · exact hh
        · exact absurd rfl hu
    · intro e he
      exact ⟨e, (hmem e).mpr (Or.inl he), rfl, rfl, rfl⟩
    · intro e he
      rcases (hmem e).mp he with hh | rfl
      · exact .inr ⟨e, hh, rfl, rfl, rfl⟩
      · exact .inl rfl
    · unfold RAG.addEdge
      simp only
      rw [List.pairwise_append]
      refine ⟨hpw, List.pairwise_singleton _ _, ?_⟩
      intro a ha b hb
      rw [List.mem_singleton] at hb
      subst hb
      exact hall a ha
    · intro e he
      rcases (hmem e).mp he with hh | rfl
      · exact hns e hh
      · exact fun hc2 => hnd (by simpa using hc2.symm)
    · intro e he
      have hnodes : (h.addEdge dst n ⟨wf g0 src dst n, none⟩).nodes =
          h.nodes := rfl
      rw [hasNode_congr_nodes hnodes, hasNode_congr_nodes hnodes]
      rcases (hmem e).mp he with hh | rfl
      · exact hep e hh
      · exact ⟨hdst, hn⟩

theorem mergeFold_spec (wf : RAG → Nat → Nat → Nat → Int) (g0 : RAG)
    (src dst : Nat) :
    ∀ (ns : List Nat) (h0 : RAG),
    (∀ n ∈ ns, n ≠ dst) → h0.hasNode dst = true →
    (∀ n ∈ ns, h0.hasNode n = true) →
    h0.edges.Pairwise (fun e1 e2 => pairEq e1.u e1.v e2.u e2.v = false) →
    (∀ e ∈ h0.edges, e.u ≠ e.v) →
    (∀ e ∈ h0.edges, h0.hasNode e.u = true ∧ h0.hasNode e.v = true) →
    MFSpec h0 (ns.foldl (mergeEdgeStep wf g0 src dst) h0) dst := by
  intro ns
  induction ns with
  | nil =>
    intro h0 _ _ _ hpw hns hep
    exact ⟨rfl, fun e _ _ => Iff.rfl, fun e he => ⟨e, he, rfl, rfl, rfl⟩,
      fun e he => .inr ⟨e, he, rfl, rfl, rfl⟩, hpw, hns, hep⟩
  | cons n rest ih =>
    intro h0 hnd hdst hall hpw hns hep
    rw [List.foldl_cons]
    have A := mergeEdgeStep_spec wf g0 src dst h0 n
      (hnd n (List.mem_cons_self n rest)) hdst
      (hall n (List.mem_cons_self n rest)) hpw hns hep
    have hhn : ∀ m, (mergeEdgeStep wf g0 src dst h0 n).hasNode m =
        h0.hasNode m := hasNode_congr_nodes A.nodesEq
    have B := ih (mergeEdgeStep wf g0 src dst h0 n)
      (fun m hm => hnd m (List.mem_cons_of_mem n hm))
      (by rw [hhn]; exact hdst)
      (fun m hm => by rw [hhn]; exact hall m (List.mem_cons_of_mem n hm))
      A.pw A.noSelf A.endpoints
    exact A.trans B

/-- What `merge_nodes(src, dst)` does to the graph. -/
structure MSpec (g gF : RAG) (src dst : Nat) : Prop where
  wfg : WFG gF
  notSrc : ∀ e ∈ gF.edges, e.u ≠ src ∧ e.v ≠ src
  keep : ∀ e ∈ g.edges, e.u ≠ src → e.v ≠ src → e.u ≠ dst → e.v ≠ dst →
    e ∈ gF.edges
  back : ∀ e ∈ gF.edges, e.u ≠ dst → e.v ≠ dst → e ∈ g.edges
  fwdRef : ∀ e ∈ g.edges, e.u ≠ src → e.v ≠ src →
    ∃ e2 ∈ gF.edges, e2.u = e.u ∧ e2.v = e.v ∧
      e2.data.heapRef = e.data.heapRef
  backRef : ∀ e ∈ gF.edges, e.data.heapRef = none ∨
    ∃ e0 ∈ g.edges, e0.u = e.u ∧ e0.v = e.v ∧
      e0.data.heapRef = e.data.heapRef
  nodeTo : ∀ m, gF.hasNode m = true → g.hasNode m = true ∧ m ≠ src
  nodeFrom : ∀ m, m ≠ src → g.hasNode m = true → gF.hasNode m = true

theorem mergeNodes_spec {wf : RAG → Nat → Nat → Nat → Int} {g : RAG}
    {src dst nid : Nat} {gF : RAG} (hwf : WFG g)
    (h : mergeNodes wf g src dst = .ok (nid, gF)) :
    nid = dst ∧ MSpec g gF src dst := by
  unfold mergeNodes at h
  cases hcond : (g.hasNode src && g.hasNode dst) with
  | false =>
    rw [hcond] at h
    simp at h
  | true =>
    rw [hcond] at h
    have hcond' := hcond
    rw [Bool.and_eq_true] at hcond'
    obtain ⟨hsrc, hdst⟩ := hcond' 
    simp only [if_true, Except.ok.injEq, Prod.mk.injEq] at h
    obtain ⟨hnid, hgF⟩ := h
    refine ⟨hnid.symm, ?_⟩
    subst hgF
    subst hnid
    set ns := ((g.neighbors src ++ g.neighbors dst).filter
      (fun n => n ≠ src && n ≠ dst)) with hns
    have hnsfact : ∀ n ∈ ns, n ≠ src ∧ n ≠ dst := by
      intro n hn
      rw [hns] at hn
      have := (List.mem_filter.mp hn).2
      simp at this
      exact this
    have hnshas : ∀ n ∈ ns, g.hasNode n = true := by
      intro n hn
      rw [hns] at hn
      have hmem := (List.mem_filter.mp hn).1
      rcases List.mem_append.mp hmem with hh | hh
      · exact neighbors_hasNode hwf.endpoints hh
      · exact neighbors_hasNode hwf.endpoints hh
    have F := mergeFold_spec wf g src dst ns g
      (fun n hn => (hnsfact n hn).2) hdst hnshas
      hwf.pairsNodup hwf.noSelf hwf.endpoints
    set g1 := ns.foldl (mergeEdgeStep wf g src dst) g with hg1
    set g2 := g1.modifyNodeData dst
      (fun nd => { nd with labels :=
        nd.labels ++ ((g.getNodeData src).getD default).labels }) with hg2
    have hedges2 : g2.edges = g1.edges := modifyNodeData_edges g1 dst _
    have hhn2 : ∀ m, g2.hasNode m = g1.hasNode m :=
      fun m => modifyNodeData_hasNode g1 dst m _
    have hhn1 : ∀ m, g1.hasNode m = g.hasNode m :=
      hasNode_congr_nodes F.nodesEq
    refine ⟨?_, ?_, ?_, ?_, ?_, ?_, ?_, ?_⟩
    · -- WFG of the result
      refine ⟨?_, ?_, ?_, ?_⟩
      · apply removeNode_nodesNodup
        have : g2.nodes.map Prod.fst = g1.nodes.map Prod.fst :=
          modifyNodeData_ids g1 dst _
        rw [this, F.nodesEq]
        exact hwf.nodesNodup
      · apply removeNode_pairwise
        rw [hedges2]
        exact F.pw
      · intro e he
        obtain ⟨he2, heu, hev⟩ := removeNode_edges_mem.mp he
        rw [hedges2] at he2
        have hep := F.endpoints e he2
        constructor
        · apply removeNode_hasNode_ne heu
          rw [hhn2]
          exact hep.1
        · apply removeNode_hasNode_ne hev
          rw [hhn2]
          exact hep.2
      · intro e he
        obtain ⟨he2, -, -⟩ := removeNode_edges_mem.mp he
        rw [hedges2] at he2
        exact F.noSelf e he2
    · intro e he
      obtain ⟨-, heu, hev⟩ := removeNode_edges_mem.mp he
      exact ⟨heu, hev⟩
    · intro e he heu hev hdu hdv
      apply removeNode_edges_mem.mpr
      refine ⟨?_, heu, hev⟩
      rw [hedges2]
      exact (F.memOther e hdu hdv).mp he
    · intro e he hdu hdv
      obtain ⟨he2, -, -⟩ := removeNode_edges_mem.mp he
      rw [hedges2] at he2
      exact (F.memOther e hdu hdv).mpr he2
    · intro e he heu hev
      obtain ⟨e2, he2, h2u, h2v, h2r⟩ := F.fwd e he
      refine ⟨e2, ?_, h2u, h2v, h2r⟩
      apply removeNode_edges_mem.mpr
      refine ⟨?_, ?_, ?_⟩
      · rw [hedges2]
        exact he2
      · rw [h2u]
        exact heu
      · rw [h2v]
        exact hev
    · intro e he
      obtain ⟨he2, -, -⟩ := removeNode_edges_mem.mp he
      rw [hedges2] at he2
      exact F.backRef e he2
    · intro m hm
      obtain ⟨hm2, hmne⟩ := removeNode_hasNode_elim hm
      rw [hhn2, hhn1] at hm2
      exact ⟨hm2, hmne⟩
    · intro m hmne hm
      apply removeNode_hasNode_ne hmne
      rw [hhn2, hhn1]
      exact hm

theorem pairEq_false_of_endpoints2 {a b u v : Nat} (ha : a ≠ v)
    (hb : b ≠ v) : pairEq a b u v = false := by
  cases hc : pairEq a b u v with
  | false => rfl
  | true =>
    rcases pairEq_true_iff.mp hc with ⟨_, h2⟩ | ⟨h1, _⟩
    · exact absurd h2 hb
    · exact absurd h1 ha

/-- An endpoint of a stored edge sees the other endpoint in its neighbor
list. -/
theorem incident_neighbor {g : RAG} (hns : ∀ e ∈ g.edges, e.u ≠ e.v)
    {e : EdgeRec} (he : e ∈ g.edges) {m : Nat} (hm : e.u = m ∨ e.v = m) :
    ∃ y ∈ g.neighbors m, pairEq e.u e.v m y = true := by
  rcases hm with hm | hm
  · refine ⟨e.v, mem_neighbors_iff.mpr ⟨e, he, .inl ⟨hm, rfl⟩⟩, ?_⟩
    apply pairEq_true_iff.mpr
    exact .inl ⟨hm, rfl⟩
  · refine ⟨e.u, mem_neighbors_iff.mpr ⟨e, he, .inr ⟨hm, rfl, ?_⟩⟩, ?_⟩
    · rw [← hm]
      exact hns e he
    · apply pairEq_true_iff.mpr
      exact .inr ⟨rfl, hm⟩

theorem invalidateIncident_entries_cases {s s1 : MState} {node : Nat}
    (h : invalidateIncident s node = .ok s1) (r : Nat) :
    entryAt s1.entries r = entryAt s.entries r ∨
    entryAt s1.entries r = { entryAt s.entries r with slot := .sfalse } := by
  by_cases hx : ∃ n ∈ s.g.neighbors node, ∃ d : EdgeData,
      s.g.getEdge node n = some d ∧ d.heapRef = some r
  · exact Or.inr ((invalidateIncident_entries h r).1 hx)
  · refine Or.inl ((invalidateIncident_entries h r).2 ?_)
    intro n hn d hd hr
    exact hx ⟨n, hn, d, hd, hr⟩

theorem applyMergeFunc_WFG {g : RAG} (hwf : WFG g)
    (mf : RAG → Nat → Nat → Nat → Int → Int) (sN dN : Nat) :
    WFG (applyMergeFunc mf g sN dN) := by
  have hids := applyMergeFunc_ids mf g sN dN
  have hhn : ∀ m, (applyMergeFunc mf g sN dN).hasNode m = g.hasNode m :=
    hasNode_eq_of_ids hids
  refine ⟨?_, ?_, ?_, ?_⟩
  · rw [hids]
    exact hwf.nodesNodup
  · rw [applyMergeFunc_edges]
    exact hwf.pairsNodup
  · intro e he
    rw [applyMergeFunc_edges] at he
    rw [hhn, hhn]
    exact hwf.endpoints e he
  · intro e he
    rw [applyMergeFunc_edges] at he
    exact hwf.noSelf e he

/-- Facts about the working graph handed to `merge_func`/`merge_nodes`,
relative to the loop state's graph `g`, covering both merge modes
(`dst = n2` in place, `dst` a fresh copy id otherwise). -/
structure CSpec (g gC : RAG) (n2 dst : Nat) : Prop where
  wfg : WFG gC
  hasDst : gC.hasNode dst = true
  back3 : ∀ e ∈ gC.edges, e.u ≠ dst → e.v ≠ dst →
    e ∈ g.edges ∧ e.u ≠ n2 ∧ e.v ≠ n2
  dstRef : ∀ e ∈ gC.edges, (e.u = dst ∨ e.v = dst) →
    ∀ rr, e.data.heapRef = some rr →
    ∃ eD ∈ g.edges, eD.u = e.u ∧ eD.v = e.v ∧ eD.data.heapRef = some rr
  keep5 : ∀ e ∈ g.edges, e.u ≠ n2 → e.v ≠ n2 →
    e ∈ gC.edges ∧ e.u ≠ dst ∧ e.v ≠ dst
  refOld : ∀ e ∈ gC.edges, ∀ rr, e.data.heapRef = some rr →
    ∃ eO ∈ g.edges, eO.data.heapRef = some rr
  dstEq : dst = n2 → ∀ e ∈ g.edges, e ∈ gC.edges

theorem CSpec_inPlace {g : RAG} (hwf : WFG g) {n2 : Nat}
    (hn2 : g.hasNode n2 = true) : CSpec g g n2 n2 := by
  refine ⟨hwf, hn2, ?_, ?_, ?_, ?_, ?_⟩
  · exact fun e he hu hv => ⟨he, hu, hv⟩
  · exact fun e he _ rr hr => ⟨e, he, rfl, rfl, hr⟩
  · exact fun e he hu hv => ⟨he, hu, hv⟩
  · exact fun e he rr hr => ⟨e, he, hr⟩
  · exact fun _ e he => he

theorem CSpec_copy {g : RAG} (hwf : WFG g) {n2 : Nat} {nd : NodeData}
    (hnd : g.getNodeData n2 = some nd) {gC : RAG}
    (h : copyNode g n2 g.nextId = .ok gC) : CSpec g gC n2 g.nextId := by
  have hclosed := copyNode_spec hwf hnd
  rw [h] at hclosed
  have hgC : gC = ⟨(g.nodes ++ [(g.nextId, nd)]).filter (fun p => p.1 ≠ n2),
      (g.edges.filter (fun e => e.u ≠ n2 && e.v ≠ n2)) ++
        (g.neighbors n2).map (fun nbr => ⟨nbr, g.nextId,
          ⟨((findEdge g.edges n2 nbr).getD default).weight, none⟩⟩)⟩ := by
    injection hclosed
  have hNode : gC.nodes = (g.nodes ++ [(g.nextId, nd)]).filter
      (fun p => p.1 ≠ n2) := by rw [hgC]
  have hEdge : gC.edges = (g.edges.filter (fun e => e.u ≠ n2 && e.v ≠ n2)) ++
      (g.neighbors n2).map (fun nbr => ⟨nbr, g.nextId,
        ⟨((findEdge g.edges n2 nbr).getD default).weight, none⟩⟩) := by
    rw [hgC]
  have hn2has : g.hasNode n2 = true := getNodeData_some_hasNode hnd
  have hfresh : ∀ m, g.hasNode m = true → m ≠ g.nextId := by
    intro m hm
    have := node_id_lt_nextId hm
    omega
  have hn2c : n2 ≠ g.nextId := hfresh n2 hn2has
  have hEfresh : ∀ e ∈ g.edges, e.u ≠ g.nextId ∧ e.v ≠ g.nextId :=
    fun e he => ⟨hfresh _ (hwf.endpoints e he).1,
      hfresh _ (hwf.endpoints e he).2⟩
  have hnodeC : ∀ m, ((g.hasNode m = true ∧ m ≠ n2) ∨ m = g.nextId) →
      gC.hasNode m = true := by
    intro m hm
    apply hasNode_iff.mpr
    rw [hNode]
    rcases hm with ⟨hm, hne⟩ | rfl
    · obtain ⟨p, hp, hpe⟩ := hasNode_iff.mp hm
      refine ⟨p, ?_, hpe⟩
      rw [List.mem_filter]
      refine ⟨List.mem_append_left _ hp, ?_⟩
      simp only [decide_eq_true_eq]
      rw [hpe]
      exact hne
    · refine ⟨(g.nextId, nd), ?_, rfl⟩
      rw [List.mem_filter]
      refine ⟨List.mem_append_right _ (List.mem_singleton_self _), ?_⟩
      simp only [decide_eq_true_eq]
      exact fun hcon => hn2c hcon.symm
  have hememb : ∀ e : EdgeRec, e ∈ gC.edges ↔
      ((e ∈ g.edges ∧ e.u ≠ n2 ∧ e.v ≠ n2) ∨
       (∃ nbr ∈ g.neighbors n2, e = ⟨nbr, g.nextId,
         ⟨((findEdge g.edges n2 nbr).getD default).weight, none⟩⟩)) := by
    intro e
    rw [hEdge]
    simp only [List.mem_append, List.mem_filter, List.mem_map]
    constructor
    · rintro (⟨he, hf⟩ | ⟨nbr, hnbr, heq⟩)
      · refine .inl ⟨he, ?_⟩
        simpa using hf
      · exact .inr ⟨nbr, hnbr, heq.symm⟩
    · rintro (⟨he, hu, hv⟩ | ⟨nbr, hnbr, heq⟩)
      · refine .inl ⟨he, by simp [hu, hv]⟩
      · exact .inr ⟨nbr, hnbr, heq.symm⟩
  have hwfC : WFG gC := by
    refine ⟨?_, ?_, ?_, ?_⟩
    · rw [hNode]
      have hsub : (((g.nodes ++ [(g.nextId, nd)]).filter
          (fun p => p.1 ≠ n2)).map Prod.fst).Sublist
          ((g.nodes ++ [(g.nextId, nd)]).map Prod.fst) :=
        List.Sublist.map Prod.fst (List.filter_sublist _)
      refine List.Nodup.sublist hsub ?_
      rw [List.map_append]
      refine List.Nodup.append hwf.nodesNodup (by simp) ?_
      rw [List.disjoint_left]
      intro a ha hb
      simp only [List.map_cons, List.map_nil, List.mem_singleton] at hb
      obtain ⟨p, hp, hpe⟩ := List.mem_map.mp ha
      have : g.hasNode a = true := hasNode_iff.mpr ⟨p, hp, hpe⟩
      exact hfresh a this hb
    · rw [hEdge]
      rw [List.pairwise_append]
      refine ⟨hwf.pairsNodup.sublist (List.filter_sublist _), ?_, ?_⟩
      · rw [List.pairwise_map]
        have hnd2 := neighbors_nodup hwf.pairsNodup n2
        refine hnd2.imp_of_mem ?_
        intro a b ha hb hab
        have ha' : a ≠ g.nextId :=
          hfresh a (neighbors_hasNode hwf.endpoints ha)
        cases hc : pairEq a g.nextId b g.nextId with
        | false => rfl
        | true =>
          exfalso
          rcases pairEq_true_iff.mp hc with ⟨h1, _⟩ | ⟨h1, _⟩
          · exact hab h1
          · exact ha' h1
      · intro a ha b hb
        obtain ⟨nbr, hnbr, heq⟩ := List.mem_map.mp hb
        have haE := (List.mem_filter.mp ha).1
        have hfr := hEfresh a haE
        subst heq
        exact pairEq_false_of_endpoints2 hfr.1 hfr.2
    · intro e he
      rcases (hememb e).mp he with ⟨heg, hu, hv⟩ | ⟨nbr, hnbr, heq⟩
      · exact ⟨hnodeC e.u (.inl ⟨(hwf.endpoints e heg).1, hu⟩),
          hnodeC e.v (.inl ⟨(hwf.endpoints e heg).2, hv⟩)⟩
      · subst heq
        exact ⟨hnodeC nbr (.inl ⟨neighbors_hasNode hwf.endpoints hnbr,
            neighbors_ne_self hwf.noSelf hnbr⟩),
          hnodeC g.nextId (.inr rfl)⟩
    · intro e he
      rcases (hememb e).mp he with ⟨heg, -, -⟩ | ⟨nbr, hnbr, heq⟩
      · exact hwf.noSelf e heg
      · subst heq
        exact hfresh nbr (neighbors_hasNode hwf.endpoints hnbr)
  refine ⟨hwfC, hnodeC g.nextId (.inr rfl), ?_, ?_, ?_, ?_, ?_⟩
  · intro e he hu hv
    rcases (hememb e).mp he with ⟨heg, h2u, h2v⟩ | ⟨nbr, hnbr, heq⟩
    · exact ⟨heg, h2u, h2v⟩
    · exfalso
      apply hv
      rw [heq]
  · intro e he hinc rr hr
    rcases (hememb e).mp he with ⟨heg, -, -⟩ | ⟨nbr, hnbr, heq⟩
    · exfalso
      have hfr := hEfresh e heg
      rcases hinc with hh | hh
      · exact hfr.1 hh
      · exact hfr.2 hh
    · exfalso
      rw [heq] at hr
      cases hr
  · intro e he hu hv
    exact ⟨(hememb e).mpr (.inl ⟨he, hu, hv⟩), (hEfresh e he).1,
      (hEfresh e he).2⟩
  · intro e he rr hr
    rcases (hememb e).mp he with ⟨heg, -, -⟩ | ⟨nbr, hnbr, heq⟩
    · exact ⟨e, heg, hr⟩
    · exfalso
      rw [heq] at hr
      cases hr
  · intro hdn2 e he
    exact absurd hdn2.symm hn2c

/-- The merge body preserves the queue invariant: given the stage facts for
the invalidation passes (`hD*`), the pre-merge graph (`C`) and the merge
(`M`), the revalidation pass re-establishes `Inv`. -/
theorem mergeBody_inv {s s2 : MState} {r0 n2src dstN : Nat} {gC gF : RAG}
    {mf : RAG → Nat → Nat → Nat → Int → Int}
    (hI : Inv s) (hr0 : r0 ∈ s.heap)
    (htr : (entryAt s.entries r0).slot.truthy = true)
    (hs2g : s2.g = s.g)
    (hs2heap : s2.heap = removeFirst s.heap r0)
    (hs2len : s2.entries.length = s.entries.length)
    (hD1 : ∀ r : Nat, entryAt s2.entries r = entryAt s.entries r ∨
      entryAt s2.entries r = { entryAt s.entries r with slot := .sfalse })
    (hD2 : ∀ e ∈ s.g.edges, ∀ r : Nat, e.data.heapRef = some r →
      (e.u = (entryAt s.entries r0).a ∨ e.v = (entryAt s.entries r0).a) →
      entryAt s2.entries r = { entryAt s.entries r with slot := .sfalse })
    (hD2b : ∀ e ∈ s.g.edges, ∀ r : Nat, e.data.heapRef = some r →
      (e.u = n2src ∨ e.v = n2src) →
      entryAt s2.entries r = { entryAt s.entries r with slot := .sfalse } ∨
      dstN = n2src)
    (hD3 : ∀ e ∈ s.g.edges, ∀ r : Nat, e.data.heapRef = some r →
      e.u ≠ (entryAt s.entries r0).a → e.v ≠ (entryAt s.entries r0).a →
      e.u ≠ n2src → e.v ≠ n2src →
      entryAt s2.entries r = entryAt s.entries r)
    (C : CSpec s.g gC n2src dstN)
    (M : MSpec (applyMergeFunc mf gC (entryAt s.entries r0).a dstN) gF
      (entryAt s.entries r0).a dstN) :
    Inv (revalidateNodeEdges { s2 with g := gF } dstN) := by
  have hL3 : ({ s2 with g := gF } : MState).entries.length =
      s.entries.length := hs2len
  -- the revalidation characterisation
  have R := revalFold_spec dstN (gF.neighbors dstN) { s2 with g := gF }
    (neighbors_nodup M.wfg.pairsNodup dstN)
    (fun n hn => neighbors_ne_self M.wfg.noSelf hn)
    M.wfg.pairsNodup
    (by
      intro n hn
      obtain ⟨e, he, hp⟩ := neighbors_mem_edge hn
      have : ({ s2 with g := gF } : MState).g.getEdge dstN n = some e.data :=
        getEdge_eq_of_mem M.wfg.pairsNodup he hp
      rw [this]
      rfl)
    (by
      intro n hn d hgd rr hdr
      obtain ⟨eN, heN, heNd, heNp⟩ := getEdge_some_elim hgd
      have heNref : eN.data.heapRef = some rr := by rw [heNd]; exact hdr
      rcases M.backRef eN heN with hnone | ⟨e0, he0, h0u, h0v, h0r⟩
      · rw [hnone] at heNref
        cases heNref
      · rw [applyMergeFunc_edges] at he0
        have h0ref : e0.data.heapRef = some rr := by rw [h0r]; exact heNref
        obtain ⟨eO, heO, hOr⟩ := C.refOld e0 he0 rr h0ref
        obtain ⟨r', hr1, hr2, -, -, -⟩ := hI.edgeOK eO heO
        rw [hOr] at hr1
        have hrr' : rr = r' := by injection hr1
        have := hI.heapLt r' hr2
        rw [hL3]
        omega)
  show Inv ((gF.neighbors dstN).foldl (revalStep dstN) { s2 with g := gF })
  -- the popped edge
  obtain ⟨eP, hePmem, hePref, hePpair⟩ := hI.validBack r0 hr0 htr
  have hePn1 : eP.u = (entryAt s.entries r0).a ∨
      eP.v = (entryAt s.entries r0).a := by
    rcases pairEq_true_iff.mp hePpair with ⟨h1, -⟩ | ⟨h1, -⟩
    · exact .inl h1.symm
    · exact .inr h1.symm
  have hhnF : ∀ m, ((gF.neighbors dstN).foldl (revalStep dstN)
      { s2 with g := gF }).g.hasNode m = gF.hasNode m :=
    hasNode_congr_nodes R.nodesEq
  refine ⟨⟨?_, R.pw, ?_, ?_⟩, ?_, ?_, ?_, ?_⟩
  · -- nodesNodup
    rw [R.nodesEq]
    exact M.wfg.nodesNodup
  · -- endpoints
    intro e he
    obtain ⟨e0, he0, h0u, h0v, -⟩ := R.uvw e he
    rw [hhnF, hhnF, h0u, h0v]
    exact M.wfg.endpoints e0 he0
  · -- noSelf
    intro e he
    obtain ⟨e0, he0, h0u, h0v, -⟩ := R.uvw e he
    rw [h0u, h0v]
    exact M.wfg.noSelf e0 he0
  · -- heapNodup
    rw [R.heapEq]
    refine List.Nodup.append ?_ (List.nodup_range' _ _) ?_
    · show s2.heap.Nodup
      rw [hs2heap]
      exact removeFirst_nodup hI.heapNodup
    · rw [List.disjoint_left]
      intro a ha hb
      have haS : a ∈ s.heap :=
        mem_removeFirst (by rw [← hs2heap]; exact ha)
      have h1 := hI.heapLt a haS
      have h2 := (List.mem_range'_1.mp hb).1
      rw [hL3] at h2
      omega
  · -- heapLt
    intro r hr
    rw [R.heapEq] at hr
    have hlen := R.len
    rw [hL3] at hlen
    rcases List.mem_append.mp hr with hh | hh
    · have hrs : r ∈ s.heap :=
        mem_removeFirst (by rw [← hs2heap]; exact hh)
      have := hI.heapLt r hrs
      omega
    · have := List.mem_range'_1.mp hh
      rw [hL3] at this
      omega
  · -- edgeOK
    intro e he
    by_cases hdst : e.u = dstN ∨ e.v = dstN
    · -- a dst-incident edge: re-seeded by the revalidation pass
      obtain ⟨e0, he0F, h0u, h0v, -⟩ := R.uvw e he
      by_cases hud : e.u = dstN
      · -- other endpoint is e.v
        have he0dst : e0.u = dstN := by rw [← h0u]; exact hud
        have hxmem : e.v ∈ gF.neighbors dstN :=
          mem_neighbors_iff.mpr ⟨e0, he0F, .inl ⟨he0dst, h0v.symm⟩⟩
        obtain ⟨j, hj, hgetD⟩ := mem_iff_getD hxmem
        have hnew := R.newEdge j hj
        rw [hgetD] at hnew
        have hmine : ((gF.neighbors dstN).foldl (revalStep dstN)
            { s2 with g := gF }).g.getEdge dstN e.v = some e.data :=
          getEdge_eq_of_mem R.pw he
            (pairEq_true_iff.mpr (.inl ⟨hud, rfl⟩))
        rw [hmine] at hnew
        have hdata := (Option.some.injEq _ _).mp hnew
        have hpush := R.pushed j hj
        rw [hgetD] at hpush
        refine ⟨({ s2 with g := gF } : MState).entries.length + j,
          ?_, ?_, ?_, ?_, ?_⟩
        · rw [hdata]
        · rw [R.heapEq]
          apply List.mem_append_right
          exact List.mem_range'_1.mpr ⟨Nat.le_add_right _ _,
            by omega⟩
        · rw [hpush]
          rfl
        · rw [hpush, hdata]
        · rw [hpush]
          exact pairEq_true_iff.mpr (.inl ⟨hud.symm, rfl⟩)
      · have hvd : e.v = dstN := by
          rcases hdst with hh | hh
          · exact absurd hh hud
          · exact hh
        have he0dst : e0.v = dstN := by rw [← h0v]; exact hvd
        have hxmem : e.u ∈ gF.neighbors dstN :=
          mem_neighbors_iff.mpr ⟨e0, he0F, .inr ⟨he0dst, h0u.symm,
            by rw [← h0u]; exact hud⟩⟩
        obtain ⟨j, hj, hgetD⟩ := mem_iff_getD hxmem
        have hnew := R.newEdge j hj
        rw [hgetD] at hnew
        have hmine : ((gF.neighbors dstN).foldl (revalStep dstN)
            { s2 with g := gF }).g.getEdge dstN e.u = some e.data :=
          getEdge_eq_of_mem R.pw he
            (pairEq_true_iff.mpr (.inr ⟨rfl, hvd⟩))
        rw [hmine] at hnew
        have hdata := (Option.some.injEq _ _).mp hnew
        have hpush := R.pushed j hj
        rw [hgetD] at hpush
        refine ⟨({ s2 with g := gF } : MState).entries.length + j,
          ?_, ?_, ?_, ?_, ?_⟩
        · rw [hdata]
        · rw [R.heapEq]
          apply List.mem_append_right
          exact List.mem_range'_1.mpr ⟨Nat.le_add_right _ _,
            by omega⟩
        · rw [hpush]
          rfl
        · rw [hpush, hdata]
        · rw [hpush]
          exact pairEq_true_iff.mpr (.inr ⟨hvd.symm, rfl⟩)
    · -- an untouched edge: its original entry is still live
      push_neg at hdst
      obtain ⟨hu, hv⟩ := hdst
      have heF : e ∈ gF.edges := (R.memIff e hu hv).mpr he
      have hnotsrc := M.notSrc e heF
      have heM := M.back e heF hu hv
      rw [applyMergeFunc_edges] at heM
      obtain ⟨heS, hn2u, hn2v⟩ := C.back3 e heM hu hv
      obtain ⟨rr, hrr, hrheap, hrtruthy, hrw, hrpair⟩ := hI.edgeOK e heS
      have hrheaplt := hI.heapLt rr hrheap
      have hne_eP : e ≠ eP := by
        intro hcon
        subst hcon
        rcases hePn1 with hh | hh
        · exact hnotsrc.1 hh
        · exact hnotsrc.2 hh
      have hrr0 : rr ≠ r0 := by
        intro hcon
        subst hcon
        exact hne_eP (hI.refInj heS hePmem hrr hePref)
      have hstage1 : entryAt s2.entries rr = entryAt s.entries rr :=
        hD3 e heS rr hrr hnotsrc.1 hnotsrc.2 hn2u hn2v
      have huncond : ∀ n ∈ gF.neighbors dstN, ∀ d : EdgeData,
          ({ s2 with g := gF } : MState).g.getEdge dstN n = some d →
          d.heapRef ≠ some rr := by
        intro n hn d hgd hdr
        obtain ⟨eN, heN, heNd, heNp⟩ := getEdge_some_elim hgd
        have heNref : eN.data.heapRef = some rr := by rw [heNd]; exact hdr
        rcases M.backRef eN heN with hnone | ⟨e0, he0, h0u, h0v, h0r⟩
        · rw [hnone] at heNref
          cases heNref
        · rw [applyMergeFunc_edges] at he0
          have h0ref : e0.data.heapRef = some rr := by
            rw [h0r]
            exact heNref
          have heNdst : eN.u = dstN ∨ eN.v = dstN := by
            rcases pairEq_true_iff.mp heNp with ⟨h1, -⟩ | ⟨-, h2⟩
            · exact .inl h1
            · exact .inr h2
          have he0dst : e0.u = dstN ∨ e0.v = dstN := by
            rcases heNdst with hh | hh
            · exact .inl (by rw [h0u]; exact hh)
            · exact .inr (by rw [h0v]; exact hh)
          obtain ⟨eD, heD, hDu, hDv, hDr⟩ := C.dstRef e0 he0 he0dst rr h0ref
          have hneD : e ≠ eD := by
            intro hcon
            subst hcon
            rcases he0dst with hh | hh
            · exact hu (by rw [hDu]; exact hh)
            · exact hv (by rw [hDv]; exact hh)
          exact hneD (hI.refInj heS heD hrr hDr)
      have hfinal : entryAt ((gF.neighbors dstN).foldl (revalStep dstN)
          { s2 with g := gF }).entries rr = entryAt s.entries rr :=
        (R.untouched rr (by rw [hL3]; omega) huncond).trans hstage1
      refine ⟨rr, hrr, ?_, ?_, ?_, ?_⟩
      · rw [R.heapEq]
        apply List.mem_append_left
        show rr ∈ s2.heap
        rw [hs2heap]
        exact mem_removeFirst_of_ne hrheap hrr0
      · rw [hfinal]
        exact hrtruthy
      · rw [hfinal]
        exact hrw
      · rw [hfinal]
        exact hrpair
  · -- validBack
    intro r hrmem htr1
    rw [R.heapEq] at hrmem
    rcases List.mem_append.mp hrmem with hrL | hrR
    · -- an old entry that stayed truthy
      have hrL' : r ∈ removeFirst s.heap r0 := by
        rw [← hs2heap]
        exact hrL
      have hrS : r ∈ s.heap := mem_removeFirst hrL'
      have hrlt : r < s.entries.length := hI.heapLt r hrS
      have hstep2 : entryAt ((gF.neighbors dstN).foldl (revalStep dstN)
          { s2 with g := gF }).entries r = entryAt s2.entries r := by
        rcases R.oldEnt r (by rw [hL3]; omega) with h1 | h1
        · exact h1
        · exfalso
          rw [h1] at htr1
          simp [Slot.truthy] at htr1
      have hstage1 : entryAt s2.entries r = entryAt s.entries r := by
        rcases hD1 r with h1 | h1
        · exact h1
        · exfalso
          rw [hstep2, h1] at htr1
          simp [Slot.truthy] at htr1
      have htrS : (entryAt s.entries r).slot.truthy = true := by
        rw [hstep2, hstage1] at htr1
        exact htr1
      obtain ⟨eB, heB, hBref, hBpair⟩ := hI.validBack r hrS htrS
      by_cases hBn1 : eB.u = (entryAt s.entries r0).a ∨
          eB.v = (entryAt s.entries r0).a
      · exfalso
        have := hD2 eB heB r hBref hBn1
        rw [hstep2, this] at htr1
        simp [Slot.truthy] at htr1
      · push_neg at hBn1
        by_cases hBn2 : eB.u = n2src ∨ eB.v = n2src
        · rcases hD2b eB heB r hBref hBn2 with hdead | hdsteq
          · exfalso
            rw [hstep2, hdead] at htr1
            simp [Slot.truthy] at htr1
          · -- in-place mode: the edge was merged into dst and re-seeded
            have heBC : eB ∈ gC.edges := C.dstEq hdsteq eB heB
            have heBM : eB ∈ (applyMergeFunc mf gC
                (entryAt s.entries r0).a dstN).edges := by
              rw [applyMergeFunc_edges]
              exact heBC
            obtain ⟨e2, he2F, h2u, h2v, h2r⟩ :=
              M.fwdRef eB heBM hBn1.1 hBn1.2
            have h2ref : e2.data.heapRef = some r := by
              rw [h2r]
              exact hBref
            have h2dst : e2.u = dstN ∨ e2.v = dstN := by
              rcases hBn2 with hh | hh
              · refine .inl ?_
                rw [h2u, hh]
                exact hdsteq.symm
              · refine .inr ?_
                rw [h2v, hh]
                exact hdsteq.symm
            obtain ⟨y, hy, hypair⟩ :=
              incident_neighbor M.wfg.noSelf he2F h2dst
            have hgety : ({ s2 with g := gF } : MState).g.getEdge dstN y =
                some e2.data :=
              getEdge_eq_of_mem M.wfg.pairsNodup he2F hypair
            have hinv := R.invalidated y hy e2.data hgety r h2ref
            exfalso
            rw [hinv] at htr1
            simp [Slot.truthy] at htr1
        · push_neg at hBn2
          obtain ⟨heBC, hBdu, hBdv⟩ := C.keep5 eB heB hBn2.1 hBn2.2
          have heBM : eB ∈ (applyMergeFunc mf gC
              (entryAt s.entries r0).a dstN).edges := by
            rw [applyMergeFunc_edges]
            exact heBC
          have heBF : eB ∈ gF.edges :=
            M.keep eB heBM hBn1.1 hBn1.2 hBdu hBdv
          have heBs : eB ∈ ((gF.neighbors dstN).foldl (revalStep dstN)
              { s2 with g := gF }).g.edges :=
            (R.memIff eB hBdu hBdv).mp heBF
          refine ⟨eB, heBs, hBref, ?_⟩
          rw [hstep2, hstage1]
          exact hBpair
    · -- a freshly pushed entry
      obtain ⟨j, hj, hjr⟩ : ∃ j, j < (gF.neighbors dstN).length ∧
          ({ s2 with g := gF } : MState).entries.length + j = r := by
        have := List.mem_range'_1.mp hrR
        exact ⟨r - ({ s2 with g := gF } : MState).entries.length,
          by omega, by omega⟩
      have hpush := R.pushed j hj
      rw [hjr] at hpush
      have hnew := R.newEdge j hj
      rw [hjr] at hnew
      obtain ⟨eW, heW, heWd, heWp⟩ := getEdge_some_elim hnew
      refine ⟨eW, heW, ?_, ?_⟩
      · rw [heWd]
      · rw [hpush]
        rw [pairEq_symm]
        exact heWp

theorem hasNode_getNodeData {g : RAG} {n : Nat} (h : g.hasNode n = true) :
    ∃ nd : NodeData, g.getNodeData n = some nd := by
  obtain ⟨p, hp, hpe⟩ := hasNode_iff.mp h
  unfold RAG.getNodeData
  cases hf : g.nodes.find? (fun q => q.1 = n) with
  | none =>
    exfalso
    have := List.find?_eq_none.mp hf p hp
    simp [hpe] at this
  | some q =>
    exact ⟨q.2, rfl⟩

/-- A truthy pop followed by a successful merge body preserves the queue
invariant. -/
theorem stepBody_inv {mf : RAG → Nat → Nat → Nat → Int → Int}
    {wf : RAG → Nat → Nat → Nat → Int} {inPlace : Bool} {s s1 : MState}
    {r0 : Nat} (hI : Inv s) (hr0 : r0 ∈ s.heap)
    (htr : (entryAt s.entries r0).slot.truthy = true)
    (hb : stepBody mf wf inPlace { s with heap := removeFirst s.heap r0 }
      (entryAt s.entries r0).a (entryAt s.entries r0).b = .ok s1) :
    Inv s1 := by
  obtain ⟨eP, hePmem, hePref, hePpair⟩ := hI.validBack r0 hr0 htr
  have hep := hI.wfg.endpoints eP hePmem
  have hn2has : s.g.hasNode (entryAt s.entries r0).b = true := by
    rcases pairEq_true_iff.mp hePpair with ⟨-, h2⟩ | ⟨-, h2⟩
    · rw [h2]
      exact hep.2
    · rw [h2]
      exact hep.1
  unfold stepBody at hb
  cases hA : invalidateIncident { s with heap := removeFirst s.heap r0 }
      (entryAt s.entries r0).a with
  | error e =>
    rw [hA] at hb
    simp [Bind.bind, Except.bind] at hb
  | ok sA =>
    rw [hA] at hb
    obtain ⟨hgA, hhA, hlA⟩ := invalidateIncident_pres hA
    -- stage-one entry facts, shared by both modes
    have hD2A : ∀ e ∈ s.g.edges, ∀ r : Nat, e.data.heapRef = some r →
        (e.u = (entryAt s.entries r0).a ∨ e.v = (entryAt s.entries r0).a) →
        entryAt sA.entries r = { entryAt s.entries r with slot := .sfalse } := by
      intro e he r hr hinc
      obtain ⟨y, hy, hyp⟩ := incident_neighbor hI.wfg.noSelf he hinc
      have hget : s.g.getEdge (entryAt s.entries r0).a y = some e.data :=
        getEdge_eq_of_mem hI.wfg.pairsNodup he hyp
      exact (invalidateIncident_entries hA r).1 ⟨y, hy, e.data, hget, hr⟩
    have hD3A : ∀ e ∈ s.g.edges, ∀ r : Nat, e.data.heapRef = some r →
        e.u ≠ (entryAt s.entries r0).a → e.v ≠ (entryAt s.entries r0).a →
        entryAt sA.entries r = entryAt s.entries r := by
      intro e he r hr hau hav
      refine (invalidateIncident_entries hA r).2 ?_
      intro y hy d hgd hdr
      obtain ⟨eY, heY, heYd, heYp⟩ := getEdge_some_elim hgd
      have heYref : eY.data.heapRef = some r := by
        rw [heYd]
        exact hdr
      have heYn1 : eY.u = (entryAt s.entries r0).a ∨
          eY.v = (entryAt s.entries r0).a := by
        rcases pairEq_true_iff.mp heYp with ⟨h1, -⟩ | ⟨-, h2⟩
        · exact .inl h1
        · exact .inr h2
      have hne : e ≠ eY := by
        intro hcon
        subst hcon
        rcases heYn1 with hh | hh
        · exact hau hh
        · exact hav hh
      exact hne (hI.refInj he heY hr heYref)
    cases inPlace with
    | true =>
      simp only [Bind.bind, Except.bind, if_true, pure, Except.pure,
        mergePair] at hb
      cases h2 : mergeNodes wf (applyMergeFunc mf sA.g
          (entryAt s.entries r0).a (entryAt s.entries r0).b)
          (entryAt s.entries r0).a (entryAt s.entries r0).b with
      | error e =>
        rw [h2] at hb
        cases hb
      | ok pr =>
        rw [h2] at hb
        obtain ⟨nid, gF⟩ := pr
        simp only [Except.ok.injEq] at hb
        have hWFA : WFG sA.g := by
          rw [hgA]
          exact hI.wfg
        obtain ⟨hnid, M⟩ := mergeNodes_spec (applyMergeFunc_WFG hWFA mf _ _) h2
        subst hnid
        rw [← hb]
        have C : CSpec s.g sA.g (entryAt s.entries r0).b
            (entryAt s.entries r0).b := by
          rw [hgA]
          exact CSpec_inPlace hI.wfg hn2has
        refine mergeBody_inv hI hr0 htr hgA hhA hlA
          (fun r => invalidateIncident_entries_cases hA r) hD2A
          (fun e he r hr hinc => Or.inr rfl)
          (fun e he r hr hau hav h2u h2v => hD3A e he r hr hau hav) C M
    | false =>
      simp only [Bind.bind, Except.bind, Bool.false_eq_true, if_false,
        mergePair, pure, Except.pure] at hb
      cases h1b : invalidateIncident sA (entryAt s.entries r0).b with
      | error e =>
        rw [h1b] at hb
        cases hb
      | ok s2x =>
        rw [h1b] at hb
        simp only [Except.ok.injEq] at hb
        obtain ⟨hg2, hh2, hl2⟩ := invalidateIncident_pres h1b
        have hgq : s2x.g = s.g := by
          rw [hg2, hgA]
        rw [hgq] at hb
        cases h2 : copyNode s.g (entryAt s.entries r0).b s.g.nextId with
        | error e =>
          rw [h2] at hb
          cases hb
        | ok gC =>
          rw [h2] at hb
          simp only [Except.ok.injEq] at hb
          cases h3 : mergeNodes wf (applyMergeFunc mf gC
              (entryAt s.entries r0).a s.g.nextId)
              (entryAt s.entries r0).a s.g.nextId with
          | error e =>
            rw [h3] at hb
            cases hb
          | ok pr =>
            rw [h3] at hb
            obtain ⟨nid, gF⟩ := pr
            simp only [Except.ok.injEq] at hb
            obtain ⟨nd2, hnd2⟩ := hasNode_getNodeData hn2has
            have C : CSpec s.g gC (entryAt s.entries r0).b s.g.nextId :=
              CSpec_copy hI.wfg hnd2 h2
            obtain ⟨hnid, M⟩ :=
              mergeNodes_spec (applyMergeFunc_WFG C.wfg mf _ _) h3
            subst hnid
            rw [← hb]
            -- combined stage facts
            have hD1 : ∀ r : Nat,
                entryAt s2x.entries r = entryAt s.entries r ∨
                entryAt s2x.entries r =
                  { entryAt s.entries r with slot := .sfalse } := by
              intro r
              rcases invalidateIncident_entries_cases h1b r with h2c | h2c <;>
                rcases invalidateIncident_entries_cases hA r with h1c | h1c
              · exact .inl (h2c.trans h1c)
              · exact .inr (h2c.trans h1c)
              · refine .inr ?_
                rw [h2c, h1c]
              · refine .inr ?_
                rw [h2c, h1c]
            have hD2 : ∀ e ∈ s.g.edges, ∀ r : Nat,
                e.data.heapRef = some r →
                (e.u = (entryAt s.entries r0).a ∨
                  e.v = (entryAt s.entries r0).a) →
                entryAt s2x.entries r =
                  { entryAt s.entries r with slot := .sfalse } := by
              intro e he r hr hinc
              have hstage1 := hD2A e he r hr hinc
              rcases invalidateIncident_entries_cases h1b r with h2c | h2c
              · exact h2c.trans hstage1
              · rw [h2c, hstage1]
            have hD2b : ∀ e ∈ s.g.edges, ∀ r : Nat,
                e.data.heapRef = some r →
                (e.u = (entryAt s.entries r0).b ∨
                  e.v = (entryAt s.entries r0).b) →
                entryAt s2x.entries r =
                  { entryAt s.entries r with slot := .sfalse } ∨
                s.g.nextId = (entryAt s.entries r0).b := by
              intro e he r hr hinc
              refine .inl ?_
              obtain ⟨y, hy, hyp⟩ :=
                incident_neighbor hI.wfg.noSelf he hinc
              have hget : s.g.getEdge (entryAt s.entries r0).b y =
                  some e.data :=
                getEdge_eq_of_mem hI.wfg.pairsNodup he hyp
              have hstage2 := (invalidateIncident_entries h1b r).1
                ⟨y, by rw [hgA]; exact hy, e.data,
                  by rw [hgA]; exact hget, hr⟩
              rcases invalidateIncident_entries_cases hA r with h1c | h1c <;>
                rw [hstage2, h1c]
            have hD3 : ∀ e ∈ s.g.edges, ∀ r : Nat,
                e.data.heapRef = some r →
                e.u ≠ (entryAt s.entries r0).a →
                e.v ≠ (entryAt s.entries r0).a →
                e.u ≠ (entryAt s.entries r0).b →
                e.v ≠ (entryAt s.entries r0).b →
                entryAt s2x.entries r = entryAt s.entries r := by
              intro e he r hr hau hav hbu hbv
              have hstage1 := hD3A e he r hr hau hav
              have hstage2 : entryAt s2x.entries r = entryAt sA.entries r := by
                refine (invalidateIncident_entries h1b r).2 ?_
                intro y hy d hgd hdr
                obtain ⟨eY, heY, heYd, heYp⟩ := getEdge_some_elim hgd
                rw [hgA] at heY
                have heYref : eY.data.heapRef = some r := by
                  rw [heYd]
                  exact hdr
                have heYn2 : eY.u = (entryAt s.entries r0).b ∨
                    eY.v = (entryAt s.entries r0).b := by
                  rcases pairEq_true_iff.mp heYp with ⟨h1, -⟩ | ⟨-, h2⟩
                  · exact .inl h1
                  · exact .inr h2
                have hne : e ≠ eY := by
                  intro hcon
                  subst hcon
                  rcases heYn2 with hh | hh
                  · exact hbu hh
                  · exact hbv hh
                exact hne (hI.refInj he heY hr heYref)
              exact hstage2.trans hstage1
            exact mergeBody_inv hI hr0 htr hgq
              (by rw [hh2, hhA]) (by rw [hl2, hlA])
              hD1 hD2 hD2b hD3 C M

/-- One `.next` loop iteration (stale pop or merge) preserves the queue
invariant. -/
theorem iter_next_inv {mf : RAG → Nat → Nat → Nat → Int → Int}
    {wf : RAG → Nat → Nat → Nat → Int} {th : Int} {ip : Bool}
    {s s1 : MState} {rec : IterRec} (hI : Inv s)
    (h : iter mf wf th ip s = .next s1 rec) : Inv s1 := by
  unfold iter at h
  cases hmin : minKeyId s.entries s.heap with
  | none =>
    rw [hmin] at h
    cases h
  | some r =>
    rw [hmin] at h
    simp only at h
    have hrmem : r ∈ s.heap := minKeyId_mem hmin
    by_cases hw : (entryAt s.entries r).weight < th
    · rw [if_pos hw] at h
      by_cases hv : (entryAt s.entries r).slot.truthy
      · rw [if_pos hv] at h
        cases hsb : stepBody mf wf ip { s with heap := removeFirst s.heap r }
            (entryAt s.entries r).a (entryAt s.entries r).b with
        | ok s3 =>
          rw [hsb] at h
          cases h
          exact stepBody_inv hI hrmem hv hsb
        | error e =>
          rw [hsb] at h
          cases h
      · rw [if_neg hv] at h
        cases h
        refine ⟨hI.wfg, removeFirst_nodup hI.heapNodup, ?_, ?_, ?_⟩
        · intro r' hr'
          exact hI.heapLt r' (mem_removeFirst hr')
        · intro e he
          obtain ⟨rr, h1, h2, h3, h4, h5⟩ := hI.edgeOK e he
          refine ⟨rr, h1, ?_, h3, h4, h5⟩
          apply mem_removeFirst_of_ne h2
          intro hcon
          subst hcon
          exact hv h3
        · intro r' hr' htr'
          exact hI.validBack r' (mem_removeFirst hr') htr'
    · rw [if_neg hw] at h
      cases h

/-- The queue invariant holds at every iteration boundary. -/
theorem iterateK_inv {mf : RAG → Nat → Nat → Nat → Int → Int}
    {wf : RAG → Nat → Nat → Nat → Int} {th : Int} {ip : Bool} :
    ∀ (k : Nat) {s sF : MState}, Inv s →
    iterateK mf wf th ip k s = some sF → Inv sF := by
  intro k
  induction k with
  | zero =>
    intro s sF hI h
    unfold iterateK at h
    injection h with h2
    subst h2
    exact hI
  | succ k ih =>
    intro s sF hI h
    unfold iterateK at h
    cases hit : iter mf wf th ip s with
    | next s2 rec =>
      rw [hit] at h
      exact ih (iter_next_inv hI hit) h
    | stop s2 =>
      rw [hit] at h
      cases h
    | fail e s2 rec =>
      rw [hit] at h
      cases h

/-- C1's claim at an iteration boundary: at most one valid queued entry per
unordered pair, every valid entry names an edge currently in the graph, and
every edge's stored reference is a valid entry carrying the edge's current
weight. -/
def C1prop (s : MState) : Prop :=
  (∀ r1 ∈ s.heap, ∀ r2 ∈ s.heap,
    (entryAt s.entries r1).slot.truthy = true →
    (entryAt s.entries r2).slot.truthy = true →
    pairEq (entryAt s.entries r1).a (entryAt s.entries r1).b
      (entryAt s.entries r2).a (entryAt s.entries r2).b = true →
    r1 = r2) ∧
  (∀ r ∈ s.heap, (entryAt s.entries r).slot.truthy = true →
    ∃ e ∈ s.g.edges,
      pairEq (entryAt s.entries r).a (entryAt s.entries r).b e.u e.v
        = true) ∧
  (∀ e ∈ s.g.edges, ∃ r, e.data.heapRef = some r ∧ r ∈ s.heap ∧
    (entryAt s.entries r).slot.truthy = true ∧
    (entryAt s.entries r).weight = e.data.weight)

theorem Inv.c1prop {s : MState} (hI : Inv s) : C1prop s := by
  refine ⟨?_, ?_, ?_⟩
  · intro r1 h1 r2 h2 ht1 ht2 hp
    obtain ⟨e1, he1, hr1, hp1⟩ := hI.validBack r1 h1 ht1
    obtain ⟨e2, he2, hr2, hp2⟩ := hI.validBack r2 h2 ht2
    have hq1 : pairEq e1.u e1.v (entryAt s.entries r1).a
        (entryAt s.entries r1).b = true := by
      rw [pairEq_symm]
      exact hp1
    have hq2 : pairEq (entryAt s.entries r2).a (entryAt s.entries r2).b
        (entryAt s.entries r1).a (entryAt s.entries r1).b = true := by
      rw [pairEq_symm]
      exact hp
    have h12 := pairEq_trans hq1 hq2
    have hq3 : pairEq e2.u e2.v (entryAt s.entries r2).a
        (entryAt s.entries r2).b = true := by
      rw [pairEq_symm]
      exact hp2
    have h12' := pairEq_trans h12 hq3
    have he12 : e1 = e2 := pairwise_mem_eq hI.wfg.pairsNodup he1 he2 h12'
    subst he12
    rw [hr1] at hr2
    injection hr2
  · intro r hr htr
    obtain ⟨e, he, -, hp⟩ := hI.validBack r hr htr
    exact ⟨e, he, hp⟩
  · intro e he
    obtain ⟨r, h1, h2, h3, h4, -⟩ := hI.edgeOK e he
    exact ⟨r, h1, h2, h3, h4⟩

/-- C1: at every iteration boundary of the contraction loop run from the
seeded queue of a well-formed graph — for every merge/weight callback pair,
threshold, and merge mode — the queue holds at most one valid entry per
unordered endpoint pair, every valid entry corresponds to an edge currently
present in the graph (so no valid entry survives for a removed edge), and
every present edge's stored heap reference points to a valid entry whose
weight equals the edge's current weight. -/
theorem C1_queue_invariant {g : RAG} (hwf : WFG g)
    (mf : RAG → Nat → Nat → Nat → Int → Int)
    (wf : RAG → Nat → Nat → Nat → Int) (thresh : Int) (inPlace : Bool)
    (k : Nat) {sF : MState}
    (h : iterateK mf wf thresh inPlace k (initHeap g) = some sF) :
    C1prop sF :=
  (iterateK_inv k (Inv_init hwf) h).c1prop

theorem C1_queue_invariant_witness : C1prop (initHeap pathGraph) :=
  C1_queue_invariant ⟨by decide, by decide, by decide, by decide⟩
    mfId wfZero 10 true 0 rfl

end GraphMerge
